import Mathlib

/-!
# xv6: write-ahead log, copy-on-write page allocator and `sys_pgaccess`

Sources: kernel/log.c, kernel/kalloc.c, kernel/sysproc.c.

A shallow embedding of the two resource managers and of `sys_pgaccess`, and the properties
proved about them.

Conventions of the embedding.
* C `int` values (`log.lh.n`, `log.outstanding`, `log.size`, the reference counts) are `Int`;
  block numbers handed to the block cache are `uint`, obtained from an `int` by `blockno_of`
  (reduction modulo 2^32) and stored back into an `int` by `int_of`.
* A disk block is seen as an array of `int` words (`Block`); the log header block is the overlay
  of `struct logheader`: word 0 is `n`, word `1+i` is `block[i]`.
* `acquire`/`release` of a spinlock delimit an atomic section and change no modelled state; a
  `sleep` gives up the processor with the state unchanged, `wakeup` changes no modelled state.
* A `panic` halts the kernel: it is an outcome `Res.panic` that carries the state at the halt.
* The reference counts `useRef[]` are 32-bit: `++` and `--` on them are computed modulo 2^32 in
  two's complement (`wrap_int`), so a count of 2147483647 that is incremented becomes
  -2147483648. The counters of the log (`log.lh.n`, `log.outstanding`) are unbounded; where
  their range matters to a statement it is a hypothesis.
* Physical memory is an array of bytes; the free list of the allocator is the chain of `next`
  pointers stored in the first 8 bytes of the free pages.
-/

namespace Xv6

/-! ## Outcomes -/

/-- The kernel halts that the modelled code can raise. -/
inductive Panic
  | tooBig        -- panic("too big a transaction")
  | outsideTrans  -- panic("log_write outside of trans")
  | committing    -- panic("log.committing")
  | kfree         -- panic("kfree")
  deriving DecidableEq, Repr

/-- Result of running kernel code: it returns with a state, or halts in a state. -/
inductive Res (σ : Type)
  | ok (s : σ)
  | panic (p : Panic) (s : σ)

/-- The halt raised, if any. -/
def Res.panicOf {σ : Type} : Res σ → Option Panic
  | .ok _ => none
  | .panic p _ => some p

/-- The state at return or at the halt. -/
def Res.state {σ : Type} : Res σ → σ
  | .ok s => s
  | .panic _ s => s

/-- Pointwise update of a function. -/
def upd {β : Type} (f : Nat → β) (a : Nat) (v : β) : Nat → β :=
  fun x => if x = a then v else f x

/-! ## Block cache -/

/-- A disk block, as the array of `int` words it holds. -/
abbrev Block := Nat → Int

/-- Modelled from the spec: the Block Cache (`bread`, `bwrite`, `brelse`, `bpin`, `bunpin` of
bio.c, which is not among the sources). `disk` is the durable content, `cache` the buffers
currently held in memory (a buffer, once loaded, keeps its content until a crash: only buffers
whose content equals the disk are ever recycled), `refcnt` the reference count of each buffer.
All calls of log.c use the single device `log.dev`. -/
structure Bio where
  disk : Nat → Block
  cache : Nat → Option Block
  refcnt : Nat → Int

/-- Content of the buffer of block `b`: the cached copy if there is one, else the disk's. -/
def Bio.view (c : Bio) (b : Nat) : Block :=
  match c.cache b with
  | some d => d
  | none => c.disk b

/-- Modelled from the spec: `read(device, blockNumber)`: the buffer is loaded from disk unless
cached, and gains a reference. -/
def bread (c : Bio) (b : Nat) : Bio :=
  { c with cache := upd c.cache b (some (c.view b)), refcnt := upd c.refcnt b (c.refcnt b + 1) }

/-- Assignment to `buf->data` of the buffer of block `b`. -/
def setData (c : Bio) (b : Nat) (d : Block) : Bio :=
  { c with cache := upd c.cache b (some d) }

/-- Modelled from the spec: `write(block)`: synchronous, durable write of the buffer. -/
def bwrite (c : Bio) (b : Nat) : Bio :=
  { c with disk := upd c.disk b (c.view b) }

/-- Modelled from the spec: `release(block)`. -/
def brelse (c : Bio) (b : Nat) : Bio :=
  { c with refcnt := upd c.refcnt b (c.refcnt b - 1) }

/-- Modelled from the spec: `pin(block)`. -/
def bpin (c : Bio) (b : Nat) : Bio :=
  { c with refcnt := upd c.refcnt b (c.refcnt b + 1) }

/-- Modelled from the spec: `unpin(block)`. -/
def bunpin (c : Bio) (b : Nat) : Bio :=
  { c with refcnt := upd c.refcnt b (c.refcnt b - 1) }

/-! ## Log state -/

/-- Conversion of an `int` to the `uint` block number passed to the block cache. -/
def blockno_of (x : Int) : Nat := (x % 4294967296).toNat

/-- Conversion of a `uint` block number to the `int` stored in the header. -/
def int_of (b : Nat) : Int :=
  if b % 4294967296 < 2147483648 then ((b % 4294967296 : Nat) : Int)
  else ((b % 4294967296 : Nat) : Int) - 4294967296

/-- The `struct logheader`: count and logged block numbers. -/
structure LogHeader where
  n : Int
  block : Nat → Int

/-- The `struct log` (without its lock and device number). -/
structure Log where
  start : Int
  size : Int
  outstanding : Int
  committing : Int
  lh : LogHeader

/-- The log together with the block cache it drives. -/
structure FS where
  log : Log
  bio : Bio

/-- Constants of param.h, which is not among the sources. -/
structure Param where
  LOGSIZE : Int
  MAXOPBLOCKS : Int

/-- Block number of log slot `tail`: `log.start+tail+1`. -/
def slotno (l : Log) (tail : Nat) : Nat := blockno_of (l.start + (tail : Int) + 1)

/-- Home block number of header entry `tail`: `log.lh.block[tail]`. -/
def homeno (l : Log) (tail : Nat) : Nat := blockno_of (l.lh.block tail)

/-- Block number of the header block: `log.start`. -/
def headno (l : Log) : Nat := blockno_of l.start

/-- One iteration of the loop of `install_trans`. -/
def install_trans_body (l : Log) (recovering : Int) (c : Bio) (tail : Nat) : Bio :=
  let c := bread c (slotno l tail)                     -- lbuf
  let c := bread c (homeno l tail)                     -- dbuf
  let c := setData c (homeno l tail) (c.view (slotno l tail))   -- memmove
  let c := bwrite c (homeno l tail)
  let c := if recovering = 0 then bunpin c (homeno l tail) else c
  let c := brelse c (slotno l tail)
  brelse c (homeno l tail)

/-- The first `k` iterations of the loop of `install_trans`. -/
def install_trans_upto (l : Log) (recovering : Int) (k : Nat) (c : Bio) : Bio :=
  (List.range k).foldl (install_trans_body l recovering) c

/-- The function `install_trans`: copy committed blocks from log to their home location. -/
def install_trans (recovering : Int) (s : FS) : FS :=
  { s with bio := install_trans_upto s.log recovering s.log.lh.n.toNat s.bio }

/-- The function `read_head`: read the log header from disk into the in-memory log header. -/
def read_head (s : FS) : FS :=
  let c := bread s.bio (headno s.log)
  let lh := c.view (headno s.log)
  let n := lh 0
  let blk := (List.range n.toNat).foldl (fun blk i => upd blk i (lh (1 + i))) s.log.lh.block
  { log := { s.log with lh := { n := n, block := blk } }, bio := brelse c (headno s.log) }

/-- The function `write_head`: write the in-memory log header to disk. -/
def write_head (s : FS) : FS :=
  let c := bread s.bio (headno s.log)
  let hb := c.view (headno s.log)
  let hb := upd hb 0 s.log.lh.n
  let hb := (List.range s.log.lh.n.toNat).foldl (fun hb i => upd hb (1 + i) (s.log.lh.block i)) hb
  let c := setData c (headno s.log) hb
  let c := bwrite c (headno s.log)
  { s with bio := brelse c (headno s.log) }

/-- Assignment `log.lh.n = 0`. -/
def clear_n (s : FS) : FS :=
  { s with log := { s.log with lh := { s.log.lh with n := 0 } } }

/-- The function `recover_from_log` of the source. -/
def recover_from_log (s : FS) : FS :=
  let s := read_head s
  let s := install_trans 1 s
  let s := clear_n s
  write_head s

/-- One iteration of the loop of `write_log`. -/
def write_log_body (l : Log) (c : Bio) (tail : Nat) : Bio :=
  let c := bread c (slotno l tail)                     -- to
  let c := bread c (homeno l tail)                     -- from
  let c := setData c (slotno l tail) (c.view (homeno l tail))   -- memmove
  let c := bwrite c (slotno l tail)
  let c := brelse c (homeno l tail)
  brelse c (slotno l tail)

/-- The first `k` iterations of the loop of `write_log`. -/
def write_log_upto (l : Log) (k : Nat) (c : Bio) : Bio :=
  (List.range k).foldl (write_log_body l) c

/-- The function `write_log`: copy modified blocks from cache to log. -/
def write_log (s : FS) : FS :=
  { s with bio := write_log_upto s.log s.log.lh.n.toNat s.bio }

/-- The function `commit` of the source. -/
def commit (s : FS) : FS :=
  if s.log.lh.n > 0 then
    let s := write_log s
    let s := write_head s
    let s := install_trans 0 s
    let s := clear_n s
    write_head s
  else s

/-- The run of `commit` cut off right after its step `k` (1: `write_log`, 2: `write_head`,
3: `install_trans`, 4: the erasing `write_head`); `k = 0` is the state before `commit`. -/
def commit_upto (k : Nat) (s : FS) : FS :=
  if s.log.lh.n > 0 then
    let s := if 1 ≤ k then write_log s else s
    let s := if 2 ≤ k then write_head s else s
    let s := if 3 ≤ k then install_trans 0 s else s
    if 4 ≤ k then write_head (clear_n s) else s
  else s

/-- The run of `commit` cut off inside `write_log`, after `k` log slots have been written. -/
def commit_in_write_log (k : Nat) (s : FS) : FS :=
  if s.log.lh.n > 0 then
    { s with bio := write_log_upto s.log (min k s.log.lh.n.toNat) s.bio }
  else s

/-- A crash followed by the reboot up to the call of `recover_from_log` in `initlog`: the disk
is kept, every buffer of the cache is lost, the `struct log` is zeroed and gets `start` and
`size` back from the superblock. -/
def crash (s : FS) : FS :=
  { log := { start := s.log.start, size := s.log.size, outstanding := 0, committing := 0,
             lh := { n := 0, block := fun _ => 0 } },
    bio := { disk := s.bio.disk, cache := fun _ => none, refcnt := fun _ => 0 } }

/-- Block `b` lies in the log region `[log.start, log.start + log.size)`. -/
def inLogRegion (l : Log) (b : Nat) : Prop :=
  ∃ j : Nat, j < l.size.toNat ∧ b = blockno_of (l.start + (j : Int))

instance (l : Log) (b : Nat) : Decidable (inLogRegion l b) := by
  unfold inLogRegion
  infer_instance

/-- A transaction of one block: block 10 is registered and its buffer holds 7 in every word,
while the disk holds 0 everywhere; the log region is blocks 2 to 5. -/
def oneBlockTrans : FS :=
  { log := { start := 2, size := 4, outstanding := 0, committing := 1,
             lh := { n := 1, block := fun _ => 10 } },
    bio := { disk := fun _ _ => 0,
             cache := fun b => if b = 10 then some (fun _ => 7) else none,
             refcnt := fun b => if b = 10 then 1 else 0 } }

/-- The on-disk header count. -/
def diskCount (s : FS) : Int := s.bio.disk (headno s.log) 0

/-- Content after copying, for `i < k` in order, the block `v (src i)` to place `dst i`. -/
def copied (src dst : Nat → Nat) (v : Nat → Block) (f : Nat → Block) : Nat → (Nat → Block)
  | 0 => f
  | k + 1 => upd (copied src dst v f k) (dst k) (v (src k))

/-- The header block that `write_head` builds from the buffer content `hb`. -/
def hdr_image (lh : LogHeader) (hb : Block) : Block :=
  (List.range lh.n.toNat).foldl (fun hb i => upd hb (1 + i) (lh.block i)) (upd hb 0 lh.n)

/-! ## Admission, registration and end of operations -/

/-- One pass through the `while(1)` loop of `begin_op`, inside the `log.lock` section: the
new log and whether the caller was admitted (`break`); when it is not, the caller sleeps with
the log unchanged and makes another pass once woken. -/
def begin_op_iter (P : Param) (l : Log) : Log × Bool :=
  if l.committing ≠ 0 then (l, false)                                      -- sleep
  else if l.lh.n + (l.outstanding + 1) * P.MAXOPBLOCKS > P.LOGSIZE then (l, false)   -- sleep
  else ({ l with outstanding := l.outstanding + 1 }, true)

/-- The loop `for (i = 0; i < log.lh.n; i++) if (log.lh.block[i] == b->blockno) break;` of
`log_write`: the value of `i` after it. -/
def absorb_index (lh : LogHeader) (b : Nat) : Nat :=
  match (List.range lh.n.toNat).find? (fun i => decide (blockno_of (lh.block i) = b)) with
  | some i => i
  | none => lh.n.toNat

/-- The function `log_write`, called on the buffer of block `b`. -/
def log_write (P : Param) (s : FS) (b : Nat) : Res FS :=
  if s.log.lh.n ≥ P.LOGSIZE ∨ s.log.lh.n ≥ s.log.size - 1 then .panic .tooBig s
  else if s.log.outstanding < 1 then .panic .outsideTrans s
  else
    let i := absorb_index s.log.lh b
    let blk := upd s.log.lh.block i (int_of b)
    if (i : Int) = s.log.lh.n then
      .ok { log := { s.log with lh := { n := s.log.lh.n + 1, block := blk } },
            bio := bpin s.bio b }
    else
      .ok { s with log := { s.log with lh := { n := s.log.lh.n, block := blk } } }

/-- The first `log.lock` section of `end_op`: the new log and the value of `do_commit`. -/
def end_op_enter (l : Log) : Res (Log × Bool) :=
  let l := { l with outstanding := l.outstanding - 1 }
  if l.committing ≠ 0 then .panic .committing (l, false)
  else if l.outstanding = 0 then .ok ({ l with committing := 1 }, true)
  else .ok (l, false)

/-- The second `log.lock` section of `end_op`, run by the committer after `commit`. -/
def end_op_exit (l : Log) : Log :=
  { l with committing := 0 }

/-- The function `end_op`, run without interleaving. -/
def end_op (s : FS) : Res FS :=
  match end_op_enter s.log with
  | .panic p (l, _) => .panic p { s with log := l }
  | .ok (l, do_commit) =>
    if do_commit then
      let s := commit { s with log := l }
      .ok { s with log := end_op_exit s.log }
    else .ok { s with log := l }

/-- The use of `log_write` by a file-system operation, as documented above `log_write`:
`bp = bread(...)`, modify `bp->data[]` (here: to `d`), `log_write(bp)`, `brelse(bp)`. -/
def logged_write (P : Param) (s : FS) (b : Nat) (d : Block) : Res FS :=
  let c := bread s.bio b
  let c := setData c b d
  match log_write P { s with bio := c } b with
  | .panic p s => .panic p s
  | .ok s => .ok { s with bio := brelse s.bio b }

/-- A sequence of logged writes `(block, content)`, stopped by the first halt. -/
def logged_writes (P : Param) : FS → List (Nat × Block) → Res FS
  | s, [] => .ok s
  | s, (b, d) :: ws =>
    match logged_write P s b d with
    | .panic p s => .panic p s
    | .ok s => logged_writes P s ws

/-- The content last written to block `b` in a sequence of logged writes. -/
def lastWrite : List (Nat × Block) → Nat → Option Block
  | [], _ => none
  | (b', d) :: ws, b =>
    match lastWrite ws b with
    | some d' => some d'
    | none => if b' = b then some d else none

/-- The calls that concern a transaction once it is open: a logged write of some operation,
an `end_op` of some operation, or a pass of another caller through the loop of `begin_op`. -/
inductive TxStep
  | write (b : Nat) (d : Block)
  | endOp
  | beginOp

/-- One step of a transaction: `logged_write`, `end_op`, or the `log.lock` section of
`begin_op` (the caller is admitted, or sleeps with the log unchanged). -/
def txStep (P : Param) (s : FS) : TxStep → Res FS
  | .write b d => logged_write P s b d
  | .endOp => end_op s
  | .beginOp => .ok { s with log := (begin_op_iter P s.log).1 }

/-- A sequence of steps, stopped by the first halt. -/
def txRun (P : Param) : FS → List TxStep → Res FS
  | s, [] => .ok s
  | s, a :: acts =>
    match txStep P s a with
    | .panic p s => .panic p s
    | .ok s => txRun P s acts

/-- The logged writes `(block, content)` of a sequence of steps, in order. -/
def writesOf : List TxStep → List (Nat × Block)
  | [] => []
  | .write b d :: acts => (b, d) :: writesOf acts
  | .endOp :: acts => writesOf acts
  | .beginOp :: acts => writesOf acts

/-- The steps stay inside one open transaction: none of the `end_op` calls of the sequence is
the committing one, each is made while at least one other operation is outstanding. -/
def OneTrans (P : Param) : FS → List TxStep → Prop
  | _, [] => True
  | s, a :: acts =>
    (match a with
      | .write _ _ => True
      | .endOp => 2 ≤ s.log.outstanding
      | .beginOp => True) ∧
    (match txStep P s a with
      | .ok s => OneTrans P s acts
      | .panic _ _ => True)

instance OneTrans.dec (P : Param) :
    ∀ (s : FS) (acts : List TxStep), Decidable (OneTrans P s acts)
  | _, [] => isTrue trivial
  | s, a :: acts => by
    unfold OneTrans
    have h1 : Decidable (match a with
        | .write _ _ => True
        | .endOp => 2 ≤ s.log.outstanding
        | .beginOp => True) := by
      cases a <;> simp only <;> infer_instance
    have h2 : Decidable (match txStep P s a with
        | .ok s => OneTrans P s acts
        | .panic _ _ => True) := by
      cases txStep P s a with
      | ok t => exact OneTrans.dec P t acts
      | panic p t => exact isTrue trivial
    exact instDecidableAnd

/-- The block numbers registered in the header, in slot order. -/
def hdrList (lh : LogHeader) : List Nat :=
  (List.range lh.n.toNat).map (fun i => blockno_of (lh.block i))

/-- Values of param.h in xv6: `MAXOPBLOCKS` is 10 and `LOGSIZE` is `MAXOPBLOCKS*3`. -/
def xv6Param : Param := { LOGSIZE := 30, MAXOPBLOCKS := 10 }

/-- A log whose header is full: 30 registered blocks 100 to 129, three operations outstanding,
a log region of 32 blocks starting at block 2. -/
def fullHeader : FS :=
  { log := { start := 2, size := 32, outstanding := 3, committing := 0,
             lh := { n := 30, block := fun i => 100 + (i : Int) } },
    bio := { disk := fun _ _ => 0, cache := fun _ => none, refcnt := fun _ => 0 } }

/-- Registration of block `b` in a list of registered blocks, with absorption. -/
def register (H : List Nat) (b : Nat) : List Nat :=
  if b ∈ H then H else H ++ [b]

/-- Registration of the blocks `bs` in order. -/
def registerAll (H : List Nat) (bs : List Nat) : List Nat :=
  bs.foldl register H

/-- An open transaction with an empty header and one operation outstanding; the log region is
blocks 2 to 5 and the disk holds 0 everywhere. -/
def emptyTrans : FS :=
  { log := { start := 2, size := 4, outstanding := 1, committing := 0,
             lh := { n := 0, block := fun _ => 0 } },
    bio := { disk := fun _ _ => 0, cache := fun _ => none, refcnt := fun _ => 0 } }

/-! ## Physical page allocator (kernel/kalloc.c) -/

/-- Modelled from the spec: the page size `PGSIZE` of riscv.h (not among the sources): pages
are 4096-byte units. -/
def PGSIZE : Nat := 4096

/-- Constants of memlayout.h and kernel.ld (not among the sources): `KERNBASE`, `PHYSTOP`, and
`end`, the first address after the kernel (here `kend`). -/
structure Layout where
  KERNBASE : Nat
  PHYSTOP : Nat
  kend : Nat

/-- Modelled from the spec: the macro `PGROUNDUP` of riscv.h (not among the sources): the
address rounded up to a multiple of the page size. -/
def PGROUNDUP (a : Nat) : Nat := (a + PGSIZE - 1) / PGSIZE * PGSIZE

/-- Modelled from the spec: the macro `COWINDEX` (not among the sources): the index of the page
of address `pa`, `(address − base) >> 12`, in `uint64` arithmetic. -/
def COWINDEX (L : Layout) (pa : Nat) : Nat :=
  (pa + (18446744073709551616 - L.KERNBASE)) % 18446744073709551616 / 4096

/-- The globals `cow_counting` and `kmem` (without their locks) and the physical memory, byte
by byte. The null pointer is 0. -/
structure Kmem where
  useRef : Nat → Int
  freelist : Nat
  mem : Nat → Nat

/-- The call `memset(pa, c, n)`. -/
def memset (m : Nat → Nat) (pa c n : Nat) : Nat → Nat :=
  fun a => if pa ≤ a ∧ a < pa + n then c % 256 else m a

/-- Store of the 8-byte pointer `v` at address `a` (little-endian). -/
def write64 (m : Nat → Nat) (a v : Nat) : Nat → Nat :=
  fun x => if a ≤ x ∧ x < a + 8 then v / 256 ^ (x - a) % 256 else m x

/-- Load of the 8-byte pointer at address `a` (little-endian). -/
def read64 (m : Nat → Nat) (a : Nat) : Nat :=
  m a % 256 + 256 * (m (a + 1) % 256 + 256 * (m (a + 2) % 256 + 256 * (m (a + 3) % 256
    + 256 * (m (a + 4) % 256 + 256 * (m (a + 5) % 256 + 256 * (m (a + 6) % 256
    + 256 * (m (a + 7) % 256)))))))

/-- The function `cowinit` of the source. -/
def cowinit (L : Layout) (s : Kmem) : Kmem :=
  { s with useRef :=
      (List.range ((L.PHYSTOP - L.KERNBASE) / 4096)).foldl (fun u i => upd u i 1) s.useRef }

/-- The value that a 32-bit `int` holds after an arithmetic result `x`: the representative of
`x` modulo 2^32 in `[-2147483648, 2147483647]`. -/
def wrap_int (x : Int) : Int := (x + 2147483648) % 4294967296 - 2147483648

/-- The function `cowinc` of the source: `useRef[COWINDEX(pa)]++` on an `int`. -/
def cowinc (L : Layout) (s : Kmem) (pa : Nat) : Kmem :=
  { s with useRef := upd s.useRef (COWINDEX L pa) (wrap_int (s.useRef (COWINDEX L pa) + 1)) }

/-- The function `cowdec` of the source: `useRef[COWINDEX(pa)]--` on an `int`. -/
def cowdec (L : Layout) (s : Kmem) (pa : Nat) : Kmem :=
  { s with useRef := upd s.useRef (COWINDEX L pa) (wrap_int (s.useRef (COWINDEX L pa) - 1)) }

/-- The function `cowgetref` of the source. -/
def cowgetref (L : Layout) (s : Kmem) (pa : Nat) : Int :=
  s.useRef (COWINDEX L pa)

/-- The function `kfree` of the source. -/
def kfree (L : Layout) (s : Kmem) (pa : Nat) : Res Kmem :=
  if pa % PGSIZE ≠ 0 ∨ pa < L.kend ∨ pa ≥ L.PHYSTOP then .panic .kfree s
  else
    let s := cowdec L s pa
    if cowgetref L s pa = 0 then
      let m := memset s.mem pa 1 PGSIZE
      let m := write64 m pa s.freelist            -- r->next = kmem.freelist
      .ok { s with mem := m, freelist := pa }     -- kmem.freelist = r
    else .ok s

/-- The function `kalloc`: the new state and the pointer returned. -/
def kalloc (L : Layout) (s : Kmem) : Kmem × Nat :=
  let r := s.freelist
  if r ≠ 0 then
    let s := { s with freelist := read64 s.mem r }     -- kmem.freelist = r->next
    let s := cowinc L s r
    ({ s with mem := memset s.mem r 5 PGSIZE }, r)
  else (s, r)

/-- The function `freerange`: `kfree` of the pages `p`, `p + PGSIZE`, ... from
`p = PGROUNDUP(pa_start)` as long as `p + PGSIZE <= pa_end`, that is for the first
`(pa_end - p) / PGSIZE` pages; stopped by a halt. -/
def freerange (L : Layout) (s : Kmem) (pa_start pa_end : Nat) : Res Kmem :=
  (List.range ((pa_end - PGROUNDUP pa_start) / PGSIZE)).foldl
    (fun r i =>
      match r with
      | .ok s => kfree L s (PGROUNDUP pa_start + i * PGSIZE)
      | .panic p s => .panic p s)
    (.ok s)

/-- The allocator globals at boot (zeroed `.bss`) with physical memory `m0`. -/
def boot (m0 : Nat → Nat) : Kmem :=
  { useRef := fun _ => 0, freelist := 0, mem := m0 }

/-- The function `kinit` of the source. -/
def kinit (L : Layout) (s : Kmem) : Res Kmem :=
  let s := cowinit L s
  freerange L s L.kend L.PHYSTOP

/-- The reference count of the page of address `pa`. -/
def refcount (L : Layout) (s : Kmem) (pa : Nat) : Int := s.useRef (COWINDEX L pa)

/-- The page-aligned addresses `p` of the pages in `[PGROUNDUP(end), PHYSTOP)`. -/
def managed (L : Layout) (p : Nat) : Prop :=
  p % PGSIZE = 0 ∧ PGROUNDUP L.kend ≤ p ∧ p < L.PHYSTOP

instance (L : Layout) (p : Nat) : Decidable (managed L p) := by
  unfold managed
  infer_instance

/-- The free list in memory `m` from head pointer `h` is the chain of pages `Lst`: each page
holds in its first 8 bytes the pointer to the next, the last holds the null pointer. -/
def FreeChain (m : Nat → Nat) : Nat → List Nat → Prop
  | h, [] => h = 0
  | h, p :: Lst => h = p ∧ p ≠ 0 ∧ FreeChain m (read64 m p) Lst

instance FreeChain.dec (m : Nat → Nat) : ∀ (h : Nat) (Lst : List Nat),
    Decidable (FreeChain m h Lst)
  | h, [] => by unfold FreeChain; infer_instance
  | h, p :: Lst => by
    unfold FreeChain
    have := FreeChain.dec m (read64 m p) Lst
    infer_instance

/-- Page `p` is on the free list. -/
def OnFreeList (s : Kmem) (p : Nat) : Prop :=
  ∃ Lst, FreeChain s.mem s.freelist Lst ∧ p ∈ Lst

/-- Assumptions on the memory layout: the kernel lies above `KERNBASE` and above address 0,
`PHYSTOP` is page-aligned and fits a `uint64`. -/
def LayoutOk (L : Layout) : Prop :=
  L.KERNBASE ≤ L.kend ∧ 0 < L.kend ∧ L.PHYSTOP % PGSIZE = 0 ∧
  L.PHYSTOP < 18446744073709551616

instance (L : Layout) : Decidable (LayoutOk L) := by
  unfold LayoutOk
  infer_instance

/-- The allocator invariant: every count is at least 0 (and, being an `int`, at most
2147483647), and the free list is a chain of distinct pages of `[PGROUNDUP(end), PHYSTOP)`
that holds exactly those of count 0. -/
def AllocInv (L : Layout) (s : Kmem) : Prop :=
  (∀ i, 0 ≤ s.useRef i ∧ s.useRef i ≤ 2147483647) ∧
  ∃ Lst, FreeChain s.mem s.freelist Lst ∧ Lst.Nodup ∧ (∀ p ∈ Lst, managed L p) ∧
    (∀ p, managed L p → (p ∈ Lst ↔ refcount L s p = 0))

/-- The calls of the allocator interface. -/
inductive AllocOp
  | kalloc
  | kfree (pa : Nat)
  | cowinc (pa : Nat)

/-- One call of the allocator interface. -/
def runOp (L : Layout) (s : Kmem) : AllocOp → Res Kmem
  | .kalloc => .ok (kalloc L s).1
  | .kfree pa => kfree L s pa
  | .cowinc pa => .ok (cowinc L s pa)

/-- A sequence of calls, stopped by the first halt. -/
def runOps (L : Layout) : Kmem → List AllocOp → Res Kmem
  | s, [] => .ok s
  | s, op :: ops =>
    match runOp L s op with
    | .ok s => runOps L s ops
    | .panic p s => .panic p s

/-- The calls of the sequence release and share only pages in use, and share no page whose
count has reached the largest `int`: every `kfree` is applied to a page whose count is at
least 1 at the time of the call, every `cowinc` to a page whose count is at least 1 and below
2147483647. -/
def InUseOnly (L : Layout) : Kmem → List AllocOp → Prop
  | _, [] => True
  | s, op :: ops =>
    (match op with
      | .kalloc => True
      | .kfree pa => 1 ≤ refcount L s pa
      | .cowinc pa => 1 ≤ refcount L s pa ∧ refcount L s pa < 2147483647) ∧
    (match runOp L s op with
      | .ok s => InUseOnly L s ops
      | .panic _ _ => True)

instance InUseOnly.dec (L : Layout) :
    ∀ (s : Kmem) (ops : List AllocOp), Decidable (InUseOnly L s ops)
  | _, [] => isTrue trivial
  | s, op :: ops => by
    unfold InUseOnly
    have h1 : Decidable (match op with
        | .kalloc => True
        | .kfree pa => 1 ≤ refcount L s pa
        | .cowinc pa => 1 ≤ refcount L s pa ∧ refcount L s pa < 2147483647) := by
      cases op <;> simp only <;> infer_instance
    have h2 : Decidable (match runOp L s op with
        | .ok s => InUseOnly L s ops
        | .panic _ _ => True) := by
      cases runOp L s op with
      | ok t => exact InUseOnly.dec L t ops
      | panic p t => exact isTrue trivial
    exact instDecidableAnd

/-- A small machine: `KERNBASE` is 4096, the kernel ends at 8192 and `PHYSTOP` is 16384, so
the allocator manages the two pages 8192 and 12288. -/
def tinyLayout : Layout := { KERNBASE := 4096, PHYSTOP := 16384, kend := 8192 }

/-! ## Executions of the log: interleaved steps of the contexts that use it -/

/-- The atomic steps of an execution. Each `log.lock` section is one step, and so is the run of
`commit`, which `end_op` calls outside the lock; `o` names the operation (the context that
runs it). -/
inductive Ev
  | beginTry (o : Nat)          -- one pass of the loop of `begin_op`
  | write (o : Nat) (b : Nat)   -- `log_write` on the buffer of block `b`
  | endEnter (o : Nat)          -- first lock section of `end_op`
  | doCommit (o : Nat)          -- `commit()` called by `end_op` when `do_commit` is set
  | endExit (o : Nat)           -- second lock section of `end_op`
  deriving DecidableEq

/-- The log, with the bookkeeping of who is where: `active` lists the operations admitted by
`begin_op` that have not yet called `end_op`, each with the distinct blocks it has written;
`committers` lists the contexts that left the first lock section of `end_op` with `do_commit`
set and have not run the second one, each with whether its `commit()` has returned. -/
structure Sys where
  fs : FS
  active : List (Nat × List Nat)
  committers : List (Nat × Bool)

/-- The blocks written so far by the admitted operation `o`. -/
def written : List (Nat × List Nat) → Nat → Option (List Nat)
  | [], _ => none
  | (o', W) :: rest, o => if o' = o then some W else written rest o

/-- Record that operation `o` wrote block `b`. -/
def noteWrite (o b : Nat) : List (Nat × List Nat) → List (Nat × List Nat)
  | [] => []
  | (o', W) :: rest =>
    if o' = o then (o', if b ∈ W then W else b :: W) :: rest
    else (o', W) :: noteWrite o b rest

/-- Remove operation `o` from the admitted operations. -/
def eraseOp (o : Nat) : List (Nat × List Nat) → List (Nat × List Nat)
  | [] => []
  | (o', W) :: rest => if o' = o then rest else (o', W) :: eraseOp o rest

/-- One step of an execution. -/
def step (P : Param) (s : Sys) : Ev → Res Sys
  | .beginTry o =>
    let r := begin_op_iter P s.fs.log
    .ok { s with fs := { s.fs with log := r.1 },
                 active := if r.2 then (o, []) :: s.active else s.active }
  | .write o b =>
    match log_write P s.fs b with
    | .panic p fs => .panic p { s with fs := fs }
    | .ok fs => .ok { s with fs := fs, active := noteWrite o b s.active }
  | .endEnter o =>
    match end_op_enter s.fs.log with
    | .panic p r => .panic p { s with fs := { s.fs with log := r.1 } }
    | .ok r =>
      .ok { fs := { s.fs with log := r.1 },
            active := eraseOp o s.active,
            committers := if r.2 then (o, false) :: s.committers else s.committers }
  | .doCommit o =>
    .ok { s with fs := commit s.fs,
                 committers := s.committers.map (fun c => if c.1 = o then (o, true) else c) }
  | .endExit o =>
    .ok { s with fs := { s.fs with log := end_op_exit s.fs.log },
                 committers := s.committers.filter (fun c => decide (c.1 ≠ o)) }

/-- Operation with written blocks `w` (`none`: not admitted) may write block `b`: it has
already written `b`, or it has written fewer than `MAXOPBLOCKS` distinct blocks. -/
def mayWrite (P : Param) (w : Option (List Nat)) (b : Nat) : Prop :=
  match w with
  | some W => b ∈ W ∨ (W.length : Int) < P.MAXOPBLOCKS
  | none => False

instance (P : Param) (w : Option (List Nat)) (b : Nat) : Decidable (mayWrite P w b) := by
  cases w with
  | some W => exact inferInstanceAs (Decidable (b ∈ W ∨ (W.length : Int) < P.MAXOPBLOCKS))
  | none => exact inferInstanceAs (Decidable False)

/-- The discipline of callers: `begin_op` is called by a context that is not inside an
operation; `log_write` is issued by an operation that was admitted and has not called `end_op`,
on a block it has already written or while it has written fewer than `MAXOPBLOCKS` distinct
blocks; `end_op` matches an admitted `begin_op`; `commit` and the second section of `end_op`
are run by the context that `end_op` made the committer. -/
def legal (P : Param) (s : Sys) : Ev → Prop
  | .beginTry o => written s.active o = none ∧ ∀ c ∈ s.committers, c.1 ≠ o
  | .write o b => b < 4294967296 ∧ mayWrite P (written s.active o) b
  | .endEnter o => written s.active o ≠ none
  | .doCommit o => (o, false) ∈ s.committers
  | .endExit o => (o, true) ∈ s.committers

instance (P : Param) (s : Sys) (e : Ev) : Decidable (legal P s e) := by
  cases e with
  | beginTry o => unfold legal; infer_instance
  | write o b => unfold legal; infer_instance
  | endEnter o => unfold legal; infer_instance
  | doCommit o => unfold legal; infer_instance
  | endExit o => unfold legal; infer_instance

/-- An execution: the steps of `tr` in order, stopped by the first halt. -/
def run (P : Param) : Sys → List Ev → Res Sys
  | s, [] => .ok s
  | s, e :: tr =>
    match step P s e with
    | .ok s => run P s tr
    | .panic p s => .panic p s

/-- Every step of the execution follows the discipline of callers. -/
def Legal (P : Param) : Sys → List Ev → Prop
  | _, [] => True
  | s, e :: tr =>
    legal P s e ∧
    match step P s e with
    | .ok s => Legal P s tr
    | .panic _ _ => True

instance Legal.dec (P : Param) : ∀ (s : Sys) (tr : List Ev), Decidable (Legal P s tr)
  | _, [] => isTrue trivial
  | s, e :: tr => by
    unfold Legal
    have h2 : Decidable (match step P s e with
        | .ok s => Legal P s tr
        | .panic _ _ => True) := by
      cases step P s e with
      | ok t => exact Legal.dec P t tr
      | panic p t => exact isTrue trivial
    exact instDecidableAnd

/-- The step belongs to an `end_op`. -/
def Ev.isEndStep : Ev → Bool
  | .endEnter _ => true
  | .doCommit _ => true
  | .endExit _ => true
  | _ => false

/-- The idle log (`n = 0`, `outstanding = 0`, not committing) with log region
`[start, start + size)` on the block cache `c`. -/
def idle (start size : Int) (c : Bio) : Sys :=
  { fs := { log := { start := start, size := size, outstanding := 0, committing := 0,
                     lh := { n := 0, block := fun _ => 0 } },
            bio := c },
    active := [], committers := [] }

/-- The space that the admitted operations may still claim: `MAXOPBLOCKS` minus the number of
blocks written, summed over the admitted operations. -/
def reserve (P : Param) : List (Nat × List Nat) → Int
  | [] => 0
  | (_, W) :: rest => (P.MAXOPBLOCKS - (W.length : Int)) + reserve P rest

/-- The idle log of the examples: a log region of 32 blocks from block 2, nothing cached. -/
def idle32 : Sys :=
  idle 2 32 { disk := fun _ _ => 0, cache := fun _ => none, refcnt := fun _ => 0 }

/-- Three operations are admitted and write ten distinct blocks each (blocks 100 to 129). -/
def fillTrace : List Ev :=
  [Ev.beginTry 1, Ev.beginTry 2, Ev.beginTry 3] ++
  (List.range 10).map (fun i => Ev.write 1 (100 + i)) ++
  (List.range 10).map (fun i => Ev.write 2 (110 + i)) ++
  (List.range 10).map (fun i => Ev.write 3 (120 + i))

/-- The invariant of executions: `log.outstanding` counts the admitted operations; the logged
count plus the space the admitted operations may still claim fits `LOGSIZE`; every block an
admitted operation has written is registered; and either nobody is committing, or exactly one
context is, `log.committing` is 1 and no operation is admitted. -/
def LogInv (P : Param) (s : Sys) : Prop :=
  s.fs.log.outstanding = (s.active.length : Int) ∧
  0 ≤ s.fs.log.lh.n ∧
  s.fs.log.lh.n + reserve P s.active ≤ P.LOGSIZE ∧
  (∀ e ∈ s.active,
    (e.2.length : Int) ≤ P.MAXOPBLOCKS ∧ ∀ b ∈ e.2, b ∈ hdrList s.fs.log.lh) ∧
  ((s.committers = [] ∧ s.fs.log.committing = 0) ∨
   (∃ o f, s.committers = [(o, f)] ∧ s.fs.log.committing = 1 ∧ s.active = [] ∧
     (f = true → s.fs.log.lh.n = 0)))

/-- The weaker discipline of matched calls: every `end_op` matches an earlier admitted
`begin_op` (the operation is admitted and has not yet called `end_op`), and `commit` and the
second section of `end_op` are run, in this order, by the context that the first section of
`end_op` made the committer; `begin_op` and `log_write` may be called at any time. -/
def matched (s : Sys) : Ev → Prop
  | .beginTry _ => True
  | .write _ _ => True
  | .endEnter o => written s.active o ≠ none
  | .doCommit o => (o, false) ∈ s.committers
  | .endExit o => (o, true) ∈ s.committers

instance (s : Sys) (e : Ev) : Decidable (matched s e) := by
  cases e <;> (unfold matched; infer_instance)

/-- Every step of the execution is a matched call. -/
def Matched (P : Param) : Sys → List Ev → Prop
  | _, [] => True
  | s, e :: tr =>
    matched s e ∧
    match step P s e with
    | .ok s => Matched P s tr
    | .panic _ _ => True

instance Matched.dec (P : Param) : ∀ (s : Sys) (tr : List Ev), Decidable (Matched P s tr)
  | _, [] => isTrue trivial
  | s, e :: tr => by
    unfold Matched
    have h2 : Decidable (match step P s e with
        | .ok s => Matched P s tr
        | .panic _ _ => True) := by
      cases step P s e with
      | ok t => exact Matched.dec P t tr
      | panic p t => exact isTrue trivial
    exact instDecidableAnd

/-- The invariant of matched executions: `log.outstanding` counts the admitted operations, and
either nobody is between the two sections of a committing `end_op` and `log.committing` is 0,
or exactly one context is, `log.committing` is 1 and no operation is admitted. -/
def CommitInv (s : Sys) : Prop :=
  s.fs.log.outstanding = (s.active.length : Int) ∧
  ((s.committers = [] ∧ s.fs.log.committing = 0) ∨
   (∃ o f, s.committers = [(o, f)] ∧ s.fs.log.committing = 1 ∧ s.active = []))

/-! ## Concurrent releases of a shared page -/

/-- Position of a context inside `kfree(pa)`, past the validity check (which reads no shared
state). -/
inductive KfreePc
  | atDec      -- before the locked decrement `cowdec(pa)`
  | atRead     -- before the read of the count `cowgetref(pa)`
  | atScrub    -- the read returned 0: before `memset(pa, 1, PGSIZE)`
  | atPush     -- before the locked push onto `kmem.freelist`
  | done       -- returned
  deriving DecidableEq

/-- The allocator shared by the contexts that are inside `kfree(pa)`, the position `pc` of each
context, and the contexts that have pushed the page so far (most recent first). -/
structure KfreeRace where
  k : Kmem
  pc : Nat → KfreePc
  pushedBy : List Nat

/-- One atomic step of context `c` inside `kfree(pa)`: the `cow_counting.lock` section of
`cowdec`, the read in `cowgetref`, the `memset`, or the `kmem.lock` section of the push. -/
def kfree_step (L : Layout) (pa : Nat) (s : KfreeRace) (c : Nat) : KfreeRace :=
  match s.pc c with
  | .atDec => { s with k := cowdec L s.k pa, pc := upd s.pc c .atRead }
  | .atRead =>
    { s with pc := upd s.pc c (if cowgetref L s.k pa = 0 then .atScrub else .done) }
  | .atScrub =>
    { s with k := { s.k with mem := memset s.k.mem pa 1 PGSIZE }, pc := upd s.pc c .atPush }
  | .atPush =>
    { k := { s.k with mem := write64 s.k.mem pa s.k.freelist, freelist := pa },
      pc := upd s.pc c .done,
      pushedBy := c :: s.pushedBy }
  | .done => s

/-- An interleaving: the contexts of the schedule take one step each, in order. -/
def kfree_schedule (L : Layout) (pa : Nat) (s : KfreeRace) (sched : List Nat) : KfreeRace :=
  sched.foldl (kfree_step L pa) s

/-- Contexts that all enter `kfree(pa)` on the allocator state `k`. -/
def kfree_enter (k : Kmem) : KfreeRace :=
  { k := k, pc := fun _ => .atDec, pushedBy := [] }

/-- On `tinyLayout`: after `kinit`, page 12288 is allocated and then shared until its count
is the largest `int`, 2147483647 (the state after `kalloc` and 2147483646 calls of
`cowinc(12288)`); the free list is the single page 8192. -/
def maxShared : Kmem :=
  { (kalloc tinyLayout (kinit tinyLayout (boot (fun _ => 0))).state).1 with
    useRef := upd (kalloc tinyLayout (kinit tinyLayout (boot (fun _ => 0))).state).1.useRef
      (COWINDEX tinyLayout 12288) 2147483647 }

/-- On `tinyLayout`: after `kinit`, page 12288 is allocated and then shared once, so that its
count is 2 and the free list is the single page 8192. -/
def sharedPage : Kmem :=
  cowinc tinyLayout (kalloc tinyLayout (kinit tinyLayout (boot (fun _ => 0))).state).1 12288

/-! ## The system call `sys_pgaccess` (kernel/sysproc.c) -/

/-- Constants of riscv.h (not among the sources): the masks of the valid and accessed bits of a
page-table entry. -/
structure PteFlags where
  PTE_V : Nat
  PTE_A : Nat

/-- What `sys_pgaccess` leaves: its return value, the page-table entries, and the mask that
`copyout` copied to the user, if it did. -/
structure PgaccessResult where
  ret : Int
  pte : Nat → Nat
  copied : Option Nat

/-- The C expression `(1 << i)` of `mask |= (1 << i)`, converted to the `uint64` type of
`mask`. The constant `1` is an `int`: the shift is a 32-bit shift (for a count of 32 or more,
not defined in C, the RISC-V word shift uses the count modulo 32), and the `int` result is
sign-extended to 64 bits by the conversion. -/
def shl_int_one (i : Nat) : Nat :=
  if 2 ^ (i % 32) < 2147483648 then 2 ^ (i % 32)
  else 2 ^ (i % 32) + 18446744069414584320

/-- One iteration of the loop of `sys_pgaccess` on the page-table entries and the mask.
`walk va` stands for `walk(p->pagetable, va, 0)` (vm.c, not among the sources): the address of
the page-table entry of `va`, or `none` for the null pointer. -/
def pgaccess_body (F : PteFlags) (walk : Nat → Option Nat) (va : Nat)
    (acc : (Nat → Nat) × Nat) (i : Nat) : (Nat → Nat) × Nat :=
  match walk ((va + i * PGSIZE) % 18446744073709551616) with
  | none => acc
  | some a =>
    if acc.1 a &&& F.PTE_V ≠ 0 ∧ acc.1 a &&& F.PTE_A ≠ 0 then
      (upd acc.1 a (acc.1 a &&& (18446744073709551615 - F.PTE_A)),   -- *pte &= ~PTE_A
       acc.2 ||| shl_int_one i)                                      -- mask |= (1 << i)
    else acc

/-- The function `sys_pgaccess`, with its arguments `va`, `nums`, `maskaddr` as fetched by
`argaddr` and `argint`; `copyout_ok` tells whether `copyout` to `maskaddr` succeeds. -/
def sys_pgaccess (F : PteFlags) (walk : Nat → Option Nat) (copyout_ok : Bool)
    (pte : Nat → Nat) (va : Nat) (nums : Int) : PgaccessResult :=
  if nums ≤ 0 ∨ nums > 64 then { ret := -1, pte := pte, copied := none }
  else
    let r := (List.range nums.toNat).foldl (pgaccess_body F walk va) (pte, 0)
    if copyout_ok then { ret := 0, pte := r.1, copied := some r.2 }
    else { ret := -1, pte := r.1, copied := none }

/-- The valid bit is bit 0 and the accessed bit is bit 6 of a RISC-V page-table entry. -/
def riscvFlags : PteFlags := { PTE_V := 1, PTE_A := 64 }

/-- A page table whose entry for the page of `va` is stored at address `va / 4096`. -/
def flatWalk (va : Nat) : Option Nat := some (va / 4096)

/-- Page-table entries that are all valid, with only the entry at address `a` accessed. -/
def onlyAccessed (a : Nat) : Nat → Nat := fun x => if x = a then 65 else 1

/-- The address of the page-table entry of page `i` from `va` is present and the entry `pte`
has both `PTE_V` and `PTE_A` set. -/
def accessedPage (F : PteFlags) (walk : Nat → Option Nat) (pte : Nat → Nat) (va i : Nat) :
    Prop :=
  ∃ a, walk ((va + i * PGSIZE) % 18446744073709551616) = some a ∧
    pte a &&& F.PTE_V ≠ 0 ∧ pte a &&& F.PTE_A ≠ 0

/-! # Theorems -/

theorem Res.eq_ok_of_panicOf_none {σ : Type} (r : Res σ) (h : r.panicOf = none) :
    r = Res.ok r.state := by
  cases r with
  | ok s => rfl
  | panic p s => cases h

/-! ## Effect of the log code on the disk and on the buffer contents -/

theorem upd_same {β : Type} (f : Nat → β) (a : Nat) (v : β) : upd f a v a = v := by
  simp [upd]

theorem upd_other {β : Type} (f : Nat → β) (a : Nat) (v : β) (x : Nat) (h : x ≠ a) :
    upd f a v x = f x := by
  simp [upd, h]

theorem view_bread (c : Bio) (b x : Nat) : (bread c b).view x = c.view x := by
  unfold bread Bio.view upd
  by_cases h : x = b
  · subst h; simp
  · simp [h]

theorem disk_bread (c : Bio) (b : Nat) : (bread c b).disk = c.disk := rfl

theorem view_setData (c : Bio) (b : Nat) (d : Block) (x : Nat) :
    (setData c b d).view x = upd c.view b d x := by
  unfold setData Bio.view upd
  by_cases h : x = b
  · subst h; simp
  · simp [h]

theorem disk_setData (c : Bio) (b : Nat) (d : Block) : (setData c b d).disk = c.disk := rfl

theorem view_bwrite (c : Bio) (b x : Nat) : (bwrite c b).view x = c.view x := by
  unfold bwrite Bio.view upd
  by_cases h : x = b
  · subst h
    cases hc : c.cache x <;> simp [hc]
  · cases hc : c.cache x <;> simp [hc, h]

theorem disk_bwrite (c : Bio) (b : Nat) : (bwrite c b).disk = upd c.disk b (c.view b) := rfl

theorem view_brelse (c : Bio) (b x : Nat) : (brelse c b).view x = c.view x := rfl

theorem disk_brelse (c : Bio) (b : Nat) : (brelse c b).disk = c.disk := rfl

theorem view_bunpin (c : Bio) (b x : Nat) : (bunpin c b).view x = c.view x := rfl

theorem disk_bunpin (c : Bio) (b : Nat) : (bunpin c b).disk = c.disk := rfl

theorem view_bpin (c : Bio) (b x : Nat) : (bpin c b).view x = c.view x := rfl

theorem disk_bpin (c : Bio) (b : Nat) : (bpin c b).disk = c.disk := rfl

theorem view_write_log_body (l : Log) (c : Bio) (t : Nat) :
    (write_log_body l c t).view = upd c.view (slotno l t) (c.view (homeno l t)) := by
  funext x
  simp only [write_log_body, view_brelse, view_bwrite, view_setData, view_bread]
  unfold upd
  split <;> simp only [view_bread]

theorem disk_write_log_body (l : Log) (c : Bio) (t : Nat) :
    (write_log_body l c t).disk = upd c.disk (slotno l t) (c.view (homeno l t)) := by
  simp only [write_log_body, disk_brelse, disk_bwrite, disk_setData, disk_bread, view_setData,
    view_bread, upd_same]

theorem view_install_trans_body (l : Log) (r : Int) (c : Bio) (t : Nat) :
    (install_trans_body l r c t).view = upd c.view (homeno l t) (c.view (slotno l t)) := by
  funext x
  unfold install_trans_body
  by_cases hr : r = 0
  · simp only [hr, if_true, view_brelse, view_bunpin, view_bwrite, view_setData, view_bread]
    unfold upd
    split <;> simp only [view_bread]
  · simp only [hr, if_false, view_brelse, view_bwrite, view_setData, view_bread]
    unfold upd
    split <;> simp only [view_bread]

theorem disk_install_trans_body (l : Log) (r : Int) (c : Bio) (t : Nat) :
    (install_trans_body l r c t).disk = upd c.disk (homeno l t) (c.view (slotno l t)) := by
  unfold install_trans_body
  by_cases hr : r = 0
  · simp only [hr, if_true, disk_brelse, disk_bunpin, disk_bwrite, disk_setData, disk_bread,
      view_setData, view_bread, upd_same]
  · simp only [hr, if_false, disk_brelse, disk_bwrite, disk_setData, disk_bread,
      view_setData, view_bread, upd_same]

theorem commit_eq_upto (s : FS) : commit s = commit_upto 4 s := by
  simp [commit, commit_upto]

theorem copied_not_dst (src dst : Nat → Nat) (v f : Nat → Block) (b : Nat) :
    ∀ k : Nat, (∀ i, i < k → dst i ≠ b) → copied src dst v f k b = f b := by
  intro k
  induction k with
  | zero => intro _; rfl
  | succ k ih =>
    intro h
    have hk : b ≠ dst k := fun e => h k (Nat.lt_succ_self k) e.symm
    simp only [copied, upd, hk, if_false]
    exact ih (fun i hi => h i (Nat.lt_succ_of_lt hi))

theorem copied_congr (src dst src' dst' : Nat → Nat) (v v' f : Nat → Block) :
    ∀ k : Nat, (∀ i, i < k → dst i = dst' i ∧ v (src i) = v' (src' i)) →
      copied src dst v f k = copied src' dst' v' f k := by
  intro k
  induction k with
  | zero => intro _; rfl
  | succ k ih =>
    intro h
    simp only [copied]
    rw [ih (fun i hi => h i (Nat.lt_succ_of_lt hi)), (h k (Nat.lt_succ_self k)).1,
      (h k (Nat.lt_succ_self k)).2]

theorem copied_at_dst (src dst : Nat → Nat) (v f g : Nat → Block) :
    ∀ k i : Nat, i < k → copied src dst v f k (dst i) = copied src dst v g k (dst i) := by
  intro k
  induction k with
  | zero => intro i hi; exact absurd hi (Nat.not_lt_zero i)
  | succ k ih =>
    intro i hi
    simp only [copied, upd]
    by_cases e : dst i = dst k
    · simp [e]
    · simp only [e, if_false]
      have hik : i < k := by
        rcases Nat.lt_succ_iff_lt_or_eq.mp hi with h | h
        · exact h
        · exact absurd (by rw [h]) e
      exact ih i hik

theorem copied_again_aux (src dst : Nat → Nat) (v f : Nat → Block) (n b : Nat) :
    ∀ k : Nat, copied src dst v (copied src dst v f n) k b
      = if ∃ i, i < k ∧ dst i = b then copied src dst v f k b else copied src dst v f n b := by
  intro k
  induction k with
  | zero => simp [copied]
  | succ k ih =>
    by_cases e : b = dst k
    · have hex : ∃ i, i < k + 1 ∧ dst i = b := ⟨k, Nat.lt_succ_self k, e.symm⟩
      simp only [copied, upd, e, if_true]
      rw [if_pos ⟨k, Nat.lt_succ_self k, rfl⟩]
    · have hiff : (∃ i, i < k + 1 ∧ dst i = b) ↔ (∃ i, i < k ∧ dst i = b) := by
        constructor
        · rintro ⟨i, hi, hb⟩
          rcases Nat.lt_succ_iff_lt_or_eq.mp hi with h | h
          · exact ⟨i, h, hb⟩
          · exact absurd (by rw [← hb, h]) e
        · rintro ⟨i, hi, hb⟩
          exact ⟨i, Nat.lt_succ_of_lt hi, hb⟩
      simp only [copied, upd, e, if_false, ih, hiff]

/-- Copying the same blocks a second time changes nothing. -/
theorem copied_again (src dst : Nat → Nat) (v f : Nat → Block) (n : Nat) :
    copied src dst v (copied src dst v f n) n = copied src dst v f n := by
  funext b
  rw [copied_again_aux]
  split
  · rfl
  · rfl

theorem foldl_upd_other {β : Type} (p : Nat → Nat) (g : Nat → β) (f0 : Nat → β) (x : Nat) :
    ∀ k : Nat, (∀ i, i < k → p i ≠ x) →
      (List.range k).foldl (fun f i => upd f (p i) (g i)) f0 x = f0 x := by
  intro k
  induction k with
  | zero => intro _; rfl
  | succ k ih =>
    intro h
    rw [List.range_succ, List.foldl_append]
    simp only [List.foldl_cons, List.foldl_nil]
    rw [upd_other _ _ _ _ (fun e => h k (Nat.lt_succ_self k) e.symm)]
    exact ih (fun i hi => h i (Nat.lt_succ_of_lt hi))

theorem foldl_upd_at {β : Type} (p : Nat → Nat) (g : Nat → β) (f0 : Nat → β)
    (hp : ∀ i j, p i = p j → i = j) :
    ∀ k i : Nat, i < k →
      (List.range k).foldl (fun f i => upd f (p i) (g i)) f0 (p i) = g i := by
  intro k
  induction k with
  | zero => intro i hi; exact absurd hi (Nat.not_lt_zero i)
  | succ k ih =>
    intro i hi
    rw [List.range_succ, List.foldl_append]
    simp only [List.foldl_cons, List.foldl_nil]
    rcases Nat.lt_succ_iff_lt_or_eq.mp hi with h | h
    · have hne : p i ≠ p k := fun e => absurd (hp i k e) (Nat.ne_of_lt h)
      rw [upd_other _ _ _ _ hne]
      exact ih i h
    · subst h
      exact upd_same _ _ _

/-- Closed form of the loop of `install_trans` when no home block is a log slot. -/
theorem install_trans_upto_closed (l : Log) (r : Int) (c : Bio) :
    ∀ k : Nat, (∀ i j, i < k → j < k → homeno l i ≠ slotno l j) →
      (install_trans_upto l r k c).disk = copied (slotno l) (homeno l) c.view c.disk k ∧
      (install_trans_upto l r k c).view = copied (slotno l) (homeno l) c.view c.view k := by
  intro k
  induction k with
  | zero => intro _; exact ⟨rfl, rfl⟩
  | succ k ih =>
    intro h
    obtain ⟨hd, hv⟩ := ih (fun i j hi hj => h i j (Nat.lt_succ_of_lt hi) (Nat.lt_succ_of_lt hj))
    have hs : (install_trans_upto l r k c).view (slotno l k) = c.view (slotno l k) := by
      rw [hv]
      exact copied_not_dst _ _ _ _ _ k
        (fun i hi => h i k (Nat.lt_succ_of_lt hi) (Nat.lt_succ_self k))
    have hstep : install_trans_upto l r (k + 1) c
        = install_trans_body l r (install_trans_upto l r k c) k := by
      unfold install_trans_upto
      rw [List.range_succ, List.foldl_append]
      rfl
    rw [hstep, disk_install_trans_body, view_install_trans_body, hs, hd, hv]
    exact ⟨rfl, rfl⟩

/-- Closed form of the loop of `write_log` when no home block is a log slot. -/
theorem write_log_upto_closed (l : Log) (c : Bio) :
    ∀ k : Nat, (∀ i j, i < k → j < k → homeno l i ≠ slotno l j) →
      (write_log_upto l k c).disk = copied (homeno l) (slotno l) c.view c.disk k ∧
      (write_log_upto l k c).view = copied (homeno l) (slotno l) c.view c.view k := by
  intro k
  induction k with
  | zero => intro _; exact ⟨rfl, rfl⟩
  | succ k ih =>
    intro h
    obtain ⟨hd, hv⟩ := ih (fun i j hi hj => h i j (Nat.lt_succ_of_lt hi) (Nat.lt_succ_of_lt hj))
    have hs : (write_log_upto l k c).view (homeno l k) = c.view (homeno l k) := by
      rw [hv]
      exact copied_not_dst _ _ _ _ _ k
        (fun i hi e => h k i (Nat.lt_succ_self k) (Nat.lt_succ_of_lt hi) e.symm)
    have hstep : write_log_upto l (k + 1) c
        = write_log_body l (write_log_upto l k c) k := by
      unfold write_log_upto
      rw [List.range_succ, List.foldl_append]
      rfl
    rw [hstep, disk_write_log_body, view_write_log_body, hs, hd, hv]
    exact ⟨rfl, rfl⟩

/-- The loop of `write_log` writes to log slots only. -/
theorem write_log_upto_disk_other (l : Log) (c : Bio) (b : Nat) :
    ∀ k : Nat, (∀ i, i < k → slotno l i ≠ b) →
      (write_log_upto l k c).disk b = c.disk b := by
  intro k
  induction k with
  | zero => intro _; rfl
  | succ k ih =>
    intro h
    have hstep : write_log_upto l (k + 1) c
        = write_log_body l (write_log_upto l k c) k := by
      unfold write_log_upto
      rw [List.range_succ, List.foldl_append]
      rfl
    rw [hstep, disk_write_log_body,
      upd_other _ _ _ _ (fun e => h k (Nat.lt_succ_self k) e.symm)]
    exact ih (fun i hi => h i (Nat.lt_succ_of_lt hi))


theorem hdr_image_zero (lh : LogHeader) (hb : Block) : hdr_image lh hb 0 = lh.n := by
  unfold hdr_image
  rw [foldl_upd_other (fun i => 1 + i) lh.block _ 0 _ (fun i _ => by show 1 + i ≠ 0; omega)]
  exact upd_same _ _ _

theorem hdr_image_block (lh : LogHeader) (hb : Block) (i : Nat) (hi : i < lh.n.toNat) :
    hdr_image lh hb (1 + i) = lh.block i := by
  unfold hdr_image
  exact foldl_upd_at (fun i => 1 + i) lh.block _
    (fun i j h => by have h2 : 1 + i = 1 + j := h; omega) _ i hi

theorem hdr_image_empty (lh : LogHeader) (hb : Block) (h : lh.n = 0) :
    hdr_image lh hb = upd hb 0 0 := by
  unfold hdr_image
  rw [h]
  rfl

theorem write_head_log (s : FS) : (write_head s).log = s.log := rfl

theorem write_head_disk (s : FS) :
    (write_head s).bio.disk
      = upd s.bio.disk (headno s.log) (hdr_image s.log.lh (s.bio.view (headno s.log))) := by
  simp only [write_head, disk_brelse, disk_bwrite, disk_setData, disk_bread, view_setData,
    view_bread, upd_same, hdr_image]

theorem write_head_view (s : FS) :
    (write_head s).bio.view
      = upd s.bio.view (headno s.log) (hdr_image s.log.lh (s.bio.view (headno s.log))) := by
  funext x
  simp only [write_head, view_brelse, view_bwrite, view_setData, hdr_image]
  unfold upd
  split <;> simp only [view_bread]

theorem read_head_disk (s : FS) : (read_head s).bio.disk = s.bio.disk := rfl

theorem read_head_view (s : FS) : (read_head s).bio.view = s.bio.view := by
  funext x
  simp only [read_head, view_brelse, view_bread]

theorem read_head_start (s : FS) : (read_head s).log.start = s.log.start := rfl

theorem read_head_size (s : FS) : (read_head s).log.size = s.log.size := rfl

theorem read_head_n (s : FS) : (read_head s).log.lh.n = s.bio.view (headno s.log) 0 := by
  simp only [read_head, view_bread]

theorem read_head_block (s : FS) (i : Nat) (hi : i < (s.bio.view (headno s.log) 0).toNat) :
    (read_head s).log.lh.block i = s.bio.view (headno s.log) (1 + i) := by
  simp only [read_head, view_bread]
  exact foldl_upd_at (fun i => i) (fun i => s.bio.view (headno s.log) (1 + i)) _
    (fun i j h => h) _ i hi

theorem crash_view (s : FS) : (crash s).bio.view = s.bio.disk := rfl

theorem crash_disk (s : FS) : (crash s).bio.disk = s.bio.disk := rfl

/-- The disk that `recover_from_log` leaves when run after a crash on disk `t.bio.disk`,
provided no block number logged in the on-disk header is a log slot or the header block. -/
theorem recover_crash_disk (t : FS)
    (hslot : ∀ i j, i < (t.bio.disk (headno t.log) 0).toNat →
      j < (t.bio.disk (headno t.log) 0).toNat →
      blockno_of (t.bio.disk (headno t.log) (1 + i)) ≠ slotno t.log j)
    (hhead : ∀ i, i < (t.bio.disk (headno t.log) 0).toNat →
      blockno_of (t.bio.disk (headno t.log) (1 + i)) ≠ headno t.log) :
    (recover_from_log (crash t)).bio.disk
      = upd (copied (slotno t.log) (fun i => blockno_of (t.bio.disk (headno t.log) (1 + i)))
              t.bio.disk t.bio.disk (t.bio.disk (headno t.log) 0).toNat)
          (headno t.log) (upd (t.bio.disk (headno t.log)) 0 0) := by
  have hn : (read_head (crash t)).log.lh.n = t.bio.disk (headno t.log) 0 := by
    rw [read_head_n]; rfl
  have hhome : ∀ i, i < (t.bio.disk (headno t.log) 0).toNat →
      homeno (read_head (crash t)).log i = blockno_of (t.bio.disk (headno t.log) (1 + i)) := by
    intro i hi
    unfold homeno
    rw [read_head_block (crash t) i hi]
    rfl
  have hsl : slotno (read_head (crash t)).log = slotno t.log := rfl
  have hhd : headno (read_head (crash t)).log = headno t.log := rfl
  have hcl := install_trans_upto_closed (read_head (crash t)).log 1 (read_head (crash t)).bio
    (t.bio.disk (headno t.log) 0).toNat
    (fun i j hi hj => by rw [hhome i hi, hsl]; exact hslot i j hi hj)
  rw [read_head_disk, read_head_view, crash_view, crash_disk] at hcl
  have hcg := copied_congr (slotno (read_head (crash t)).log) (homeno (read_head (crash t)).log)
    (slotno t.log) (fun i => blockno_of (t.bio.disk (headno t.log) (1 + i)))
    t.bio.disk t.bio.disk t.bio.disk (t.bio.disk (headno t.log) 0).toNat
    (fun i hi => ⟨hhome i hi, by rw [hsl]⟩)
  rw [hcg] at hcl
  obtain ⟨hd, hv⟩ := hcl
  have hrec : recover_from_log (crash t)
      = write_head (clear_n (install_trans 1 (read_head (crash t)))) := rfl
  rw [hrec, write_head_disk]
  have e1 : (clear_n (install_trans 1 (read_head (crash t)))).bio.disk
      = copied (slotno t.log) (fun i => blockno_of (t.bio.disk (headno t.log) (1 + i)))
          t.bio.disk t.bio.disk (t.bio.disk (headno t.log) 0).toNat := by
    show (install_trans_upto (read_head (crash t)).log 1 (read_head (crash t)).log.lh.n.toNat
      (read_head (crash t)).bio).disk = _
    rw [hn, hd]
  have e2 : (clear_n (install_trans 1 (read_head (crash t)))).bio.view (headno t.log)
      = t.bio.disk (headno t.log) := by
    show (install_trans_upto (read_head (crash t)).log 1 (read_head (crash t)).log.lh.n.toNat
      (read_head (crash t)).bio).view (headno t.log) = _
    rw [hn, hv]
    exact copied_not_dst _ _ _ _ _ _ hhead
  have e3 : headno (clear_n (install_trans 1 (read_head (crash t)))).log = headno t.log := rfl
  rw [e1, e3, e2, hdr_image_empty _ _ rfl]

/-! ## Crash safety of `commit` -/

theorem install_trans_log (r : Int) (s : FS) : (install_trans r s).log = s.log := rfl

theorem write_log_log (s : FS) : (write_log s).log = s.log := rfl

/-- When the transaction fits the log region, the log slots lie in the log region. -/
theorem slot_inLogRegion (l : Log) (j : Nat) (hj : j < l.lh.n.toNat) (hsz : l.lh.n ≤ l.size - 1) :
    inLogRegion l (slotno l j) := by
  refine ⟨j + 1, by omega, ?_⟩
  unfold slotno
  congr 1
  push_cast
  ring

/-- When the log region is not empty, the header block lies in the log region. -/
theorem head_inLogRegion (l : Log) (hsz : 1 ≤ l.size) : inLogRegion l (headno l) := by
  refine ⟨0, by omega, ?_⟩
  unfold headno
  simp

/-- State of the disk and the buffers after the first two steps of `commit`. -/
theorem commit_after_write_head (s : FS)
    (hs : ∀ i j, i < s.log.lh.n.toNat → j < s.log.lh.n.toNat →
      homeno s.log i ≠ slotno s.log j) :
    (∀ j, j < s.log.lh.n.toNat →
      (write_head (write_log s)).bio.view (slotno s.log j)
        = (write_head (write_log s)).bio.disk (slotno s.log j)) ∧
    (write_head (write_log s)).bio.view (headno s.log)
      = (write_head (write_log s)).bio.disk (headno s.log) ∧
    (write_head (write_log s)).bio.disk (headno s.log) 0 = s.log.lh.n ∧
    (∀ i, i < s.log.lh.n.toNat →
      (write_head (write_log s)).bio.disk (headno s.log) (1 + i) = s.log.lh.block i) := by
  obtain ⟨hd, hv⟩ := write_log_upto_closed s.log s.bio s.log.lh.n.toNat hs
  have hd1 : (write_log s).bio.disk
      = copied (homeno s.log) (slotno s.log) s.bio.view s.bio.disk s.log.lh.n.toNat := hd
  have hv1 : (write_log s).bio.view
      = copied (homeno s.log) (slotno s.log) s.bio.view s.bio.view s.log.lh.n.toNat := hv
  rw [write_head_disk, write_head_view, write_log_log]
  refine ⟨?_, ?_, ?_, ?_⟩
  · intro j hj
    unfold upd
    split
    · rfl
    · rw [hd1, hv1]
      exact copied_at_dst _ _ _ _ _ _ j hj
  · rw [upd_same, upd_same]
  · rw [upd_same]
    exact hdr_image_zero _ _
  · intro i hi
    rw [upd_same]
    exact hdr_image_block _ _ i hi

/-- The disk after `install_trans` and the erasing `write_head`, from any state in which no
logged home block is a log slot or the header block. -/
theorem install_and_erase_disk (r : Int) (t : FS)
    (hs : ∀ i j, i < t.log.lh.n.toNat → j < t.log.lh.n.toNat →
      homeno t.log i ≠ slotno t.log j)
    (hh : ∀ i, i < t.log.lh.n.toNat → homeno t.log i ≠ headno t.log) :
    (write_head (clear_n (install_trans r t))).bio.disk
      = upd (copied (slotno t.log) (homeno t.log) t.bio.view t.bio.disk t.log.lh.n.toNat)
          (headno t.log) (upd (t.bio.view (headno t.log)) 0 0) := by
  obtain ⟨hd, hv⟩ := install_trans_upto_closed t.log r t.bio t.log.lh.n.toNat hs
  rw [write_head_disk]
  have e1 : (clear_n (install_trans r t)).bio.disk
      = copied (slotno t.log) (homeno t.log) t.bio.view t.bio.disk t.log.lh.n.toNat := hd
  have e2 : (clear_n (install_trans r t)).bio.view (headno t.log)
      = t.bio.view (headno t.log) := by
    show (install_trans_upto t.log r t.log.lh.n.toNat t.bio).view (headno t.log) = _
    rw [hv]
    exact copied_not_dst _ _ _ _ _ _ hh
  have e3 : headno (clear_n (install_trans r t)).log = headno t.log := rfl
  rw [e1, e3, e2, hdr_image_empty _ _ rfl]

/-- Form of `recover_crash_disk` in terms of the count `n` and block numbers `blk` that the
on-disk header holds. -/
theorem recover_crash_disk_of (t : FS) (n : Int) (blk : Nat → Int)
    (h0 : t.bio.disk (headno t.log) 0 = n)
    (hb : ∀ i, i < n.toNat → t.bio.disk (headno t.log) (1 + i) = blk i)
    (hslot : ∀ i j, i < n.toNat → j < n.toNat → blockno_of (blk i) ≠ slotno t.log j)
    (hhead : ∀ i, i < n.toNat → blockno_of (blk i) ≠ headno t.log) :
    (recover_from_log (crash t)).bio.disk
      = upd (copied (slotno t.log) (fun i => blockno_of (blk i)) t.bio.disk t.bio.disk n.toNat)
          (headno t.log) (upd (t.bio.disk (headno t.log)) 0 0) := by
  subst h0
  rw [recover_crash_disk t (fun i j hi hj => by rw [hb i hi]; exact hslot i j hi hj)
    (fun i hi => by rw [hb i hi]; exact hhead i hi)]
  rw [copied_congr (slotno t.log) (fun i => blockno_of (t.bio.disk (headno t.log) (1 + i)))
    (slotno t.log) (fun i => blockno_of (blk i)) t.bio.disk t.bio.disk t.bio.disk _
    (fun i hi => ⟨by show blockno_of _ = blockno_of _; rw [hb i hi], rfl⟩)]

theorem recover_crash_headno (t : FS) : headno (recover_from_log (crash t)).log = headno t.log :=
  rfl

/-- Crash right after step 2 of `commit` (the header write), then recovery. -/
theorem recover_after_step2 (s : FS)
    (hs : ∀ i j, i < s.log.lh.n.toNat → j < s.log.lh.n.toNat →
      homeno s.log i ≠ slotno s.log j)
    (hh : ∀ i, i < s.log.lh.n.toNat → homeno s.log i ≠ headno s.log) :
    (recover_from_log (crash (write_head (write_log s)))).bio.disk
      = (write_head (clear_n (install_trans 0 (write_head (write_log s))))).bio.disk := by
  obtain ⟨f1, f2, f3, f4⟩ := commit_after_write_head s hs
  rw [install_and_erase_disk 0 (write_head (write_log s)) hs hh]
  rw [recover_crash_disk_of (write_head (write_log s)) s.log.lh.n s.log.lh.block f3 f4 hs hh]
  have e : headno (write_head (write_log s)).log = headno s.log := rfl
  have l : (write_head (write_log s)).log = s.log := rfl
  rw [e, l, f2]
  have hc : copied (slotno s.log) (fun i => blockno_of (s.log.lh.block i))
      (write_head (write_log s)).bio.disk (write_head (write_log s)).bio.disk s.log.lh.n.toNat
      = copied (slotno s.log) (homeno s.log) (write_head (write_log s)).bio.view
      (write_head (write_log s)).bio.disk s.log.lh.n.toNat :=
    copied_congr _ _ _ _ _ _ _ _ (fun i hi => ⟨rfl, (f1 i hi).symm⟩)
  rw [hc]

/-- Crash right after step 3 of `commit` (the installation), then recovery. -/
theorem recover_after_step3 (s : FS)
    (hs : ∀ i j, i < s.log.lh.n.toNat → j < s.log.lh.n.toNat →
      homeno s.log i ≠ slotno s.log j)
    (hh : ∀ i, i < s.log.lh.n.toNat → homeno s.log i ≠ headno s.log) :
    (recover_from_log (crash (install_trans 0 (write_head (write_log s))))).bio.disk
      = (write_head (clear_n (install_trans 0 (write_head (write_log s))))).bio.disk := by
  obtain ⟨f1, f2, f3, f4⟩ := commit_after_write_head s hs
  obtain ⟨hd, _⟩ := install_trans_upto_closed s.log 0 (write_head (write_log s)).bio
    s.log.lh.n.toNat hs
  have hd3 : (install_trans 0 (write_head (write_log s))).bio.disk
      = copied (slotno s.log) (homeno s.log) (write_head (write_log s)).bio.view
          (write_head (write_log s)).bio.disk s.log.lh.n.toNat := hd
  have hhd : (install_trans 0 (write_head (write_log s))).bio.disk (headno s.log)
      = (write_head (write_log s)).bio.disk (headno s.log) := by
    rw [hd3]; exact copied_not_dst _ _ _ _ _ _ hh
  have hsl : ∀ j, j < s.log.lh.n.toNat →
      (install_trans 0 (write_head (write_log s))).bio.disk (slotno s.log j)
        = (write_head (write_log s)).bio.view (slotno s.log j) := by
    intro j hj
    rw [hd3, f1 j hj]
    exact copied_not_dst _ _ _ _ _ _ (fun i hi => hs i j hi hj)
  rw [install_and_erase_disk 0 (write_head (write_log s)) hs hh]
  have e : headno (install_trans 0 (write_head (write_log s))).log = headno s.log := rfl
  have l : (install_trans 0 (write_head (write_log s))).log = s.log := rfl
  rw [recover_crash_disk_of (install_trans 0 (write_head (write_log s))) s.log.lh.n
    s.log.lh.block (by rw [e, hhd]; exact f3) (by intro i hi; rw [e, hhd]; exact f4 i hi)
    (by rw [l]; exact hs) (by rw [l]; exact hh)]
  have e2 : headno (write_head (write_log s)).log = headno s.log := rfl
  have l2 : (write_head (write_log s)).log = s.log := rfl
  rw [e, l, e2, l2, hhd, f2]
  have hc : copied (slotno s.log) (fun i => blockno_of (s.log.lh.block i))
      (install_trans 0 (write_head (write_log s))).bio.disk
      (install_trans 0 (write_head (write_log s))).bio.disk s.log.lh.n.toNat
      = copied (slotno s.log) (homeno s.log) (write_head (write_log s)).bio.view
      (install_trans 0 (write_head (write_log s))).bio.disk s.log.lh.n.toNat :=
    copied_congr _ _ _ _ _ _ _ _ (fun i hi => ⟨rfl, hsl i hi⟩)
  rw [hc, hd3, copied_again]

/-- Crash after a run of `recover_from_log` or `commit` that ended with the erasing
`write_head`: recovery finds the count 0 and leaves the disk as it is. -/
theorem recover_of_count_zero (t : FS) (h0 : t.bio.disk (headno t.log) 0 = 0) :
    (recover_from_log (crash t)).bio.disk = t.bio.disk := by
  rw [recover_crash_disk_of t 0 (fun _ => 0) h0
    (fun i hi => absurd hi (Nat.not_lt_zero i))
    (fun i j hi _ => absurd hi (Nat.not_lt_zero i))
    (fun i hi => absurd hi (Nat.not_lt_zero i))]
  funext b
  show upd t.bio.disk (headno t.log) (upd (t.bio.disk (headno t.log)) 0 0) b = t.bio.disk b
  unfold upd
  split
  · rename_i hb
    subst hb
    funext w
    split
    · rename_i hw
      subst hw
      exact h0.symm
    · rfl
  · rfl

/-- C1 (as stated, refuted): for the one-block transaction `oneBlockTrans`, whose home block 10
lies outside the log region, a crash right after step 1 of `commit` (`write_log`) followed by
`recover_from_log` leaves block 10 with its old content 0, while the completed `commit`
installs the new content 7. -/
theorem C1_counterexample_crash_after_write_log :
    1 ≤ oneBlockTrans.log.lh.n ∧
    (∀ i, i < oneBlockTrans.log.lh.n.toNat →
      ¬ inLogRegion oneBlockTrans.log (homeno oneBlockTrans.log i)) ∧
    (recover_from_log (crash (commit_upto 1 oneBlockTrans))).bio.disk 10 0 = 0 ∧
    (commit oneBlockTrans).bio.disk 10 0 = 7 := by
  decide

/-- C1 (amended): for a transaction of `n ≥ 1` registered blocks that fits the log region
(`n ≤ log.size - 1`) and whose home blocks lie outside the log region, a crash right after
step 2, 3 or 4 of `commit` followed by `recover_from_log` leaves the whole disk equal to the
disk after the completed `commit`, with header count 0. -/
theorem C1_recover_after_commit_point (s : FS) (k : Nat) (hk2 : 2 ≤ k) (hk4 : k ≤ 4)
    (hn : 1 ≤ s.log.lh.n) (hsz : s.log.lh.n ≤ s.log.size - 1)
    (hout : ∀ i, i < s.log.lh.n.toNat → ¬ inLogRegion s.log (homeno s.log i)) :
    (recover_from_log (crash (commit_upto k s))).bio.disk = (commit s).bio.disk ∧
    diskCount (recover_from_log (crash (commit_upto k s))) = 0 ∧
    diskCount (commit s) = 0 := by
  have hs : ∀ i j, i < s.log.lh.n.toNat → j < s.log.lh.n.toNat →
      homeno s.log i ≠ slotno s.log j := by
    intro i j hi hj e
    exact hout i hi (e ▸ slot_inLogRegion s.log j hj hsz)
  have hh : ∀ i, i < s.log.lh.n.toNat → homeno s.log i ≠ headno s.log := by
    intro i hi e
    exact hout i hi (e ▸ head_inLogRegion s.log (by omega))
  have hpos : s.log.lh.n > 0 := by omega
  have hc : commit s = write_head (clear_n (install_trans 0 (write_head (write_log s)))) := by
    simp [commit, hpos]
  have hcount : (commit s).bio.disk (headno s.log) 0 = 0 := by
    rw [hc, install_and_erase_disk 0 (write_head (write_log s)) hs hh]
    have e : headno (write_head (write_log s)).log = headno s.log := rfl
    rw [e, upd_same, upd_same]
  have hlog : headno (commit s).log = headno s.log := by rw [hc]; rfl
  have hmain : (recover_from_log (crash (commit_upto k s))).bio.disk = (commit s).bio.disk := by
    have hk : k = 2 ∨ k = 3 ∨ k = 4 := by omega
    rcases hk with h | h | h
    · subst h
      have e : commit_upto 2 s = write_head (write_log s) := by simp [commit_upto, hpos]
      rw [e, hc]
      exact recover_after_step2 s hs hh
    · subst h
      have e : commit_upto 3 s = install_trans 0 (write_head (write_log s)) := by
        simp [commit_upto, hpos]
      rw [e, hc]
      exact recover_after_step3 s hs hh
    · subst h
      rw [← commit_eq_upto]
      exact recover_of_count_zero (commit s) (by rw [hlog]; exact hcount)
  refine ⟨hmain, ?_, ?_⟩
  · unfold diskCount
    rw [recover_crash_headno, hmain]
    have e : headno (commit_upto k s).log = headno s.log := by
      unfold commit_upto
      simp only [hpos, if_true]
      split <;> split <;> split <;> rfl
    rw [e]
    exact hcount
  · unfold diskCount
    rw [hlog]
    exact hcount

/-- C1 (amended), instance: on `oneBlockTrans`, a crash right after the header write followed by
recovery gives block 10 the same first word as the completed `commit`. -/
theorem C1_recover_after_commit_point_witness :
    (recover_from_log (crash (commit_upto 2 oneBlockTrans))).bio.disk 10 0
      = (commit oneBlockTrans).bio.disk 10 0 :=
  congrFun (congrFun
    (C1_recover_after_commit_point oneBlockTrans 2 (by decide) (by decide) (by decide)
      (by decide) (by decide)).1 10) 0

/-- A log slot is never the header block (the count is a C `int`). -/
theorem slotno_ne_headno (l : Log) (j : Nat) (hj : (j : Int) < 2147483647) :
    slotno l j ≠ headno l := by
  unfold slotno headno blockno_of
  omega

theorem commit_in_write_log_log (k : Nat) (s : FS) : (commit_in_write_log k s).log = s.log := by
  unfold commit_in_write_log
  split <;> rfl

/-- A run of `commit` cut off before its first header write has changed log slots only. -/
theorem commit_in_write_log_disk (k : Nat) (s : FS) (b : Nat)
    (hb : ∀ i, i < s.log.lh.n.toNat → slotno s.log i ≠ b) :
    (commit_in_write_log k s).bio.disk b = s.bio.disk b := by
  unfold commit_in_write_log
  split
  · exact write_log_upto_disk_other s.log s.bio b _
      (fun i hi => hb i (lt_of_lt_of_le hi (Nat.min_le_right _ _)))
  · rfl

/-- C2: if the on-disk header count is 0 and the open transaction fits the log region, then
after a crash of `commit` at any point before its first header write (after any number `k` of
log slots written) `recover_from_log` leaves every block outside the log region with the
content it had before `commit`, and the on-disk header count is 0. -/
theorem C2_crash_before_commit_point (s : FS) (k : Nat)
    (h0 : diskCount s = 0)
    (hfit : 0 < s.log.lh.n → s.log.lh.n ≤ s.log.size - 1)
    (hint : s.log.lh.n ≤ 2147483647) :
    (∀ b, ¬ inLogRegion s.log b →
      (recover_from_log (crash (commit_in_write_log k s))).bio.disk b = s.bio.disk b) ∧
    diskCount (recover_from_log (crash (commit_in_write_log k s))) = 0 := by
  have hhead : (commit_in_write_log k s).bio.disk (headno s.log) = s.bio.disk (headno s.log) :=
    commit_in_write_log_disk k s _ (fun i hi => slotno_ne_headno s.log i (by omega))
  have hz : (commit_in_write_log k s).bio.disk (headno (commit_in_write_log k s).log) 0 = 0 := by
    rw [commit_in_write_log_log, hhead]
    exact h0
  have hrec := recover_of_count_zero (commit_in_write_log k s) hz
  refine ⟨?_, ?_⟩
  · intro b hb
    rw [hrec]
    exact commit_in_write_log_disk k s b
      (fun i hi e => hb (e ▸ slot_inLogRegion s.log i hi (hfit (by omega))))
  · unfold diskCount
    rw [recover_crash_headno, hrec]
    exact hz

/-- C2, instance: on `oneBlockTrans` (on-disk count 0), a crash after the one log slot is
written followed by recovery leaves block 10 with its old first word 0. -/
theorem C2_crash_before_commit_point_witness :
    (recover_from_log (crash (commit_in_write_log 1 oneBlockTrans))).bio.disk 10 0 = 0 :=
  congrFun ((C2_crash_before_commit_point oneBlockTrans 1 (by decide) (by decide)
    (by decide)).1 10 (by decide)) 0

/-! ## `log_write` -/

/-- C8 (as stated, refuted): in `fullHeader` an operation is outstanding and block 100 is
already registered (slot 0), so writing it needs no new slot; yet `log_write` halts with
"too big a transaction". -/
theorem C8_counterexample_registered_block_halts :
    1 ≤ fullHeader.log.outstanding ∧
    blockno_of (fullHeader.log.lh.block 0) = 100 ∧
    (0 : Int) < fullHeader.log.lh.n ∧
    (log_write xv6Param fullHeader 100).panicOf = some Panic.tooBig := by
  decide

/-- C8 (amended): `log_write(b)` halts if and only if the header already holds `LOGSIZE`
entries (`n ≥ LOGSIZE`), or fills the log region (`n ≥ size - 1`), or no operation is
outstanding, whether or not `b` is already registered; when it halts, the state at the halt
(header, buffers and their pin counts) is the state before the call. -/
theorem C8_log_write_halts_iff (P : Param) (s : FS) (b : Nat) :
    ((log_write P s b).panicOf ≠ none ↔
      (s.log.lh.n ≥ P.LOGSIZE ∨ s.log.lh.n ≥ s.log.size - 1 ∨ s.log.outstanding < 1)) ∧
    (∀ p s', log_write P s b = Res.panic p s' → s' = s) := by
  unfold log_write
  by_cases h1 : s.log.lh.n ≥ P.LOGSIZE ∨ s.log.lh.n ≥ s.log.size - 1
  · rw [if_pos h1]
    refine ⟨⟨fun _ => ?_, fun _ => by simp [Res.panicOf]⟩, ?_⟩
    · rcases h1 with h | h
      · exact Or.inl h
      · exact Or.inr (Or.inl h)
    · intro p s' h
      injection h with _ h2
      exact h2.symm
  · rw [if_neg h1]
    by_cases h2 : s.log.outstanding < 1
    · rw [if_pos h2]
      refine ⟨⟨fun _ => Or.inr (Or.inr h2), fun _ => by simp [Res.panicOf]⟩, ?_⟩
      intro p s' h
      injection h with _ h2
      exact h2.symm
    · rw [if_neg h2]
      refine ⟨⟨fun h => ?_, fun h => ?_⟩, ?_⟩
      · exfalso
        apply h
        dsimp only
        split <;> rfl
      · exfalso
        rcases h with h | h | h
        · exact h1 (Or.inl h)
        · exact h1 (Or.inr h)
        · exact h2 h
      · intro p s' h
        dsimp only at h
        split at h <;> cases h

/-- C8 (amended), instance: in `fullHeader` the header holds `LOGSIZE` entries, so `log_write`
of the registered block 100 halts. -/
theorem C8_log_write_halts_iff_witness :
    (log_write xv6Param fullHeader 100).panicOf ≠ none :=
  (C8_log_write_halts_iff xv6Param fullHeader 100).1.mpr (by decide)

theorem blockno_of_int_of (b : Nat) (hb : b < 4294967296) : blockno_of (int_of b) = b := by
  unfold blockno_of int_of
  split <;> omega

/-- Distinct log slots have distinct block numbers (the count is a C `int`). -/
theorem slotno_inj (l : Log) (i j : Nat) (hi : (i : Int) < 2147483647)
    (hj : (j : Int) < 2147483647) (h : slotno l i = slotno l j) : i = j := by
  unfold slotno blockno_of at h
  omega

theorem copied_at_dst_val (src dst : Nat → Nat) (v f : Nat → Block) :
    ∀ k i : Nat, i < k →
      ∃ j, j < k ∧ dst j = dst i ∧ copied src dst v f k (dst i) = v (src j) := by
  intro k
  induction k with
  | zero => intro i hi; exact absurd hi (Nat.not_lt_zero i)
  | succ k ih =>
    intro i hi
    by_cases e : dst i = dst k
    · refine ⟨k, Nat.lt_succ_self k, e.symm, ?_⟩
      simp only [copied, upd, e, if_true]
    · have hik : i < k := by
        rcases Nat.lt_succ_iff_lt_or_eq.mp hi with h | h
        · exact h
        · exact absurd (by rw [h]) e
      obtain ⟨j, hj, hd, hv⟩ := ih i hik
      refine ⟨j, Nat.lt_succ_of_lt hj, hd, ?_⟩
      simp only [copied, upd, e, if_false]
      exact hv

/-- After `write_log`, the buffer of each log slot holds the content of the buffer of the
block logged there. -/
theorem write_log_view_slot (s : FS)
    (hs : ∀ i j, i < s.log.lh.n.toNat → j < s.log.lh.n.toNat →
      homeno s.log i ≠ slotno s.log j)
    (hint : s.log.lh.n ≤ 2147483647) (j : Nat) (hj : j < s.log.lh.n.toNat) :
    (write_log s).bio.view (slotno s.log j) = s.bio.view (homeno s.log j) := by
  obtain ⟨_, hv⟩ := write_log_upto_closed s.log s.bio s.log.lh.n.toNat hs
  have hv1 : (write_log s).bio.view
      = copied (homeno s.log) (slotno s.log) s.bio.view s.bio.view s.log.lh.n.toNat := hv
  rw [hv1]
  obtain ⟨j', hj', hd, hval⟩ := copied_at_dst_val (homeno s.log) (slotno s.log) s.bio.view
    s.bio.view s.log.lh.n.toNat j hj
  have e : j' = j := slotno_inj s.log j' j (by omega) (by omega) hd
  rw [hval, e]

/-- The completed `commit` leaves in each logged home block the content that its buffer had
before `commit`. -/
theorem commit_installs (s : FS) (hn : 1 ≤ s.log.lh.n) (hint : s.log.lh.n ≤ 2147483647)
    (hs : ∀ i j, i < s.log.lh.n.toNat → j < s.log.lh.n.toNat →
      homeno s.log i ≠ slotno s.log j)
    (hh : ∀ i, i < s.log.lh.n.toNat → homeno s.log i ≠ headno s.log)
    (i : Nat) (hi : i < s.log.lh.n.toNat) :
    (commit s).bio.disk (homeno s.log i) = s.bio.view (homeno s.log i) := by
  have hpos : s.log.lh.n > 0 := by omega
  have hc : commit s = write_head (clear_n (install_trans 0 (write_head (write_log s)))) := by
    simp [commit, hpos]
  rw [hc, install_and_erase_disk 0 (write_head (write_log s)) hs hh]
  have e : headno (write_head (write_log s)).log = headno s.log := rfl
  have l : (write_head (write_log s)).log = s.log := rfl
  rw [e, l, upd_other _ _ _ _ (hh i hi)]
  obtain ⟨j, hj, hd, hval⟩ := copied_at_dst_val (slotno s.log) (homeno s.log)
    (write_head (write_log s)).bio.view (write_head (write_log s)).bio.disk
    s.log.lh.n.toNat i hi
  rw [hval, write_head_view, write_log_log,
    upd_other _ _ _ _ (slotno_ne_headno s.log j (by omega)),
    write_log_view_slot s hs hint j hj, hd]

theorem hdrList_length (lh : LogHeader) : (hdrList lh).length = lh.n.toNat := by
  simp [hdrList]

theorem mem_hdrList (lh : LogHeader) (b : Nat) :
    b ∈ hdrList lh ↔ ∃ i, i < lh.n.toNat ∧ blockno_of (lh.block i) = b := by
  simp [hdrList]

theorem absorb_index_found (lh : LogHeader) (b : Nat) (h : b ∈ hdrList lh) :
    absorb_index lh b < lh.n.toNat ∧ blockno_of (lh.block (absorb_index lh b)) = b := by
  unfold absorb_index
  cases hf : (List.range lh.n.toNat).find? (fun i => decide (blockno_of (lh.block i) = b)) with
  | none =>
    exfalso
    obtain ⟨i, hi, hb⟩ := (mem_hdrList lh b).mp h
    have := List.find?_eq_none.mp hf i (List.mem_range.mpr hi)
    simp [hb] at this
  | some i =>
    have h1 := List.find?_some hf
    have h2 := List.mem_of_find?_eq_some hf
    exact ⟨List.mem_range.mp h2, by simpa using h1⟩

theorem absorb_index_none (lh : LogHeader) (b : Nat) (h : b ∉ hdrList lh) :
    absorb_index lh b = lh.n.toNat := by
  unfold absorb_index
  cases hf : (List.range lh.n.toNat).find? (fun i => decide (blockno_of (lh.block i) = b)) with
  | none => rfl
  | some i =>
    exfalso
    have h1 := List.find?_some hf
    have h2 := List.mem_of_find?_eq_some hf
    exact h ((mem_hdrList lh b).mpr ⟨i, List.mem_range.mp h2, by simpa using h1⟩)

/-- What a returning `log_write` leaves unchanged. -/
theorem log_write_ok_frame (P : Param) (s s' : FS) (b : Nat)
    (h : log_write P s b = Res.ok s') :
    s'.log.start = s.log.start ∧ s'.log.size = s.log.size ∧
    s'.log.outstanding = s.log.outstanding ∧ s'.log.committing = s.log.committing ∧
    s'.bio.view = s.bio.view ∧ s'.bio.disk = s.bio.disk := by
  unfold log_write at h
  split at h
  · cases h
  · split at h
    · cases h
    · dsimp only at h
      split at h
      · cases h
        exact ⟨rfl, rfl, rfl, rfl, rfl, rfl⟩
      · cases h
        exact ⟨rfl, rfl, rfl, rfl, rfl, rfl⟩

/-- What a returning `log_write` does to the header: the block is appended unless it is
already registered. -/
theorem log_write_ok_hdr (P : Param) (s s' : FS) (b : Nat)
    (h : log_write P s b = Res.ok s') (hb : b < 4294967296) (hn : 0 ≤ s.log.lh.n) :
    hdrList s'.log.lh
      = (if b ∈ hdrList s.log.lh then hdrList s.log.lh else hdrList s.log.lh ++ [b]) ∧
    0 ≤ s'.log.lh.n ∧ s'.log.lh.n ≤ s.log.size - 1 ∧ s'.log.lh.n ≤ P.LOGSIZE ∧
    s.log.outstanding ≥ 1 ∧
    s'.log.lh.n = (if b ∈ hdrList s.log.lh then s.log.lh.n else s.log.lh.n + 1) := by
  unfold log_write at h
  split at h
  · cases h
  · rename_i hcap
    split at h
    · cases h
    · rename_i hout
      dsimp only at h
      by_cases hmem : b ∈ hdrList s.log.lh
      · obtain ⟨hlt, hat⟩ := absorb_index_found s.log.lh b hmem
        have hne : ¬ ((absorb_index s.log.lh b : Nat) : Int) = s.log.lh.n := by omega
        rw [if_neg hne] at h
        cases h
        rw [if_pos hmem, if_pos hmem]
        refine ⟨?_, hn, by show s.log.lh.n ≤ _; omega, by show s.log.lh.n ≤ _; omega,
          by omega, rfl⟩
        unfold hdrList
        apply List.map_congr_left
        intro j _
        show blockno_of (upd s.log.lh.block (absorb_index s.log.lh b) (int_of b) j) = _
        unfold upd
        split
        · rename_i hj
          rw [blockno_of_int_of b hb, hj, hat]
        · rfl
      · have hidx := absorb_index_none s.log.lh b hmem
        have heq : ((absorb_index s.log.lh b : Nat) : Int) = s.log.lh.n := by omega
        rw [if_pos heq] at h
        cases h
        rw [if_neg hmem, if_neg hmem]
        refine ⟨?_, by show 0 ≤ s.log.lh.n + 1; omega, by show s.log.lh.n + 1 ≤ _; omega,
          by show s.log.lh.n + 1 ≤ _; omega, by omega, rfl⟩
        unfold hdrList
        have hN : (s.log.lh.n + 1).toNat = s.log.lh.n.toNat + 1 := by omega
        show List.map _ (List.range (s.log.lh.n + 1).toNat) = _
        rw [hN, List.range_succ, List.map_append, hidx]
        congr 1
        · apply List.map_congr_left
          intro j hj
          have hj' : j ≠ s.log.lh.n.toNat := Nat.ne_of_lt (List.mem_range.mp hj)
          show blockno_of (upd s.log.lh.block s.log.lh.n.toNat (int_of b) j) = _
          rw [upd_other _ _ _ _ hj']
        · show [blockno_of (upd s.log.lh.block s.log.lh.n.toNat (int_of b) s.log.lh.n.toNat)] = _
          rw [upd_same, blockno_of_int_of b hb]

theorem mem_register (H : List Nat) (b x : Nat) : x ∈ register H b ↔ x ∈ H ∨ x = b := by
  unfold register
  split
  · rename_i h
    constructor
    · exact Or.inl
    · rintro (h1 | h1)
      · exact h1
      · rw [h1]; exact h
  · simp

theorem register_nodup (H : List Nat) (b : Nat) (h : H.Nodup) : (register H b).Nodup := by
  unfold register
  split
  · exact h
  · rename_i hb
    rw [List.nodup_append]
    refine ⟨h, List.nodup_singleton b, ?_⟩
    intro x hx hx'
    rw [List.mem_singleton] at hx'
    exact hb (hx' ▸ hx)

theorem mem_registerAll (bs : List Nat) :
    ∀ (H : List Nat) (x : Nat), x ∈ registerAll H bs ↔ x ∈ H ∨ x ∈ bs := by
  induction bs with
  | nil => intro H x; simp [registerAll]
  | cons b bs ih =>
    intro H x
    show x ∈ registerAll (register H b) bs ↔ _
    rw [ih, mem_register, List.mem_cons]
    tauto

theorem registerAll_nodup (bs : List Nat) :
    ∀ H : List Nat, H.Nodup → (registerAll H bs).Nodup := by
  induction bs with
  | nil => intro H h; exact h
  | cons b bs ih =>
    intro H h
    exact ih (register H b) (register_nodup H b h)

theorem registerAll_length (bs : List Nat) : (registerAll [] bs).length = bs.dedup.length := by
  apply List.Perm.length_eq
  rw [List.perm_ext_iff_of_nodup (registerAll_nodup bs [] List.nodup_nil) (List.nodup_dedup bs)]
  intro a
  rw [mem_registerAll, List.mem_dedup]
  simp

/-- Effect of one returning logged write. -/
theorem logged_write_ok (P : Param) (s s' : FS) (b : Nat) (d : Block)
    (h : logged_write P s b d = Res.ok s') (hb : b < 4294967296) (hn : 0 ≤ s.log.lh.n) :
    hdrList s'.log.lh = register (hdrList s.log.lh) b ∧
    0 ≤ s'.log.lh.n ∧ s'.log.lh.n ≤ s'.log.size - 1 ∧
    s'.log.start = s.log.start ∧ s'.log.size = s.log.size ∧
    s'.log.outstanding = s.log.outstanding ∧ s'.log.committing = s.log.committing ∧
    s'.bio.view = upd s.bio.view b d ∧ s'.bio.disk = s.bio.disk := by
  unfold logged_write at h
  dsimp only at h
  split at h
  · cases h
  · rename_i t ht
    cases h
    obtain ⟨f1, f2, f3, f4, f5, f6⟩ := log_write_ok_frame P _ t b ht
    obtain ⟨g1, g2, g3, _, _, _⟩ := log_write_ok_hdr P _ t b ht hb hn
    refine ⟨g1, g2, by show t.log.lh.n ≤ t.log.size - 1; rw [f2]; exact g3,
      f1, f2, f3, f4, ?_, f6⟩
    funext x
    show (brelse t.bio b).view x = _
    rw [view_brelse, f5]
    show (setData (bread s.bio b) b d).view x = _
    rw [view_setData]
    unfold upd
    split
    · rfl
    · exact view_bread _ _ _

/-- Effect of a returning sequence of logged writes. -/
theorem logged_writes_ok (P : Param) (ws : List (Nat × Block)) :
    ∀ (s s' : FS), logged_writes P s ws = Res.ok s' → (∀ w ∈ ws, w.1 < 4294967296) →
      0 ≤ s.log.lh.n →
      hdrList s'.log.lh = registerAll (hdrList s.log.lh) (ws.map Prod.fst) ∧
      0 ≤ s'.log.lh.n ∧ (ws ≠ [] → s'.log.lh.n ≤ s'.log.size - 1) ∧
      s'.log.start = s.log.start ∧ s'.log.size = s.log.size ∧
      s'.log.outstanding = s.log.outstanding ∧ s'.log.committing = s.log.committing ∧
      (∀ b, s'.bio.view b = match lastWrite ws b with
        | some d => d
        | none => s.bio.view b) ∧
      s'.bio.disk = s.bio.disk := by
  induction ws with
  | nil =>
    intro s s' h _ hn
    cases h
    exact ⟨rfl, hn, fun h => absurd rfl h, rfl, rfl, rfl, rfl, fun _ => rfl, rfl⟩
  | cons w ws ih =>
    intro s s' h hty hn
    obtain ⟨b, d⟩ := w
    unfold logged_writes at h
    split at h
    · cases h
    · rename_i t ht
      obtain ⟨a1, a2, a3, a4, a5, a6, a7, a8, a9⟩ :=
        logged_write_ok P s t b d ht (hty (b, d) (List.mem_cons_self _ _)) hn
      obtain ⟨b1, b2, b3, b4, b5, b6, b7, b8, b9⟩ :=
        ih t s' h (fun w hw => hty w (List.mem_cons_of_mem _ hw)) a2
      refine ⟨?_, b2, ?_, by rw [b4, a4], by rw [b5, a5], by rw [b6, a6], by rw [b7, a7], ?_,
        by rw [b9, a9]⟩
      · rw [b1, a1]
        rfl
      · intro _
        by_cases hws : ws = []
        · subst hws
          cases h
          exact a3
        · exact b3 hws
      · intro x
        rw [b8 x]
        show _ = match (match lastWrite ws x with
          | some d' => some d'
          | none => if b = x then some d else none) with
          | some d => d
          | none => s.bio.view x
        cases lastWrite ws x with
        | some d' => rfl
        | none =>
          dsimp only
          rw [a8]
          unfold upd
          by_cases e : b = x
          · rw [if_pos e, if_pos e.symm]
          · rw [if_neg e, if_neg (fun e' => e e'.symm)]

theorem mem_of_lastWrite (ws : List (Nat × Block)) (b : Nat) (d : Block) :
    lastWrite ws b = some d → b ∈ ws.map Prod.fst := by
  induction ws with
  | nil => intro h; cases h
  | cons w ws ih =>
    obtain ⟨b', d'⟩ := w
    intro h
    unfold lastWrite at h
    rw [List.map_cons, List.mem_cons]
    cases hl : lastWrite ws b with
    | some d2 => exact Or.inr (ih (by rw [hl] at h; rw [hl]; exact h))
    | none =>
      rw [hl] at h
      dsimp only at h
      by_cases e : b' = b
      · exact Or.inl e.symm
      · rw [if_neg e] at h
        cases h

theorem inLogRegion_congr (l l' : Log) (b : Nat) (h1 : l.start = l'.start)
    (h2 : l.size = l'.size) (h : inLogRegion l b) : inLogRegion l' b := by
  unfold inLogRegion at h ⊢
  rw [← h1, ← h2]
  exact h

/-- The `end_op` of the last outstanding operation commits. -/
theorem end_op_commits (s : FS) (h1 : s.log.outstanding = 1) (h0 : s.log.committing = 0) :
    end_op s = Res.ok
      { log := end_op_exit (commit { s with log :=
          { start := s.log.start, size := s.log.size, outstanding := s.log.outstanding - 1,
            committing := 1, lh := s.log.lh } }).log,
        bio := (commit { s with log :=
          { start := s.log.start, size := s.log.size, outstanding := s.log.outstanding - 1,
            committing := 1, lh := s.log.lh } }).bio } := by
  unfold end_op end_op_enter
  simp [h1, h0]

/-- C3 (as stated, refuted): in `emptyTrans` (log region: blocks 2 to 5) an operation writes
7 to block 10 and then 9 to block 3; both `log_write` calls and the committing `end_op` return,
the last write to block 3 was 9, but after the commit block 3 holds 7 on disk: block 3 is log
slot 0, which `write_log` overwrote with the content of block 10. -/
theorem C3_counterexample_block_in_log_region :
    (logged_writes xv6Param emptyTrans [(10, fun _ => 7), (3, fun _ => 9)]).panicOf = none ∧
    (end_op (logged_writes xv6Param emptyTrans
        [(10, fun _ => 7), (3, fun _ => 9)]).state).panicOf = none ∧
    (lastWrite [(10, fun _ => 7), (3, fun _ => 9)] 3).map (fun d => d 0) = some 9 ∧
    (end_op (logged_writes xv6Param emptyTrans
        [(10, fun _ => 7), (3, fun _ => 9)]).state).state.bio.disk 3 0 = 7 := by
  decide

/-- An `end_op` that returns while another operation is outstanding lowers `log.outstanding`
and changes nothing else. -/
theorem end_op_not_last (s t : FS) (h : end_op s = Res.ok t) (h2 : 2 ≤ s.log.outstanding) :
    t.log.lh = s.log.lh ∧ t.log.start = s.log.start ∧ t.log.size = s.log.size ∧
    t.log.committing = s.log.committing ∧ t.log.outstanding = s.log.outstanding - 1 ∧
    t.bio = s.bio := by
  unfold end_op end_op_enter at h
  dsimp only at h
  by_cases hc : s.log.committing ≠ 0
  · rw [if_pos hc] at h
    cases h
  · rw [if_neg hc, if_neg (by omega)] at h
    dsimp only at h
    cases h
    exact ⟨rfl, rfl, rfl, rfl, rfl, rfl⟩

/-- A pass through `begin_op` changes at most `log.outstanding`. -/
theorem begin_op_iter_frame (P : Param) (l : Log) :
    (begin_op_iter P l).1.lh = l.lh ∧ (begin_op_iter P l).1.start = l.start ∧
    (begin_op_iter P l).1.size = l.size ∧ (begin_op_iter P l).1.committing = l.committing := by
  unfold begin_op_iter
  split
  · exact ⟨rfl, rfl, rfl, rfl⟩
  · split
    · exact ⟨rfl, rfl, rfl, rfl⟩
    · exact ⟨rfl, rfl, rfl, rfl⟩

/-- A sequence of logged writes is the sequence of steps that consists of these writes. -/
theorem txRun_writes (P : Param) (ws : List (Nat × Block)) :
    ∀ s : FS, txRun P s (ws.map (fun w => TxStep.write w.1 w.2)) = logged_writes P s ws := by
  induction ws with
  | nil => intro s; rfl
  | cons w ws ih =>
    intro s
    obtain ⟨b, d⟩ := w
    show (match logged_write P s b d with
      | Res.panic p s => (Res.panic p s : Res FS)
      | Res.ok s => txRun P s (ws.map (fun (w : Nat × Block) => TxStep.write w.1 w.2))) =
      (match logged_write P s b d with
      | Res.panic p s => (Res.panic p s : Res FS)
      | Res.ok s => logged_writes P s ws)
    cases logged_write P s b d with
    | panic p t => rfl
    | ok t => exact ih t

/-- Effect of a returning sequence of steps inside one open transaction. -/
theorem txRun_ok (P : Param) (acts : List TxStep) :
    ∀ (s s' : FS), txRun P s acts = Res.ok s' → OneTrans P s acts →
      (∀ w ∈ writesOf acts, w.1 < 4294967296) → 0 ≤ s.log.lh.n →
      hdrList s'.log.lh = registerAll (hdrList s.log.lh) ((writesOf acts).map Prod.fst) ∧
      0 ≤ s'.log.lh.n ∧ (writesOf acts = [] → s'.log.lh = s.log.lh) ∧
      (writesOf acts ≠ [] → s'.log.lh.n ≤ s'.log.size - 1) ∧
      s'.log.start = s.log.start ∧ s'.log.size = s.log.size ∧
      s'.log.committing = s.log.committing ∧
      (∀ b, s'.bio.view b = match lastWrite (writesOf acts) b with
        | some d => d
        | none => s.bio.view b) ∧
      s'.bio.disk = s.bio.disk := by
  induction acts with
  | nil =>
    intro s s' h _ _ hn
    cases h
    exact ⟨rfl, hn, fun _ => rfl, fun h => absurd rfl h, rfl, rfl, rfl, fun _ => rfl, rfl⟩
  | cons a acts ih =>
    intro s s' h hone hty hn
    obtain ⟨ho1, ho2⟩ := hone
    unfold txRun at h
    cases a with
    | write b d =>
      have hstep : txStep P s (TxStep.write b d) = logged_write P s b d := rfl
      rw [hstep] at h ho2
      cases ht : logged_write P s b d with
      | panic p t =>
        rw [ht] at h
        cases h
      | ok t =>
        rw [ht] at h ho2
        have hw : writesOf (TxStep.write b d :: acts) = (b, d) :: writesOf acts := rfl
        rw [hw] at hty ⊢
        obtain ⟨a1, a2, a3, a4, a5, _, a7, a8, a9⟩ :=
          logged_write_ok P s t b d ht (hty (b, d) (List.mem_cons_self _ _)) hn
        obtain ⟨b1, b2, b3, b4, b5, b6, b7, b8, b9⟩ :=
          ih t s' h ho2 (fun w hw => hty w (List.mem_cons_of_mem _ hw)) a2
        refine ⟨?_, b2, fun e => absurd e (List.cons_ne_nil _ _), ?_, by rw [b5, a4],
          by rw [b6, a5], by rw [b7, a7], ?_, by rw [b9, a9]⟩
        · rw [b1, a1]
          rfl
        · intro _
          by_cases hws : writesOf acts = []
          · rw [b3 hws, b6]
            exact a3
          · exact b4 hws
        · intro x
          rw [b8 x]
          show _ = match (match lastWrite (writesOf acts) x with
            | some d' => some d'
            | none => if b = x then some d else none) with
            | some d => d
            | none => s.bio.view x
          cases lastWrite (writesOf acts) x with
          | some d' => rfl
          | none =>
            dsimp only
            rw [a8]
            unfold upd
            by_cases e : b = x
            · rw [if_pos e, if_pos e.symm]
            · rw [if_neg e, if_neg (fun e' => e e'.symm)]
    | endOp =>
      have hstep : txStep P s TxStep.endOp = end_op s := rfl
      rw [hstep] at h ho2
      cases ht : end_op s with
      | panic p t =>
        rw [ht] at h
        cases h
      | ok t =>
        rw [ht] at h ho2
        have hw : writesOf (TxStep.endOp :: acts) = writesOf acts := rfl
        rw [hw] at hty ⊢
        obtain ⟨e1, e2, e3, e4, _, e6⟩ := end_op_not_last s t ht ho1
        have := ih t s' h ho2 hty (by rw [e1]; exact hn)
        rw [e1, e2, e3, e4, e6] at this
        exact this
    | beginOp =>
      have hstep : txStep P s TxStep.beginOp
          = Res.ok { s with log := (begin_op_iter P s.log).1 } := rfl
      rw [hstep] at h ho2
      dsimp only at h ho2
      have hw : writesOf (TxStep.beginOp :: acts) = writesOf acts := rfl
      rw [hw] at hty ⊢
      obtain ⟨e1, e2, e3, e4⟩ := begin_op_iter_frame P s.log
      have := ih { s with log := (begin_op_iter P s.log).1 } s' h ho2 hty
        (by show 0 ≤ (begin_op_iter P s.log).1.lh.n; rw [e1]; exact hn)
      have f1 : ({ s with log := (begin_op_iter P s.log).1 } : FS).log.lh = s.log.lh := e1
      have f2 : ({ s with log := (begin_op_iter P s.log).1 } : FS).log.start
          = s.log.start := e2
      have f3 : ({ s with log := (begin_op_iter P s.log).1 } : FS).log.size = s.log.size := e3
      have f4 : ({ s with log := (begin_op_iter P s.log).1 } : FS).log.committing
          = s.log.committing := e4
      have f5 : ({ s with log := (begin_op_iter P s.log).1 } : FS).bio = s.bio := rfl
      rw [f1, f2, f3, f4, f5] at this
      exact this

/-- C3 (amended): for every sequence of steps made inside one open transaction that starts
from an empty header (logged writes of the outstanding operations, that return; calls of
`begin_op` by which further operations join; calls of `end_op` none of which is the committing
one), with `ws` the logged writes of the sequence: the header holds each written block exactly
once, its entries are pairwise distinct and `n` is the number of distinct blocks written; and
if moreover every written block lies outside the log region and one operation is still
outstanding, the `end_op` of that operation (the committing one) returns and leaves on disk,
in the home location of each written block, the content of the last write made to it. -/
theorem C3_absorption_and_install (P : Param) (s s' : FS) (acts : List TxStep)
    (hn0 : s.log.lh.n = 0) (hone : OneTrans P s acts)
    (hty : ∀ w ∈ writesOf acts, w.1 < 4294967296)
    (hrun : txRun P s acts = Res.ok s') :
    (hdrList s'.log.lh).Nodup ∧
    (∀ b, b ∈ (writesOf acts).map Prod.fst → (hdrList s'.log.lh).count b = 1) ∧
    (∀ b, b ∈ hdrList s'.log.lh → b ∈ (writesOf acts).map Prod.fst) ∧
    s'.log.lh.n = ((((writesOf acts).map Prod.fst).dedup.length : Nat) : Int) ∧
    (s'.log.outstanding = 1 → s.log.committing = 0 → s.log.size ≤ 2147483647 →
      (∀ w ∈ writesOf acts, ¬ inLogRegion s.log w.1) →
      ∃ s'', end_op s' = Res.ok s'' ∧
        ∀ b d, lastWrite (writesOf acts) b = some d → s''.bio.disk b = d) := by
  have hnil : hdrList s.log.lh = [] := by simp [hdrList, hn0]
  obtain ⟨a1, a2, _, a3, a4, a5, a7, a8, _⟩ :=
    txRun_ok P acts s s' hrun hone hty (by omega)
  rw [hnil] at a1
  have hnd : (hdrList s'.log.lh).Nodup := by
    rw [a1]; exact registerAll_nodup _ [] List.nodup_nil
  have hmem : ∀ b, b ∈ hdrList s'.log.lh ↔ b ∈ (writesOf acts).map Prod.fst := by
    intro b
    rw [a1, mem_registerAll]
    simp
  refine ⟨hnd, ?_, fun b hb => (hmem b).mp hb, ?_, ?_⟩
  · intro b hb
    exact List.count_eq_one_of_mem hnd ((hmem b).mpr hb)
  · have hl := hdrList_length s'.log.lh
    rw [a1, registerAll_length] at hl
    omega
  · intro ho hc hsz hreg
    refine ⟨_, end_op_commits s' ho (by rw [a7, hc]), ?_⟩
    intro b d hbd
    have hbw : b ∈ (writesOf acts).map Prod.fst := mem_of_lastWrite (writesOf acts) b d hbd
    have hne : writesOf acts ≠ [] := by
      intro e
      rw [e] at hbw
      cases hbw
    obtain ⟨i, hi, hib⟩ := (mem_hdrList s'.log.lh b).mp ((hmem b).mpr hbw)
    have hfit := a3 hne
    have hout' : ∀ j, j < s'.log.lh.n.toNat → ¬ inLogRegion s'.log (homeno s'.log j) := by
      intro j hj hin
      have hjm : homeno s'.log j ∈ (writesOf acts).map Prod.fst :=
        (hmem _).mp ((mem_hdrList s'.log.lh _).mpr ⟨j, hj, rfl⟩)
      obtain ⟨w, hw, hw1⟩ := List.mem_map.mp hjm
      exact hreg w hw (hw1 ▸ inLogRegion_congr s'.log s.log _ a4 a5 hin)
    have hv := a8 b
    rw [hbd] at hv
    show (commit { s' with log :=
          { start := s'.log.start, size := s'.log.size, outstanding := s'.log.outstanding - 1,
            committing := 1, lh := s'.log.lh } }).bio.disk b = d
    have hv' : s'.bio.view b = d := hv
    rw [← hv', ← hib]
    exact commit_installs { s' with log :=
          { start := s'.log.start, size := s'.log.size, outstanding := s'.log.outstanding - 1,
            committing := 1, lh := s'.log.lh } }
      (by show 1 ≤ s'.log.lh.n; omega) (by show s'.log.lh.n ≤ _; omega)
      (fun i j hi hj e => hout' i hi
        (inLogRegion_congr _ s'.log _ rfl rfl (e ▸ slot_inLogRegion _ j hj hfit)))
      (fun i hi e => hout' i hi
        (inLogRegion_congr _ s'.log _ rfl rfl
          (e ▸ head_inLogRegion _ (by show 1 ≤ s'.log.size; omega))))
      i hi

/-- C3 (amended), instance: in `emptyTrans` an operation writes 7 to block 10, a second
operation begins, block 10 is written again with 9, one of the two operations ends (without
committing) and the other writes 5 to block 11; the `end_op` of the remaining operation, the
committing one, returns and leaves on disk in each written block the content last written to
it. -/
theorem C3_absorption_and_install_witness :
    ∃ s'', end_op (txRun xv6Param emptyTrans
        [TxStep.write 10 (fun _ => 7), TxStep.beginOp, TxStep.write 10 (fun _ => 9),
         TxStep.endOp, TxStep.write 11 (fun _ => 5)]).state = Res.ok s'' ∧
      ∀ b d, lastWrite (writesOf
        [TxStep.write 10 (fun _ => 7), TxStep.beginOp, TxStep.write 10 (fun _ => 9),
         TxStep.endOp, TxStep.write 11 (fun _ => 5)]) b = some d → s''.bio.disk b = d :=
  (C3_absorption_and_install xv6Param emptyTrans
    (txRun xv6Param emptyTrans
      [TxStep.write 10 (fun _ => 7), TxStep.beginOp, TxStep.write 10 (fun _ => 9),
       TxStep.endOp, TxStep.write 11 (fun _ => 5)]).state
    [TxStep.write 10 (fun _ => 7), TxStep.beginOp, TxStep.write 10 (fun _ => 9),
     TxStep.endOp, TxStep.write 11 (fun _ => 5)] (by decide) (by decide) (by decide)
    (Res.eq_ok_of_panicOf_none _ (by decide))).2.2.2.2
    (by decide) (by decide) (by decide) (by decide)

/-- The values of the instance above: two operations are outstanding when block 10 is written
the second time, the header ends with the two entries 10 and 11, and after the committing
`end_op` block 10 holds 9 and block 11 holds 5 on disk. -/
theorem group_commit_installs_last_writes :
    (txRun xv6Param emptyTrans
      [TxStep.write 10 (fun _ => 7), TxStep.beginOp]).state.log.outstanding = 2 ∧
    hdrList (txRun xv6Param emptyTrans
      [TxStep.write 10 (fun _ => 7), TxStep.beginOp, TxStep.write 10 (fun _ => 9),
       TxStep.endOp, TxStep.write 11 (fun _ => 5)]).state.log.lh = [10, 11] ∧
    (end_op (txRun xv6Param emptyTrans
      [TxStep.write 10 (fun _ => 7), TxStep.beginOp, TxStep.write 10 (fun _ => 9),
       TxStep.endOp, TxStep.write 11 (fun _ => 5)]).state).state.bio.disk 10 0 = 9 ∧
    (end_op (txRun xv6Param emptyTrans
      [TxStep.write 10 (fun _ => 7), TxStep.beginOp, TxStep.write 10 (fun _ => 9),
       TxStep.endOp, TxStep.write 11 (fun _ => 5)]).state).state.bio.disk 11 0 = 5 := by
  decide

/-! ## The free list in memory -/

theorem write64_at (m : Nat → Nat) (a v i : Nat) (hi : i < 8) :
    write64 m a v (a + i) = v / 256 ^ i % 256 := by
  unfold write64
  rw [if_pos ⟨Nat.le_add_right a i, by omega⟩, Nat.add_sub_cancel_left]

theorem write64_other (m : Nat → Nat) (a v x : Nat) (hx : x < a ∨ a + 8 ≤ x) :
    write64 m a v x = m x := by
  unfold write64
  rw [if_neg (by omega)]

theorem memset_at (m : Nat → Nat) (pa c n x : Nat) (h1 : pa ≤ x) (h2 : x < pa + n) :
    memset m pa c n x = c % 256 := by
  unfold memset
  rw [if_pos ⟨h1, h2⟩]

theorem memset_other (m : Nat → Nat) (pa c n x : Nat) (hx : x < pa ∨ pa + n ≤ x) :
    memset m pa c n x = m x := by
  unfold memset
  rw [if_neg (by omega)]

/-- A pointer stored is the pointer loaded. -/
theorem read64_write64 (m : Nat → Nat) (a v : Nat) (hv : v < 18446744073709551616) :
    read64 (write64 m a v) a = v := by
  have h0 := write64_at m a v 0 (by omega)
  have h1 := write64_at m a v 1 (by omega)
  have h2 := write64_at m a v 2 (by omega)
  have h3 := write64_at m a v 3 (by omega)
  have h4 := write64_at m a v 4 (by omega)
  have h5 := write64_at m a v 5 (by omega)
  have h6 := write64_at m a v 6 (by omega)
  have h7 := write64_at m a v 7 (by omega)
  norm_num at h0 h1 h2 h3 h4 h5 h6 h7
  unfold read64
  rw [h0, h1, h2, h3, h4, h5, h6, h7]
  omega

theorem read64_frame (m m' : Nat → Nat) (a : Nat) (h : ∀ k, k < 8 → m' (a + k) = m (a + k)) :
    read64 m' a = read64 m a := by
  have h0 := h 0 (by omega)
  rw [Nat.add_zero] at h0
  unfold read64
  rw [h0, h 1 (by omega), h 2 (by omega), h 3 (by omega), h 4 (by omega), h 5 (by omega),
    h 6 (by omega), h 7 (by omega)]

/-- A chain is not affected by writes outside the link fields of its pages. -/
theorem FreeChain_frame (m m' : Nat → Nat) (Lst : List Nat) :
    ∀ h : Nat, (∀ p ∈ Lst, ∀ k, k < 8 → m' (p + k) = m (p + k)) →
      FreeChain m h Lst → FreeChain m' h Lst := by
  induction Lst with
  | nil => intro h _ hc; exact hc
  | cons p Lst ih =>
    intro h hm hc
    obtain ⟨h1, h2, h3⟩ := hc
    refine ⟨h1, h2, ?_⟩
    rw [read64_frame m m' p (hm p (List.mem_cons_self _ _))]
    exact ih _ (fun q hq => hm q (List.mem_cons_of_mem _ hq)) h3

/-- The chain from a head pointer is unique. -/
theorem FreeChain_unique (m : Nat → Nat) (L1 : List Nat) :
    ∀ (h : Nat) (L2 : List Nat), FreeChain m h L1 → FreeChain m h L2 → L1 = L2 := by
  induction L1 with
  | nil =>
    intro h L2 h1 h2
    cases L2 with
    | nil => rfl
    | cons q L2 =>
      obtain ⟨e, ne, _⟩ := h2
      exact absurd (e ▸ h1 : q = 0) ne
  | cons p L1 ih =>
    intro h L2 h1 h2
    obtain ⟨e1, ne1, c1⟩ := h1
    cases L2 with
    | nil => exact absurd (e1 ▸ h2 : p = 0) ne1
    | cons q L2 =>
      obtain ⟨e2, _, c2⟩ := h2
      have e : p = q := e1.symm.trans e2
      subst e
      rw [ih _ L2 c1 c2]

theorem FreeChain_head_lt (L : Layout) (m : Nat → Nat) (h : Nat) (Lst : List Nat)
    (hc : FreeChain m h Lst) (hm : ∀ p ∈ Lst, managed L p) (hL : LayoutOk L) :
    h < 18446744073709551616 := by
  cases Lst with
  | nil =>
    have : h = 0 := hc
    omega
  | cons p Lst =>
    obtain ⟨e, _, _⟩ := hc
    have := (hm p (List.mem_cons_self _ _)).2.2
    have := hL.2.2.2
    omega

/-! ## The allocator invariant -/

theorem managed_of_check (L : Layout) (p : Nat) (h1 : p % PGSIZE = 0) (h2 : L.kend ≤ p)
    (h3 : p < L.PHYSTOP) : managed L p := by
  refine ⟨h1, ?_, h3⟩
  unfold PGROUNDUP
  unfold PGSIZE at *
  omega

theorem managed_ne_zero (L : Layout) (hL : LayoutOk L) (p : Nat) (h : managed L p) : p ≠ 0 := by
  obtain ⟨_, h2, _⟩ := h
  obtain ⟨_, hk, _, _⟩ := hL
  unfold PGROUNDUP PGSIZE at h2
  omega

theorem COWINDEX_inj (L : Layout) (hL : LayoutOk L) (p q : Nat) (hp : managed L p)
    (hq : managed L q) (h : COWINDEX L p = COWINDEX L q) : p = q := by
  obtain ⟨p1, p2, p3⟩ := hp
  obtain ⟨q1, q2, q3⟩ := hq
  obtain ⟨l1, l2, l3, l4⟩ := hL
  unfold COWINDEX at h
  unfold PGROUNDUP PGSIZE at *
  omega

/-- The link fields of a page lie outside every other page. -/
theorem page_disjoint (p q k : Nat) (hp : p % PGSIZE = 0) (hq : q % PGSIZE = 0) (hne : q ≠ p)
    (hk : k < 8) : q + k < p ∨ p + PGSIZE ≤ q + k := by
  unfold PGSIZE at *
  omega

theorem kfree_panic (L : Layout) (s : Kmem) (pa : Nat)
    (h : pa % PGSIZE ≠ 0 ∨ pa < L.kend ∨ pa ≥ L.PHYSTOP) :
    kfree L s pa = Res.panic Panic.kfree s := by
  unfold kfree
  rw [if_pos h]

/-- A value in the range of an `int` is stored unchanged. -/
theorem wrap_int_id (x : Int) (h1 : -2147483648 ≤ x) (h2 : x ≤ 2147483647) :
    wrap_int x = x := by
  unfold wrap_int
  omega

/-- The stored value is in the range of an `int`. -/
theorem wrap_int_range (x : Int) : -2147483648 ≤ wrap_int x ∧ wrap_int x ≤ 2147483647 := by
  unfold wrap_int
  omega

/-- The decrement of an `int` gives 0 only from 1, modulo 2^32. -/
theorem wrap_int_pred_eq_zero (x : Int) (h1 : -2147483648 ≤ x) (h2 : x ≤ 2147483647) :
    wrap_int (x - 1) = 0 ↔ x = 1 := by
  unfold wrap_int
  omega

/-- A call of `kfree` of a valid page whose count is 0 after the decrement: the page is
scrubbed and pushed. -/
theorem kfree_pushes (L : Layout) (s : Kmem) (pa : Nat)
    (h : ¬ (pa % PGSIZE ≠ 0 ∨ pa < L.kend ∨ pa ≥ L.PHYSTOP))
    (hc : wrap_int (refcount L s pa - 1) = 0) :
    kfree L s pa = Res.ok
      { useRef := (cowdec L s pa).useRef,
        freelist := pa,
        mem := write64 (memset s.mem pa 1 PGSIZE) pa s.freelist } := by
  unfold kfree
  rw [if_neg h]
  unfold refcount at hc
  have : cowgetref L (cowdec L s pa) pa = 0 := by
    show upd s.useRef (COWINDEX L pa) (wrap_int (s.useRef (COWINDEX L pa) - 1))
      (COWINDEX L pa) = 0
    rw [upd_same]
    exact hc
  simp only [this, if_true]
  rfl

/-- A call of `kfree` of a valid page whose count is 0 after the decrement. -/
theorem kfree_zero (L : Layout) (s : Kmem) (pa : Nat)
    (h : ¬ (pa % PGSIZE ≠ 0 ∨ pa < L.kend ∨ pa ≥ L.PHYSTOP))
    (hc : wrap_int (refcount L s pa - 1) = 0) :
    kfree L s pa = Res.ok
      { useRef := upd s.useRef (COWINDEX L pa) 0,
        freelist := pa,
        mem := write64 (memset s.mem pa 1 PGSIZE) pa s.freelist } := by
  rw [kfree_pushes L s pa h hc]
  unfold refcount at hc
  show Res.ok
    ({ useRef := upd s.useRef (COWINDEX L pa) (wrap_int (s.useRef (COWINDEX L pa) - 1)),
       freelist := pa,
       mem := write64 (memset s.mem pa 1 PGSIZE) pa s.freelist } : Kmem) = _
  rw [hc]

/-- A call of `kfree` of a valid page whose count is not 0 after the decrement. -/
theorem kfree_nonzero (L : Layout) (s : Kmem) (pa : Nat)
    (h : ¬ (pa % PGSIZE ≠ 0 ∨ pa < L.kend ∨ pa ≥ L.PHYSTOP))
    (hc : wrap_int (refcount L s pa - 1) ≠ 0) :
    kfree L s pa = Res.ok (cowdec L s pa) := by
  unfold kfree
  rw [if_neg h]
  unfold refcount at hc
  have : ¬ cowgetref L (cowdec L s pa) pa = 0 := by
    show ¬ upd s.useRef (COWINDEX L pa) (wrap_int (s.useRef (COWINDEX L pa) - 1))
      (COWINDEX L pa) = 0
    rw [upd_same]
    exact hc
  simp only [this, if_false]

/-- A call of `kfree` of a valid page whose count drops to 0. -/
theorem kfree_last (L : Layout) (s : Kmem) (pa : Nat)
    (h : ¬ (pa % PGSIZE ≠ 0 ∨ pa < L.kend ∨ pa ≥ L.PHYSTOP)) (hc : refcount L s pa = 1) :
    kfree L s pa = Res.ok
      { useRef := upd s.useRef (COWINDEX L pa) 0,
        freelist := pa,
        mem := write64 (memset s.mem pa 1 PGSIZE) pa s.freelist } :=
  kfree_zero L s pa h (by rw [hc]; rfl)

/-- A call of `kfree` of a valid page that stays in use: its count `c` is in `[2, 2^31)`, and
becomes `c - 1`. -/
theorem kfree_shared (L : Layout) (s : Kmem) (pa : Nat)
    (h : ¬ (pa % PGSIZE ≠ 0 ∨ pa < L.kend ∨ pa ≥ L.PHYSTOP)) (hc : 2 ≤ refcount L s pa)
    (hmax : refcount L s pa ≤ 2147483647) :
    kfree L s pa = Res.ok
      { s with useRef := upd s.useRef (COWINDEX L pa) (s.useRef (COWINDEX L pa) - 1) } := by
  rw [kfree_nonzero L s pa h (by
    rw [wrap_int_id _ (by omega) (by omega)]
    omega)]
  unfold refcount at hc hmax
  show Res.ok { s with useRef := (upd s.useRef (COWINDEX L pa)
      (wrap_int (s.useRef (COWINDEX L pa) - 1))) } = _
  rw [wrap_int_id _ (by omega) (by omega)]

/-- A call of `kfree` of a page in use preserves the allocator invariant. -/
theorem kfree_preserves (L : Layout) (hL : LayoutOk L) (s : Kmem) (pa : Nat)
    (hinv : AllocInv L s) (hc : 1 ≤ refcount L s pa) : AllocInv L (kfree L s pa).state := by
  by_cases hchk : pa % PGSIZE ≠ 0 ∨ pa < L.kend ∨ pa ≥ L.PHYSTOP
  · rw [kfree_panic L s pa hchk]
    exact hinv
  · have hman : managed L pa := by
      apply managed_of_check <;> omega
    obtain ⟨hnn, Lst, hch, hnd, hmg, hiff⟩ := hinv
    have hnot : pa ∉ Lst := fun hm => by
      have := (hiff pa hman).mp hm
      omega
    have hmax : refcount L s pa ≤ 2147483647 := (hnn (COWINDEX L pa)).2
    by_cases h1 : refcount L s pa = 1
    · rw [kfree_last L s pa hchk h1]
      refine ⟨?_, pa :: Lst, ⟨rfl, managed_ne_zero L hL pa hman, ?_⟩, ?_, ?_, ?_⟩
      · intro i
        show 0 ≤ upd s.useRef (COWINDEX L pa) 0 i ∧
          upd s.useRef (COWINDEX L pa) 0 i ≤ 2147483647
        unfold upd
        split
        · omega
        · exact hnn i
      · show FreeChain (write64 (memset s.mem pa 1 PGSIZE) pa s.freelist)
          (read64 (write64 (memset s.mem pa 1 PGSIZE) pa s.freelist) pa) Lst
        rw [read64_write64 _ _ _ (FreeChain_head_lt L s.mem s.freelist Lst hch hmg hL)]
        apply FreeChain_frame s.mem _ Lst s.freelist _ hch
        intro q hq k hk
        have hqne : q ≠ pa := fun e => hnot (e ▸ hq)
        have hd := page_disjoint pa q k hman.1 (hmg q hq).1 hqne hk
        have hP : PGSIZE = 4096 := rfl
        rw [write64_other _ _ _ _ (by omega), memset_other _ _ _ _ _ hd]
      · exact List.nodup_cons.mpr ⟨hnot, hnd⟩
      · intro q hq
        rcases List.mem_cons.mp hq with e | e
        · rw [e]; exact hman
        · exact hmg q e
      · intro q hq
        show q ∈ pa :: Lst ↔ upd s.useRef (COWINDEX L pa) 0 (COWINDEX L q) = 0
        by_cases e : q = pa
        · subst e
          rw [upd_same]
          simp
        · have hidx : COWINDEX L q ≠ COWINDEX L pa :=
            fun h => e (COWINDEX_inj L hL q pa hq hman h)
          rw [upd_other _ _ _ _ hidx, List.mem_cons]
          have := hiff q hq
          unfold refcount at this
          tauto
    · rw [kfree_shared L s pa hchk (by omega) hmax]
      refine ⟨?_, Lst, hch, hnd, hmg, ?_⟩
      · intro i
        show 0 ≤ upd s.useRef (COWINDEX L pa) (s.useRef (COWINDEX L pa) - 1) i ∧
          upd s.useRef (COWINDEX L pa) (s.useRef (COWINDEX L pa) - 1) i ≤ 2147483647
        unfold upd
        split
        · unfold refcount at hc hmax; omega
        · exact hnn i
      · intro q hq
        show q ∈ Lst ↔
          upd s.useRef (COWINDEX L pa) (s.useRef (COWINDEX L pa) - 1) (COWINDEX L q) = 0
        by_cases e : q = pa
        · subst e
          rw [upd_same]
          unfold refcount at h1 hc
          constructor
          · intro h; exact absurd h hnot
          · intro h; omega
        · have hidx : COWINDEX L q ≠ COWINDEX L pa :=
            fun h => e (COWINDEX_inj L hL q pa hq hman h)
          rw [upd_other _ _ _ _ hidx]
          exact hiff q hq

/-- A call of `cowinc` of a page whose count `c` is in `[0, 2147483647)`: the count becomes
`c + 1`. -/
theorem cowinc_in_range (L : Layout) (s : Kmem) (pa : Nat) (hc : 0 ≤ refcount L s pa)
    (hmax : refcount L s pa < 2147483647) :
    cowinc L s pa =
      { s with useRef := upd s.useRef (COWINDEX L pa) (s.useRef (COWINDEX L pa) + 1) } := by
  unfold refcount at hc hmax
  show { s with useRef := (upd s.useRef (COWINDEX L pa)
      (wrap_int (s.useRef (COWINDEX L pa) + 1))) } = _
  rw [wrap_int_id _ (by omega) (by omega)]

/-- A call of `cowinc` of a page in use whose count is below the largest `int` preserves the
allocator invariant. -/
theorem cowinc_preserves (L : Layout) (s : Kmem) (pa : Nat)
    (hinv : AllocInv L s) (hc : 1 ≤ refcount L s pa) (hmax : refcount L s pa < 2147483647) :
    AllocInv L (cowinc L s pa) := by
  rw [cowinc_in_range L s pa (by omega) hmax]
  obtain ⟨hnn, Lst, hch, hnd, hmg, hiff⟩ := hinv
  refine ⟨?_, Lst, hch, hnd, hmg, ?_⟩
  · intro i
    show 0 ≤ upd s.useRef (COWINDEX L pa) (s.useRef (COWINDEX L pa) + 1) i ∧
      upd s.useRef (COWINDEX L pa) (s.useRef (COWINDEX L pa) + 1) i ≤ 2147483647
    unfold upd
    split
    · unfold refcount at hc hmax; omega
    · exact hnn i
  · intro q hq
    show q ∈ Lst ↔
      upd s.useRef (COWINDEX L pa) (s.useRef (COWINDEX L pa) + 1) (COWINDEX L q) = 0
    by_cases e : COWINDEX L q = COWINDEX L pa
    · rw [e, upd_same]
      have := hiff q hq
      unfold refcount at this hc
      rw [e] at this
      constructor
      · intro h
        have := this.mp h
        omega
      · intro h; omega
    · rw [upd_other _ _ _ _ e]
      exact hiff q hq

theorem kalloc_empty (L : Layout) (s : Kmem) (h : s.freelist = 0) : kalloc L s = (s, 0) := by
  unfold kalloc
  simp [h]

theorem kalloc_nonempty (L : Layout) (s : Kmem) (h : s.freelist ≠ 0) :
    kalloc L s =
      ({ useRef := (upd s.useRef (COWINDEX L s.freelist)
           (wrap_int (s.useRef (COWINDEX L s.freelist) + 1))),
         freelist := read64 s.mem s.freelist,
         mem := memset s.mem s.freelist 5 PGSIZE }, s.freelist) := by
  unfold kalloc
  simp only [h, ne_eq, not_false_eq_true, if_true]
  rfl

/-- Every call of `kalloc` preserves the allocator invariant, and the page it returns had
count 0. -/
theorem kalloc_preserves (L : Layout) (hL : LayoutOk L) (s : Kmem) (hinv : AllocInv L s) :
    AllocInv L (kalloc L s).1 ∧
    ((kalloc L s).2 ≠ 0 → managed L (kalloc L s).2 ∧ refcount L s (kalloc L s).2 = 0) := by
  by_cases h0 : s.freelist = 0
  · rw [kalloc_empty L s h0]
    exact ⟨hinv, fun h => absurd rfl h⟩
  · rw [kalloc_nonempty L s h0]
    obtain ⟨hnn, Lst, hch, hnd, hmg, hiff⟩ := hinv
    cases Lst with
    | nil => exact absurd hch h0
    | cons p T =>
      obtain ⟨e, _, hT⟩ := hch
      have hman : managed L p := hmg p (List.mem_cons_self _ _)
      have hzero : refcount L s p = 0 := (hiff p hman).mp (List.mem_cons_self _ _)
      have hpT : p ∉ T := (List.nodup_cons.mp hnd).1
      rw [e]
      have hw : wrap_int (s.useRef (COWINDEX L p) + 1) = 1 := by
        unfold refcount at hzero
        rw [hzero]
        rfl
      rw [hw]
      refine ⟨⟨?_, T, ?_, (List.nodup_cons.mp hnd).2,
        fun q hq => hmg q (List.mem_cons_of_mem _ hq), ?_⟩, fun _ => ⟨hman, hzero⟩⟩
      · intro i
        show 0 ≤ upd s.useRef (COWINDEX L p) 1 i ∧ upd s.useRef (COWINDEX L p) 1 i ≤ 2147483647
        unfold upd
        split
        · omega
        · exact hnn i
      · show FreeChain (memset s.mem p 5 PGSIZE) (read64 s.mem p) T
        apply FreeChain_frame s.mem _ T _ _ hT
        intro q hq k hk
        have hqne : q ≠ p := fun e => hpT (e ▸ hq)
        have hd := page_disjoint p q k hman.1 (hmg q (List.mem_cons_of_mem _ hq)).1 hqne hk
        rw [memset_other _ _ _ _ _ hd]
      · intro q hq
        show q ∈ T ↔ upd s.useRef (COWINDEX L p) 1 (COWINDEX L q) = 0
        by_cases e : q = p
        · subst e
          rw [upd_same]
          constructor
          · intro h; exact absurd h hpT
          · intro h; omega
        · have hidx : COWINDEX L q ≠ COWINDEX L p :=
            fun h => e (COWINDEX_inj L hL q p hq hman h)
          rw [upd_other _ _ _ _ hidx]
          have := hiff q hq
          rw [List.mem_cons] at this
          unfold refcount at this
          tauto

theorem cowinit_useRef (L : Layout) (s : Kmem) (i : Nat) :
    (cowinit L s).useRef i = if i < (L.PHYSTOP - L.KERNBASE) / 4096 then 1 else s.useRef i := by
  show (List.range ((L.PHYSTOP - L.KERNBASE) / 4096)).foldl (fun u i => upd u i 1) s.useRef i = _
  split
  · rename_i h
    exact foldl_upd_at (fun i => i) (fun _ => (1 : Int)) s.useRef (fun i j h => h) _ i h
  · rename_i h
    exact foldl_upd_other (fun i => i) (fun _ => (1 : Int)) s.useRef i _
      (fun j hj e => h (by rw [← show j = i from e]; exact hj))

/-- After `cowinit` every managed page has count 1. -/
theorem cowinit_refcount (L : Layout) (hL : LayoutOk L) (s : Kmem) (p : Nat)
    (hp : managed L p) : refcount L (cowinit L s) p = 1 := by
  unfold refcount
  rw [cowinit_useRef, if_pos]
  obtain ⟨p1, p2, p3⟩ := hp
  obtain ⟨l1, l2, l3, l4⟩ := hL
  unfold COWINDEX
  unfold PGROUNDUP PGSIZE at *
  omega

theorem cowinit_inv (L : Layout) (hL : LayoutOk L) (m0 : Nat → Nat) :
    AllocInv L (cowinit L (boot m0)) := by
  refine ⟨?_, [], rfl, List.nodup_nil, fun p hp => absurd hp (List.not_mem_nil p), ?_⟩
  · intro i
    rw [cowinit_useRef]
    split
    · omega
    · show (0 : Int) ≤ 0 ∧ (0 : Int) ≤ 2147483647
      omega
  · intro p hp
    rw [cowinit_refcount L hL _ p hp]
    simp

/-- The first `k` iterations of the loop of `freerange` in `kinit` return, keep the allocator
invariant and leave the pages not yet released with count 1. -/
theorem freerange_upto (L : Layout) (hL : LayoutOk L) (s0 : Kmem) (hinv : AllocInv L s0)
    (hone : ∀ p, managed L p → refcount L s0 p = 1) :
    ∀ k, k ≤ (L.PHYSTOP - PGROUNDUP L.kend) / PGSIZE →
      ∃ s, (List.range k).foldl
          (fun r i =>
            match r with
            | .ok s => kfree L s (PGROUNDUP L.kend + i * PGSIZE)
            | .panic p s => .panic p s)
          (Res.ok s0) = Res.ok s ∧
        AllocInv L s ∧
        ∀ j, k ≤ j → j < (L.PHYSTOP - PGROUNDUP L.kend) / PGSIZE →
          refcount L s (PGROUNDUP L.kend + j * PGSIZE) = 1 := by
  have hman : ∀ j, j < (L.PHYSTOP - PGROUNDUP L.kend) / PGSIZE →
      managed L (PGROUNDUP L.kend + j * PGSIZE) := by
    intro j hj
    unfold managed
    unfold PGROUNDUP PGSIZE at *
    omega
  intro k
  induction k with
  | zero =>
    intro _
    exact ⟨s0, rfl, hinv, fun j _ hj => hone _ (hman j hj)⟩
  | succ k ih =>
    intro hk
    obtain ⟨s, hs, hsinv, hsone⟩ := ih (by omega)
    rw [List.range_succ, List.foldl_append, hs]
    simp only [List.foldl_cons, List.foldl_nil]
    have hmk := hman k (by omega)
    have hchk : ¬ ((PGROUNDUP L.kend + k * PGSIZE) % PGSIZE ≠ 0 ∨
        PGROUNDUP L.kend + k * PGSIZE < L.kend ∨ PGROUNDUP L.kend + k * PGSIZE ≥ L.PHYSTOP) := by
      obtain ⟨m1, m2, m3⟩ := hmk
      unfold PGROUNDUP PGSIZE at *
      omega
    have hck := hsone k (le_refl k) (by omega)
    have hpres := kfree_preserves L hL s (PGROUNDUP L.kend + k * PGSIZE) hsinv
      (le_of_eq hck.symm)
    rw [kfree_last L s _ hchk hck] at hpres ⊢
    refine ⟨_, rfl, hpres, ?_⟩
    intro j hj1 hj2
    have hmj := hman j hj2
    have hne : COWINDEX L (PGROUNDUP L.kend + j * PGSIZE)
        ≠ COWINDEX L (PGROUNDUP L.kend + k * PGSIZE) := by
      intro e
      have := COWINDEX_inj L hL _ _ hmj hmk e
      unfold PGSIZE at this
      omega
    show upd s.useRef _ _ (COWINDEX L (PGROUNDUP L.kend + j * PGSIZE)) = 1
    rw [upd_other _ _ _ _ hne]
    exact hsone j (by omega) hj2

/-- The call of `kinit` returns and establishes the allocator invariant. -/
theorem kinit_inv (L : Layout) (hL : LayoutOk L) (m0 : Nat → Nat) :
    ∃ s, kinit L (boot m0) = Res.ok s ∧ AllocInv L s := by
  obtain ⟨s, hs, hinv, _⟩ := freerange_upto L hL (cowinit L (boot m0)) (cowinit_inv L hL m0)
    (fun p hp => cowinit_refcount L hL _ p hp) _ (le_refl _)
  exact ⟨s, hs, hinv⟩

/-- Under the allocator invariant, a managed page is on the free list exactly when its count
is 0. -/
theorem onFreeList_iff (L : Layout) (s : Kmem) (hinv : AllocInv L s) (p : Nat)
    (hp : managed L p) : OnFreeList s p ↔ refcount L s p = 0 := by
  obtain ⟨_, Lst, hch, _, _, hiff⟩ := hinv
  constructor
  · rintro ⟨L2, h2, hm⟩
    rw [FreeChain_unique s.mem L2 s.freelist Lst h2 hch] at hm
    exact (hiff p hp).mp hm
  · intro h
    exact ⟨Lst, hch, (hiff p hp).mpr h⟩

/-- Every sequence of calls that releases and shares only pages in use keeps the allocator
invariant. -/
theorem runOps_inv (L : Layout) (hL : LayoutOk L) (ops : List AllocOp) :
    ∀ s, AllocInv L s → InUseOnly L s ops → AllocInv L (runOps L s ops).state := by
  induction ops with
  | nil => intro s h _; exact h
  | cons op ops ih =>
    intro s hinv hu
    obtain ⟨h1, h2⟩ := hu
    have hstep : AllocInv L (runOp L s op).state := by
      cases op with
      | kalloc => exact (kalloc_preserves L hL s hinv).1
      | kfree pa => exact kfree_preserves L hL s pa hinv h1
      | cowinc pa => exact cowinc_preserves L s pa hinv h1.1 h1.2
    unfold runOps
    cases hr : runOp L s op with
    | ok t =>
      rw [hr] at hstep h2
      exact ih t hstep h2
    | panic p t =>
      rw [hr] at hstep
      exact hstep

theorem inUseOnly_take (L : Layout) (ops : List AllocOp) :
    ∀ (s : Kmem) (k : Nat), InUseOnly L s ops → InUseOnly L s (ops.take k) := by
  induction ops with
  | nil => intro s k _; rw [List.take_nil]; trivial
  | cons op ops ih =>
    intro s k hu
    cases k with
    | zero => trivial
    | succ k =>
      obtain ⟨h1, h2⟩ := hu
      refine ⟨h1, ?_⟩
      cases hr : runOp L s op with
      | ok t =>
        rw [hr] at h2
        exact ih t k h2
      | panic p t => trivial

theorem kinit_state_inv (L : Layout) (hL : LayoutOk L) (m0 : Nat → Nat) :
    AllocInv L (kinit L (boot m0)).state := by
  obtain ⟨s, hs, hinv⟩ := kinit_inv L hL m0
  rw [hs]
  exact hinv

/-- C4 (as stated, refuted): on `tinyLayout`, from the state produced by `kinit`, the single
call `kfree(12288)` of the free page 12288 leaves its count at -1; and the single call
`cowinc(12288)` leaves page 12288 on the free list (the chain 12288, 8192) with count 1. -/
theorem C4_counterexample_release_or_share_of_free_page :
    (runOps tinyLayout (kinit tinyLayout (boot (fun _ => 0))).state
      [AllocOp.kfree 12288]).panicOf = none ∧
    refcount tinyLayout (runOps tinyLayout (kinit tinyLayout (boot (fun _ => 0))).state
      [AllocOp.kfree 12288]).state 12288 = -1 ∧
    refcount tinyLayout (runOps tinyLayout (kinit tinyLayout (boot (fun _ => 0))).state
      [AllocOp.cowinc 12288]).state 12288 = 1 ∧
    FreeChain (runOps tinyLayout (kinit tinyLayout (boot (fun _ => 0))).state
      [AllocOp.cowinc 12288]).state.mem
      (runOps tinyLayout (kinit tinyLayout (boot (fun _ => 0))).state
      [AllocOp.cowinc 12288]).state.freelist [12288, 8192] := by
  decide

/-- C4 (amended): for all sequences of `kalloc`, `kfree` and `cowinc` calls applied to the
state produced by `kinit` in which every `kfree` is applied to a page whose count is at least 1
and every `cowinc` to a page whose count is at least 1 and below 2147483647 (the largest
`int`), after every call (after the first `k` calls, for every `k`) no reference count is
negative and a page of `[PGROUNDUP(end), PHYSTOP)` is on the free list if and only if its count
is 0. -/
theorem C4_counts_and_free_list (L : Layout) (hL : LayoutOk L) (m0 : Nat → Nat)
    (ops : List AllocOp) (hu : InUseOnly L (kinit L (boot m0)).state ops) (k : Nat) :
    (∀ i, 0 ≤ (runOps L (kinit L (boot m0)).state (ops.take k)).state.useRef i) ∧
    (∀ p, managed L p →
      (OnFreeList (runOps L (kinit L (boot m0)).state (ops.take k)).state p ↔
        refcount L (runOps L (kinit L (boot m0)).state (ops.take k)).state p = 0)) := by
  have hinv := runOps_inv L hL (ops.take k) _ (kinit_state_inv L hL m0)
    (inUseOnly_take L ops _ k hu)
  exact ⟨fun i => (hinv.1 i).1, fun p hp => onFreeList_iff L _ hinv p hp⟩

/-- C4 (amended), instance: on `tinyLayout`, after `kalloc`, `cowinc(12288)`, `kfree(12288)`,
`kfree(12288)` the count of page 12288 is not negative. -/
theorem C4_counts_and_free_list_witness :
    0 ≤ (runOps tinyLayout (kinit tinyLayout (boot (fun _ => 0))).state
      ([AllocOp.kalloc, AllocOp.cowinc 12288, AllocOp.kfree 12288,
        AllocOp.kfree 12288].take 4)).state.useRef 2 :=
  (C4_counts_and_free_list tinyLayout (by decide) (fun _ => 0)
    [AllocOp.kalloc, AllocOp.cowinc 12288, AllocOp.kfree 12288, AllocOp.kfree 12288]
    (by decide) 4).1 2

theorem upd_upd {α : Type} (u : Nat → α) (i : Nat) (a b : α) :
    upd (upd u i a) i b = upd u i b := by
  funext j
  unfold upd
  split <;> rfl

theorem upd_self {α : Type} (u : Nat → α) (i : Nat) : upd u i (u i) = u := by
  funext j
  unfold upd
  split
  · rename_i h
    rw [h]
  · rfl

/-- A run of `n` calls of `cowinc(pa)` on a page whose count `c` satisfies `0 ≤ c` and
`c + n ≤ 2147483647` returns and leaves the count at `c + n`. -/
theorem runOps_cowinc_replicate (L : Layout) (pa : Nat) :
    ∀ (n : Nat) (s : Kmem), 0 ≤ refcount L s pa → refcount L s pa + n ≤ 2147483647 →
      runOps L s (List.replicate n (AllocOp.cowinc pa)) =
        Res.ok { s with
          useRef := upd s.useRef (COWINDEX L pa) (s.useRef (COWINDEX L pa) + n) } := by
  intro n
  induction n with
  | zero =>
    intro s _ _
    show Res.ok s = _
    have : upd s.useRef (COWINDEX L pa) (s.useRef (COWINDEX L pa) + ((0 : Nat) : Int))
        = s.useRef := by
      rw [Int.natCast_zero, Int.add_zero]
      exact upd_self _ _
    rw [this]
  | succ n ih =>
    intro s h0 hmax
    show runOps L (cowinc L s pa) (List.replicate n (AllocOp.cowinc pa)) = _
    rw [cowinc_in_range L s pa h0 (by omega)]
    have hr : refcount L { s with
        useRef := upd s.useRef (COWINDEX L pa) (s.useRef (COWINDEX L pa) + 1) } pa
        = refcount L s pa + 1 := upd_same _ _ _
    rw [ih _ (by rw [hr]; omega) (by rw [hr]; omega)]
    simp only [upd_upd, upd_same]
    have : s.useRef (COWINDEX L pa) + 1 + (n : Int)
        = s.useRef (COWINDEX L pa) + ((n + 1 : Nat) : Int) := by
      push_cast
      ring
    rw [this]

/-- A run of `n` calls of `cowinc(pa)` on a page whose count `c` satisfies `1 ≤ c` and
`c + n ≤ 2147483647` shares only a page in use, with a count below 2147483647. -/
theorem inUseOnly_cowinc_replicate (L : Layout) (pa : Nat) :
    ∀ (n : Nat) (s : Kmem), 1 ≤ refcount L s pa → refcount L s pa + n ≤ 2147483647 →
      InUseOnly L s (List.replicate n (AllocOp.cowinc pa)) := by
  intro n
  induction n with
  | zero => intro s _ _; trivial
  | succ n ih =>
    intro s h1 hmax
    refine ⟨⟨h1, by omega⟩, ?_⟩
    show InUseOnly L (cowinc L s pa) (List.replicate n (AllocOp.cowinc pa))
    rw [cowinc_in_range L s pa (by omega) (by omega)]
    have hr : refcount L { s with
        useRef := upd s.useRef (COWINDEX L pa) (s.useRef (COWINDEX L pa) + 1) } pa
        = refcount L s pa + 1 := upd_same _ _ _
    exact ih _ (by rw [hr]; omega) (by rw [hr]; omega)

theorem runOps_cons_kalloc (L : Layout) (s : Kmem) (ops : List AllocOp) :
    runOps L s (AllocOp.kalloc :: ops) = runOps L (kalloc L s).1 ops := rfl

theorem inUseOnly_cons_kalloc (L : Layout) (s : Kmem) (ops : List AllocOp)
    (h : InUseOnly L (kalloc L s).1 ops) : InUseOnly L s (AllocOp.kalloc :: ops) :=
  ⟨trivial, h⟩

/-- The state `maxShared` is the one that `kalloc` followed by 2147483646 calls of
`cowinc(12288)` produce from the state left by `kinit`. -/
theorem maxShared_reachable :
    runOps tinyLayout (kinit tinyLayout (boot (fun _ => 0))).state
      (AllocOp.kalloc :: List.replicate 2147483646 (AllocOp.cowinc 12288))
      = Res.ok maxShared := by
  have h1 : (kalloc tinyLayout (kinit tinyLayout (boot (fun _ => 0))).state).1.useRef
      (COWINDEX tinyLayout 12288) = 1 := by decide
  have h2 : refcount tinyLayout
      (kalloc tinyLayout (kinit tinyLayout (boot (fun _ => 0))).state).1 12288 = 1 := h1
  rw [runOps_cons_kalloc,
    runOps_cowinc_replicate tinyLayout 12288 2147483646 _ (by rw [h2]; decide)
      (by rw [h2]; decide), h1]
  have h3 : (1 : Int) + ((2147483646 : Nat) : Int) = 2147483647 := by decide
  rw [h3]
  rfl

/-- The calls that lead to `maxShared` release no page and share only a page in use whose
count is below 2147483647. -/
theorem maxShared_inUseOnly :
    InUseOnly tinyLayout (kinit tinyLayout (boot (fun _ => 0))).state
      (AllocOp.kalloc :: List.replicate 2147483646 (AllocOp.cowinc 12288)) := by
  have h2 : refcount tinyLayout
      (kalloc tinyLayout (kinit tinyLayout (boot (fun _ => 0))).state).1 12288 = 1 := by
    decide
  exact inUseOnly_cons_kalloc _ _ _
    (inUseOnly_cowinc_replicate tinyLayout 12288 2147483646 _ (le_of_eq h2.symm)
      (by rw [h2]; decide))

/-- One more call of `cowinc(12288)` after those that lead to `maxShared`: the sequence of
`kalloc` and 2147483647 calls of `cowinc` of the page in use leaves its count negative. -/
theorem cowinc_overflow_reachable :
    refcount tinyLayout (runOps tinyLayout (kinit tinyLayout (boot (fun _ => 0))).state
      ((AllocOp.kalloc :: List.replicate 2147483646 (AllocOp.cowinc 12288))
        ++ [AllocOp.cowinc 12288])).state 12288 = -2147483648 := by
  have happ : ∀ (ops1 ops2 : List AllocOp) (s t : Kmem),
      runOps tinyLayout s ops1 = Res.ok t →
      runOps tinyLayout s (ops1 ++ ops2) = runOps tinyLayout t ops2 := by
    intro ops1
    induction ops1 with
    | nil =>
      intro ops2 s t h
      have : s = t := by
        have h2 : Res.ok s = Res.ok t := h
        injection h2
      rw [this]
      rfl
    | cons op ops1 ih =>
      intro ops2 s t h
      show (match runOp tinyLayout s op with
        | .ok s => runOps tinyLayout s (ops1 ++ ops2)
        | .panic p s => .panic p s) = _
      have h2 : (match runOp tinyLayout s op with
        | .ok s => runOps tinyLayout s ops1
        | .panic p s => .panic p s) = Res.ok t := h
      cases hr : runOp tinyLayout s op with
      | ok u =>
        rw [hr] at h2
        exact ih ops2 u t h2
      | panic p u =>
        rw [hr] at h2
        cases h2
  rw [happ _ _ _ _ maxShared_reachable]
  decide

/-- C5 (as stated, refuted): on `tinyLayout`, the state `maxShared` is produced from the state
left by `kinit` by `kalloc` and 2147483646 calls of `cowinc` of the page 12288 in use; it
satisfies the allocator invariant and page 12288 has count 2147483647, at least 1. The call
`cowinc(12288)` leaves the count of the page at -2147483648, so that the state it returns does
not satisfy the invariant (a count is negative). -/
theorem C5_counterexample_share_at_largest_count :
    runOps tinyLayout (kinit tinyLayout (boot (fun _ => 0))).state
      (AllocOp.kalloc :: List.replicate 2147483646 (AllocOp.cowinc 12288))
      = Res.ok maxShared ∧
    AllocInv tinyLayout maxShared ∧
    1 ≤ refcount tinyLayout maxShared 12288 ∧
    refcount tinyLayout (cowinc tinyLayout maxShared 12288) 12288 = -2147483648 ∧
    ¬ AllocInv tinyLayout (cowinc tinyLayout maxShared 12288) := by
  refine ⟨maxShared_reachable, ?_, by decide, by decide, ?_⟩
  · have h := runOps_inv tinyLayout (by decide) _ _
      (kinit_state_inv tinyLayout (by decide) (fun _ => 0)) maxShared_inUseOnly
    rw [maxShared_reachable] at h
    exact h
  · intro h
    have h2 := (h.1 (COWINDEX tinyLayout 12288)).1
    have h3 : (cowinc tinyLayout maxShared 12288).useRef (COWINDEX tinyLayout 12288)
        = -2147483648 := by decide
    rw [h3] at h2
    exact absurd h2 (by decide)

/-- C5 (amended): `kinit` returns a state that satisfies the allocator invariant (every count
is at least 0 and at most 2147483647, a page of `[PGROUNDUP(end), PHYSTOP)` is on the free list
if and only if its count is 0, no page is on the free list twice); `kalloc`, `kfree` of a page
whose count is at least 1 and `cowinc` of a page whose count is at least 1 and below 2147483647
preserve it; and along every sequence of such calls from the state produced by `kinit`, a page
returned by `kalloc` had count 0 immediately before the call. -/
theorem C5_allocator_invariant (L : Layout) (hL : LayoutOk L) :
    (∀ m0, ∃ s, kinit L (boot m0) = Res.ok s ∧ AllocInv L s) ∧
    (∀ s, AllocInv L s → AllocInv L (kalloc L s).1) ∧
    (∀ s pa, AllocInv L s → 1 ≤ refcount L s pa → AllocInv L (kfree L s pa).state) ∧
    (∀ s pa, AllocInv L s → 1 ≤ refcount L s pa → refcount L s pa < 2147483647 →
      AllocInv L (cowinc L s pa)) ∧
    (∀ m0 ops, InUseOnly L (kinit L (boot m0)).state ops →
      (kalloc L (runOps L (kinit L (boot m0)).state ops).state).2 ≠ 0 →
      refcount L (runOps L (kinit L (boot m0)).state ops).state
        (kalloc L (runOps L (kinit L (boot m0)).state ops).state).2 = 0) := by
  refine ⟨kinit_inv L hL, fun s h => (kalloc_preserves L hL s h).1,
    fun s pa h hc => kfree_preserves L hL s pa h hc,
    fun s pa h hc hmax => cowinc_preserves L s pa h hc hmax, ?_⟩
  intro m0 ops hu hne
  have hinv := runOps_inv L hL ops _ (kinit_state_inv L hL m0) hu
  exact ((kalloc_preserves L hL _ hinv).2 hne).2

/-- C5 (amended), instance: on `tinyLayout`, `kinit` returns a state that satisfies the
invariant, and after `kalloc` and `cowinc(12288)` the next `kalloc` returns page 8192, whose
count was 0. -/
theorem C5_allocator_invariant_witness :
    (∃ s, kinit tinyLayout (boot (fun _ => 0)) = Res.ok s ∧ AllocInv tinyLayout s) ∧
    refcount tinyLayout (runOps tinyLayout (kinit tinyLayout (boot (fun _ => 0))).state
        [AllocOp.kalloc, AllocOp.cowinc 12288]).state
      (kalloc tinyLayout (runOps tinyLayout (kinit tinyLayout (boot (fun _ => 0))).state
        [AllocOp.kalloc, AllocOp.cowinc 12288]).state).2 = 0 :=
  ⟨(C5_allocator_invariant tinyLayout (by decide)).1 (fun _ => 0),
   (C5_allocator_invariant tinyLayout (by decide)).2.2.2.2 (fun _ => 0)
     [AllocOp.kalloc, AllocOp.cowinc 12288] (by decide) (by decide)⟩

/-! ## `kfree` and `kalloc` -/

/-- On `tinyLayout`, after `kinit` and one `kalloc` (which returns page 12288, count 1),
`kfree(12288)` brings the count to 0, scrubs the page and then pushes it: the first 8 bytes of
the page hold the link to the former head 8192 of the free list (the list is threaded through
the free pages, `struct run`). -/
theorem kfree_link_in_first_bytes :
    (kalloc tinyLayout (kinit tinyLayout (boot (fun _ => 0))).state).2 = 12288 ∧
    refcount tinyLayout (kalloc tinyLayout (kinit tinyLayout (boot (fun _ => 0))).state).1
      12288 = 1 ∧
    (kfree tinyLayout (kalloc tinyLayout (kinit tinyLayout (boot (fun _ => 0))).state).1
      12288).panicOf = none ∧
    (kfree tinyLayout (kalloc tinyLayout (kinit tinyLayout (boot (fun _ => 0))).state).1
      12288).state.mem 12288 = 0 ∧
    read64 (kfree tinyLayout (kalloc tinyLayout (kinit tinyLayout (boot (fun _ => 0))).state).1
      12288).state.mem 12288 = 8192 := by
  decide

/-- C9: for every page-aligned page `p` in `[end, PHYSTOP)` with reference count `c ≥ 1` (an
`int`, so `c ≤ 2147483647`), `kfree(p)` returns, leaves the count of `p` at `c - 1` and changes
no other count. If `c = 1`, the content of the page is overwritten with the scrub value: there
is a memory `m` in which all 4096 bytes of `p` hold 1 and every byte outside `p` is as before
the call; and `p` is then pushed: the final memory is `m` with the pointer to the former head of
the free list stored in the first 8 bytes of `p` (so the bytes of `p` from offset 8 on still
hold 1 and no byte outside `p` is changed), `p` is the head of the free list, and the former
list (a chain of other page-aligned pages) is its tail. If `c > 1`, the memory (the content of
`p` and of every other page) and the free list are unchanged. -/
theorem C9_kfree_effect (L : Layout) (s : Kmem) (p : Nat)
    (halign : p % PGSIZE = 0) (hlo : L.kend ≤ p) (hhi : p < L.PHYSTOP)
    (hc : 1 ≤ refcount L s p) (hmax : refcount L s p ≤ 2147483647) :
    ∃ s', kfree L s p = Res.ok s' ∧
      refcount L s' p = refcount L s p - 1 ∧
      (∀ i, i ≠ COWINDEX L p → s'.useRef i = s.useRef i) ∧
      (refcount L s p = 1 →
        (∃ m : Nat → Nat, (∀ k, k < PGSIZE → m (p + k) = 1) ∧
          (∀ a, a < p ∨ p + PGSIZE ≤ a → m a = s.mem a) ∧
          s'.mem = write64 m p s.freelist) ∧
        s'.freelist = p ∧
        (∀ k, 8 ≤ k → k < PGSIZE → s'.mem (p + k) = 1) ∧
        (s.freelist < 18446744073709551616 → read64 s'.mem p = s.freelist) ∧
        (∀ a, a < p ∨ p + PGSIZE ≤ a → s'.mem a = s.mem a) ∧
        (∀ Lst, FreeChain s.mem s.freelist Lst → p ≠ 0 →
          (∀ q ∈ Lst, q % PGSIZE = 0 ∧ q ≠ p ∧ q < 18446744073709551616) →
          FreeChain s'.mem s'.freelist (p :: Lst))) ∧
      (1 < refcount L s p → s'.mem = s.mem ∧ s'.freelist = s.freelist) := by
  have hchk : ¬ (p % PGSIZE ≠ 0 ∨ p < L.kend ∨ p ≥ L.PHYSTOP) := by omega
  have hP : PGSIZE = 4096 := rfl
  by_cases h1 : refcount L s p = 1
  · refine ⟨_, kfree_last L s p hchk h1, ?_, ?_, ?_, ?_⟩
    · show upd s.useRef (COWINDEX L p) 0 (COWINDEX L p) = _
      rw [upd_same, h1]
      rfl
    · intro i hi
      exact upd_other _ _ _ _ hi
    · intro _
      refine ⟨⟨memset s.mem p 1 PGSIZE, ?_, ?_, rfl⟩, rfl, ?_, ?_, ?_, ?_⟩
      · intro k hk
        rw [memset_at _ _ _ _ _ (by omega) (by omega)]
      · intro a ha
        rw [memset_other _ _ _ _ _ ha]
      · intro k hk1 hk2
        show write64 (memset s.mem p 1 PGSIZE) p s.freelist (p + k) = 1
        rw [write64_other _ _ _ _ (by omega), memset_at _ _ _ _ _ (by omega) (by omega)]
      · intro hf
        exact read64_write64 _ _ _ hf
      · intro a ha
        show write64 (memset s.mem p 1 PGSIZE) p s.freelist a = s.mem a
        rw [write64_other _ _ _ _ (by omega), memset_other _ _ _ _ _ ha]
      · intro Lst hch hp0 hL
        have hf : s.freelist < 18446744073709551616 := by
          cases Lst with
          | nil =>
            have : s.freelist = 0 := hch
            omega
          | cons q T =>
            obtain ⟨e, _, _⟩ := hch
            have := (hL q (List.mem_cons_self _ _)).2.2
            omega
        refine ⟨rfl, hp0, ?_⟩
        show FreeChain (write64 (memset s.mem p 1 PGSIZE) p s.freelist)
          (read64 (write64 (memset s.mem p 1 PGSIZE) p s.freelist) p) Lst
        rw [read64_write64 _ _ _ hf]
        apply FreeChain_frame s.mem _ Lst s.freelist _ hch
        intro q hq k hk
        obtain ⟨q1, q2, _⟩ := hL q hq
        have hd := page_disjoint p q k halign q1 q2 hk
        rw [write64_other _ _ _ _ (by omega), memset_other _ _ _ _ _ hd]
    · intro h
      omega
  · refine ⟨_, kfree_shared L s p hchk (by omega) hmax, ?_, ?_, ?_, ?_⟩
    · show upd s.useRef (COWINDEX L p) (s.useRef (COWINDEX L p) - 1) (COWINDEX L p) = _
      rw [upd_same]
      rfl
    · intro i hi
      exact upd_other _ _ _ _ hi
    · intro h
      exact absurd h h1
    · intro _
      exact ⟨rfl, rfl⟩

/-- C9, instance: on `tinyLayout`, after `kinit` and one `kalloc` page 12288 has count 1, and
`kfree(12288)` returns with the count of the page lowered by one and the page at the head of
the free list. -/
theorem C9_kfree_effect_witness :
    ∃ s', kfree tinyLayout (kalloc tinyLayout (kinit tinyLayout (boot (fun _ => 0))).state).1
        12288 = Res.ok s' ∧
      refcount tinyLayout s' 12288 =
        refcount tinyLayout (kalloc tinyLayout (kinit tinyLayout (boot (fun _ => 0))).state).1
          12288 - 1 ∧
      s'.freelist = 12288 := by
  obtain ⟨s', h, h2, _, h4, _⟩ := C9_kfree_effect tinyLayout
    (kalloc tinyLayout (kinit tinyLayout (boot (fun _ => 0))).state).1 12288
    (by decide) (by decide) (by decide) (by decide) (by decide)
  exact ⟨s', h, h2, (h4 (by decide)).2.1⟩

/-- C10: in every allocator state whose free list is a non-empty chain `p :: T` of distinct
page-aligned pages of count 0, `kalloc` returns the head `p`, leaves the chain `T` as the free
list, leaves the count of `p` at 1 and every other count unchanged, and leaves the value 5 in
all 4096 bytes of the page; and for every page `q` of count 1, whatever its content, `kfree(q)`
followed by `kalloc` returns `q` with the value 5 in all its bytes, which differs in every byte
from offset 8 on from the scrub value that `kfree` left there. -/
theorem C10_kalloc_effect (L : Layout) (s : Kmem) (p : Nat) (T : List Nat)
    (hch : FreeChain s.mem s.freelist (p :: T))
    (hal : ∀ q ∈ p :: T, q % PGSIZE = 0) (hnd : (p :: T).Nodup)
    (hc : ∀ q ∈ p :: T, refcount L s q = 0) :
    (kalloc L s).2 = p ∧
    FreeChain (kalloc L s).1.mem (kalloc L s).1.freelist T ∧
    refcount L (kalloc L s).1 p = 1 ∧
    (∀ i, i ≠ COWINDEX L p → (kalloc L s).1.useRef i = s.useRef i) ∧
    (∀ k, k < PGSIZE → (kalloc L s).1.mem (p + k) = 5) ∧
    (∀ (s0 : Kmem) (q : Nat), q % PGSIZE = 0 → L.kend ≤ q → q < L.PHYSTOP → q ≠ 0 →
      refcount L s0 q = 1 →
      (kalloc L (kfree L s0 q).state).2 = q ∧
      (∀ k, k < PGSIZE → (kalloc L (kfree L s0 q).state).1.mem (q + k) = 5) ∧
      (∀ k, 8 ≤ k → k < PGSIZE → (kfree L s0 q).state.mem (q + k) = 1)) := by
  obtain ⟨e, hp0, hT⟩ := hch
  have hf : s.freelist ≠ 0 := by rw [e]; exact hp0
  have hP : PGSIZE = 4096 := rfl
  rw [kalloc_nonempty L s hf, e]
  refine ⟨rfl, ?_, ?_, ?_, ?_, ?_⟩
  · show FreeChain (memset s.mem p 5 PGSIZE) (read64 s.mem p) T
    apply FreeChain_frame s.mem _ T _ _ hT
    intro q hq k hk
    have hqne : q ≠ p := fun e => (List.nodup_cons.mp hnd).1 (e ▸ hq)
    have hd := page_disjoint p q k (hal p (List.mem_cons_self _ _))
      (hal q (List.mem_cons_of_mem _ hq)) hqne hk
    rw [memset_other _ _ _ _ _ hd]
  · show upd s.useRef (COWINDEX L p) (wrap_int (s.useRef (COWINDEX L p) + 1))
      (COWINDEX L p) = 1
    rw [upd_same]
    have := hc p (List.mem_cons_self _ _)
    unfold refcount at this
    rw [this]
    rfl
  · intro i hi
    exact upd_other _ _ _ _ hi
  · intro k hk
    show memset s.mem p 5 PGSIZE (p + k) = 5
    rw [memset_at _ _ _ _ _ (by omega) (by omega)]
  · intro s0 q hq1 hq2 hq3 hq0 hq
    have hchk : ¬ (q % PGSIZE ≠ 0 ∨ q < L.kend ∨ q ≥ L.PHYSTOP) := by omega
    rw [kfree_last L s0 q hchk hq]
    refine ⟨?_, ?_, ?_⟩
    · rw [kalloc_nonempty L _ hq0]
      rfl
    · intro k hk
      rw [kalloc_nonempty L _ hq0]
      show memset _ q 5 PGSIZE (q + k) = 5
      rw [memset_at _ _ _ _ _ (by omega) (by omega)]
    · intro k hk1 hk2
      show write64 (memset s0.mem q 1 PGSIZE) q s0.freelist (q + k) = 1
      rw [write64_other _ _ _ _ (by omega), memset_at _ _ _ _ _ (by omega) (by omega)]

/-- C10, instance: on `tinyLayout`, after `kinit` the free list is the chain 12288, 8192 and
`kalloc` returns page 12288. -/
theorem C10_kalloc_effect_witness :
    (kalloc tinyLayout (kinit tinyLayout (boot (fun _ => 0))).state).2 = 12288 :=
  (C10_kalloc_effect tinyLayout (kinit tinyLayout (boot (fun _ => 0))).state 12288 [8192]
    (by decide) (by decide) (by decide) (by decide)).1

/-! ## Executions of the log -/

theorem reserve_le (P : Param) (A : List (Nat × List Nat)) :
    reserve P A ≤ (A.length : Int) * P.MAXOPBLOCKS := by
  induction A with
  | nil => simp [reserve]
  | cons e A ih =>
    obtain ⟨o, W⟩ := e
    have h : ((((o, W) :: A).length : Nat) : Int) * P.MAXOPBLOCKS
        = (A.length : Int) * P.MAXOPBLOCKS + P.MAXOPBLOCKS := by
      rw [List.length_cons]
      push_cast
      ring
    rw [h]
    unfold reserve
    omega

theorem reserve_nonneg (P : Param) (A : List (Nat × List Nat))
    (h : ∀ e ∈ A, (e.2.length : Int) ≤ P.MAXOPBLOCKS) : 0 ≤ reserve P A := by
  induction A with
  | nil => simp [reserve]
  | cons e A ih =>
    obtain ⟨o, W⟩ := e
    have h1 := h (o, W) (List.mem_cons_self _ _)
    have h2 := ih (fun e he => h e (List.mem_cons_of_mem _ he))
    unfold reserve
    simp only at h1
    omega

theorem mem_of_written (A : List (Nat × List Nat)) (o : Nat) (W : List Nat) :
    written A o = some W → (o, W) ∈ A := by
  induction A with
  | nil => intro h; cases h
  | cons e A ih =>
    obtain ⟨o', W'⟩ := e
    intro h
    unfold written at h
    by_cases e : o' = o
    · rw [if_pos e] at h
      cases h
      rw [e]
      exact List.mem_cons_self _ _
    · rw [if_neg e] at h
      exact List.mem_cons_of_mem _ (ih h)

theorem noteWrite_length (o b : Nat) (A : List (Nat × List Nat)) :
    (noteWrite o b A).length = A.length := by
  induction A with
  | nil => rfl
  | cons e A ih =>
    obtain ⟨o', W'⟩ := e
    unfold noteWrite
    split
    · rfl
    · rw [List.length_cons, List.length_cons, ih]

theorem noteWrite_reserve (P : Param) (o b : Nat) (A : List (Nat × List Nat)) (W : List Nat)
    (h : written A o = some W) :
    reserve P (noteWrite o b A) = reserve P A - (if b ∈ W then 0 else 1) := by
  induction A with
  | nil => cases h
  | cons e A ih =>
    obtain ⟨o', W'⟩ := e
    unfold written at h
    unfold noteWrite
    by_cases e : o' = o
    · rw [if_pos e] at h
      cases h
      rw [if_pos e]
      unfold reserve
      by_cases hb : b ∈ W
      · rw [if_pos hb, if_pos hb]
        omega
      · rw [if_neg hb, if_neg hb, List.length_cons]
        push_cast
        omega
    · rw [if_neg e] at h
      rw [if_neg e]
      unfold reserve
      rw [ih h]
      omega

theorem noteWrite_mem (o b : Nat) (A : List (Nat × List Nat)) (e : Nat × List Nat)
    (he : e ∈ noteWrite o b A) :
    e ∈ A ∨ (∃ W, written A o = some W ∧ b ∉ W ∧ e = (o, b :: W)) := by
  induction A with
  | nil => exact Or.inl he
  | cons a A ih =>
    obtain ⟨o', W'⟩ := a
    unfold noteWrite at he
    by_cases h : o' = o
    · rw [if_pos h] at he
      rcases List.mem_cons.mp he with h1 | h1
      · by_cases hb : b ∈ W'
        · rw [if_pos hb] at h1
          exact Or.inl (h1 ▸ List.mem_cons_self _ _)
        · rw [if_neg hb] at h1
          refine Or.inr ⟨W', ?_, hb, ?_⟩
          · unfold written
            rw [if_pos h]
          · rw [h1, h]
      · exact Or.inl (List.mem_cons_of_mem _ h1)
    · rw [if_neg h] at he
      rcases List.mem_cons.mp he with h1 | h1
      · exact Or.inl (h1 ▸ List.mem_cons_self _ _)
      · rcases ih h1 with h2 | ⟨W, hw, hb, h2⟩
        · exact Or.inl (List.mem_cons_of_mem _ h2)
        · refine Or.inr ⟨W, ?_, hb, h2⟩
          unfold written
          rw [if_neg h]
          exact hw

theorem eraseOp_length (o : Nat) (A : List (Nat × List Nat)) (h : written A o ≠ none) :
    ((eraseOp o A).length : Int) = (A.length : Int) - 1 := by
  induction A with
  | nil => exact absurd rfl h
  | cons e A ih =>
    obtain ⟨o', W'⟩ := e
    unfold written at h
    unfold eraseOp
    by_cases e : o' = o
    · rw [if_pos e, List.length_cons]
      push_cast
      omega
    · rw [if_neg e] at h
      rw [if_neg e, List.length_cons, List.length_cons]
      push_cast
      rw [ih h]
      omega

theorem eraseOp_mem (o : Nat) (A : List (Nat × List Nat)) (e : Nat × List Nat)
    (he : e ∈ eraseOp o A) : e ∈ A := by
  induction A with
  | nil => exact he
  | cons a A ih =>
    obtain ⟨o', W'⟩ := a
    unfold eraseOp at he
    by_cases h : o' = o
    · rw [if_pos h] at he
      exact List.mem_cons_of_mem _ he
    · rw [if_neg h] at he
      rcases List.mem_cons.mp he with h1 | h1
      · exact h1 ▸ List.mem_cons_self _ _
      · exact List.mem_cons_of_mem _ (ih h1)

theorem eraseOp_reserve (P : Param) (o : Nat) (A : List (Nat × List Nat))
    (h : ∀ e ∈ A, (e.2.length : Int) ≤ P.MAXOPBLOCKS) :
    reserve P (eraseOp o A) ≤ reserve P A := by
  induction A with
  | nil => exact le_refl _
  | cons a A ih =>
    obtain ⟨o', W'⟩ := a
    have h1 := h (o', W') (List.mem_cons_self _ _)
    simp only at h1
    unfold eraseOp
    by_cases e : o' = o
    · rw [if_pos e]
      conv_rhs => unfold reserve
      omega
    · rw [if_neg e]
      unfold reserve
      have := ih (fun e he => h e (List.mem_cons_of_mem _ he))
      omega

/-- What `commit` does to the `struct log`: it resets the logged count. -/
theorem commit_log (s : FS) (hn : 0 ≤ s.log.lh.n) :
    (commit s).log.lh.n = 0 ∧ (commit s).log.outstanding = s.log.outstanding ∧
    (commit s).log.committing = s.log.committing ∧ (commit s).log.start = s.log.start ∧
    (commit s).log.size = s.log.size := by
  unfold commit
  split
  · exact ⟨rfl, rfl, rfl, rfl, rfl⟩
  · exact ⟨by omega, rfl, rfl, rfl, rfl⟩

theorem written_of_mayWrite (P : Param) (w : Option (List Nat)) (b : Nat)
    (h : mayWrite P w b) : ∃ W, w = some W ∧ (b ∈ W ∨ (W.length : Int) < P.MAXOPBLOCKS) := by
  cases w with
  | none => exact absurd h (by unfold mayWrite; exact not_false)
  | some W => exact ⟨W, rfl, h⟩

theorem begin_op_iter_sleep (P : Param) (l : Log)
    (h : l.committing ≠ 0 ∨ l.lh.n + (l.outstanding + 1) * P.MAXOPBLOCKS > P.LOGSIZE) :
    begin_op_iter P l = (l, false) := by
  unfold begin_op_iter
  by_cases h1 : l.committing ≠ 0
  · rw [if_pos h1]
  · rw [if_neg h1, if_pos (h.resolve_left h1)]

theorem begin_op_iter_admits (P : Param) (l : Log) (h1 : l.committing = 0)
    (h2 : ¬ l.lh.n + (l.outstanding + 1) * P.MAXOPBLOCKS > P.LOGSIZE) :
    begin_op_iter P l = ({ l with outstanding := l.outstanding + 1 }, true) := by
  unfold begin_op_iter
  rw [if_neg (by simp [h1]), if_neg h2]

theorem step_beginTry (P : Param) (s : Sys) (o : Nat) :
    step P s (Ev.beginTry o) = Res.ok
      { s with fs := { s.fs with log := (begin_op_iter P s.fs.log).1 },
               active := if (begin_op_iter P s.fs.log).2 then (o, []) :: s.active
                         else s.active } := rfl

/-- A pass of `begin_op` keeps the invariant. -/
theorem step_inv_beginTry (P : Param) (hM : 0 ≤ P.MAXOPBLOCKS) (s s' : Sys) (o : Nat)
    (hinv : LogInv P s) (hs : step P s (Ev.beginTry o) = Res.ok s') : LogInv P s' := by
  obtain ⟨ha, hb, hc, hd, he⟩ := hinv
  rw [step_beginTry] at hs
  by_cases h : s.fs.log.committing ≠ 0 ∨
      s.fs.log.lh.n + (s.fs.log.outstanding + 1) * P.MAXOPBLOCKS > P.LOGSIZE
  · rw [begin_op_iter_sleep P _ h] at hs
    cases hs
    exact ⟨ha, hb, hc, hd, he⟩
  · have h1 : s.fs.log.committing = 0 := by
      by_contra hne
      exact h (Or.inl hne)
    have h2 : ¬ s.fs.log.lh.n + (s.fs.log.outstanding + 1) * P.MAXOPBLOCKS > P.LOGSIZE :=
      fun hgt => h (Or.inr hgt)
    rw [begin_op_iter_admits P _ h1 h2] at hs
    cases hs
    have hr := reserve_le P s.active
    have hmul : (s.fs.log.outstanding + 1) * P.MAXOPBLOCKS
        = (s.active.length : Int) * P.MAXOPBLOCKS + P.MAXOPBLOCKS := by
      rw [ha]; ring
    refine ⟨?_, hb, ?_, ?_, ?_⟩
    · show s.fs.log.outstanding + 1 = (((o, ([] : List Nat)) :: s.active).length : Int)
      rw [List.length_cons, ha]
      push_cast
      rfl
    · show s.fs.log.lh.n + reserve P ((o, []) :: s.active) ≤ P.LOGSIZE
      unfold reserve
      rw [List.length_nil]
      push_cast
      omega
    · intro e hmem
      rcases List.mem_cons.mp hmem with h | h
      · rw [h]
        exact ⟨hM, fun b hb => absurd hb (List.not_mem_nil b)⟩
      · exact hd e h
    · rcases he with ⟨h3, h4⟩ | ⟨o', f, _, h4, _⟩
      · exact Or.inl ⟨h3, h4⟩
      · rw [h1] at h4
        exact absurd h4 (by decide)

/-- A `log_write` by an admitted operation keeps the invariant. -/
theorem step_inv_write (P : Param) (s s' : Sys) (o b : Nat) (hinv : LogInv P s)
    (hl : legal P s (Ev.write o b)) (hs : step P s (Ev.write o b) = Res.ok s') :
    LogInv P s' := by
  obtain ⟨ha, hb, hc, hd, he⟩ := hinv
  obtain ⟨hb32, hmay⟩ := hl
  obtain ⟨W, hW, hWb⟩ := written_of_mayWrite P _ b hmay
  have hmemW : (o, W) ∈ s.active := mem_of_written s.active o W hW
  have hstep : step P s (Ev.write o b) =
      match log_write P s.fs b with
      | .panic p fs => .panic p { s with fs := fs }
      | .ok fs => .ok { s with fs := fs, active := noteWrite o b s.active } := rfl
  rw [hstep] at hs
  cases hlw : log_write P s.fs b with
  | panic p fs =>
    rw [hlw] at hs
    cases hs
  | ok fs =>
    rw [hlw] at hs
    cases hs
    obtain ⟨f1, f2, f3, f4, _, _⟩ := log_write_ok_frame P s.fs fs b hlw
    obtain ⟨g1, g2, _, _, _, g6⟩ := log_write_ok_hdr P s.fs fs b hlw hb32 hb
    have hsub : ∀ x, x ∈ hdrList s.fs.log.lh → x ∈ hdrList fs.log.lh := by
      intro x hx
      rw [g1]
      exact (mem_register _ b x).mpr (Or.inl hx)
    have hbin : b ∈ hdrList fs.log.lh := by
      rw [g1]
      exact (mem_register _ b b).mpr (Or.inr rfl)
    refine ⟨?_, g2, ?_, ?_, ?_⟩
    · show fs.log.outstanding = ((noteWrite o b s.active).length : Int)
      rw [noteWrite_length, f3, ha]
    · show fs.log.lh.n + reserve P (noteWrite o b s.active) ≤ P.LOGSIZE
      rw [noteWrite_reserve P o b s.active W hW, g6]
      by_cases hbW : b ∈ W
      · have : b ∈ hdrList s.fs.log.lh := (hd (o, W) hmemW).2 b hbW
        rw [if_pos hbW, if_pos this]
        omega
      · rw [if_neg hbW]
        split <;> omega
    · intro e hmem
      rcases noteWrite_mem o b s.active e hmem with h | ⟨W', hW', hbW', h⟩
      · exact ⟨(hd e h).1, fun x hx => hsub x ((hd e h).2 x hx)⟩
      · have hWW : W' = W := by
          rw [hW] at hW'
          cases hW'
          rfl
        subst hWW
        rw [h]
        refine ⟨?_, ?_⟩
        · show (((b :: W').length : Nat) : Int) ≤ P.MAXOPBLOCKS
          rw [List.length_cons]
          push_cast
          rcases hWb with h1 | h1
          · exact absurd h1 hbW'
          · omega
        · intro x hx
          rcases List.mem_cons.mp hx with h1 | h1
          · rw [h1]; exact hbin
          · exact hsub x ((hd (o, W') hmemW).2 x h1)
    · rcases he with ⟨h3, h4⟩ | ⟨o', f, _, _, h5, _⟩
      · exact Or.inl ⟨h3, by show fs.log.committing = 0; rw [f4]; exact h4⟩
      · rw [h5] at hmemW
        cases hmemW

theorem end_op_enter_ok (l : Log) (r : Log × Bool) (h : end_op_enter l = Res.ok r) :
    l.committing = 0 ∧
    r = (if l.outstanding - 1 = 0
          then ({ l with outstanding := l.outstanding - 1, committing := 1 }, true)
          else ({ l with outstanding := l.outstanding - 1 }, false)) := by
  unfold end_op_enter at h
  dsimp only at h
  by_cases h1 : l.committing ≠ 0
  · rw [if_pos h1] at h
    cases h
  · rw [if_neg h1] at h
    refine ⟨by_contra h1, ?_⟩
    by_cases h2 : l.outstanding - 1 = 0
    · rw [if_pos h2] at h
      cases h
      rw [if_pos h2]
    · rw [if_neg h2] at h
      cases h
      rw [if_neg h2]

/-- The first section of `end_op` of an admitted operation keeps the invariant. -/
theorem step_inv_endEnter (P : Param) (s s' : Sys) (o : Nat) (hinv : LogInv P s)
    (hl : legal P s (Ev.endEnter o)) (hs : step P s (Ev.endEnter o) = Res.ok s') :
    LogInv P s' := by
  obtain ⟨ha, hb, hc, hd, he⟩ := hinv
  have hstep : step P s (Ev.endEnter o) =
      match end_op_enter s.fs.log with
      | .panic p r => .panic p { s with fs := { s.fs with log := r.1 } }
      | .ok r =>
        .ok { fs := { s.fs with log := r.1 },
              active := eraseOp o s.active,
              committers := if r.2 then (o, false) :: s.committers else s.committers } := rfl
  rw [hstep] at hs
  cases hee : end_op_enter s.fs.log with
  | panic p r =>
    rw [hee] at hs
    cases hs
  | ok r =>
    rw [hee] at hs
    cases hs
    obtain ⟨hc0, hr⟩ := end_op_enter_ok s.fs.log r hee
    have hcm : s.committers = [] := by
      rcases he with ⟨h3, _⟩ | ⟨_, _, _, h4, _⟩
      · exact h3
      · rw [hc0] at h4
        exact absurd h4 (by decide)
    have hlen := eraseOp_length o s.active hl
    have hres := eraseOp_reserve P o s.active (fun e he => (hd e he).1)
    by_cases h2 : s.fs.log.outstanding - 1 = 0
    · rw [if_pos h2] at hr
      subst hr
      have hnil : eraseOp o s.active = [] := by
        apply List.length_eq_zero.mp
        omega
      refine ⟨?_, hb, ?_, ?_, ?_⟩
      · show s.fs.log.outstanding - 1 = ((eraseOp o s.active).length : Int)
        omega
      · show s.fs.log.lh.n + reserve P (eraseOp o s.active) ≤ P.LOGSIZE
        omega
      · intro e hmem
        exact hd e (eraseOp_mem o s.active e hmem)
      · refine Or.inr ⟨o, false, ?_, rfl, hnil, fun h => absurd h (by decide)⟩
        show (if true = true then (o, false) :: s.committers else s.committers) = _
        rw [if_pos rfl, hcm]
    · rw [if_neg h2] at hr
      subst hr
      refine ⟨?_, hb, ?_, ?_, ?_⟩
      · show s.fs.log.outstanding - 1 = ((eraseOp o s.active).length : Int)
        omega
      · show s.fs.log.lh.n + reserve P (eraseOp o s.active) ≤ P.LOGSIZE
        omega
      · intro e hmem
        exact hd e (eraseOp_mem o s.active e hmem)
      · refine Or.inl ⟨?_, hc0⟩
        show (if false = true then (o, false) :: s.committers else s.committers) = _
        rw [if_neg (by decide), hcm]

/-- The run of `commit` by the committer keeps the invariant. -/
theorem step_inv_doCommit (P : Param) (s s' : Sys) (o : Nat) (hinv : LogInv P s)
    (hl : legal P s (Ev.doCommit o)) (hs : step P s (Ev.doCommit o) = Res.ok s') :
    LogInv P s' := by
  obtain ⟨ha, hb, hc, hd, he⟩ := hinv
  have hstep : step P s (Ev.doCommit o) = Res.ok
      { s with fs := commit s.fs,
               committers := s.committers.map (fun c => if c.1 = o then (o, true) else c) } :=
    rfl
  rw [hstep] at hs
  cases hs
  obtain ⟨c1, c2, c3, _, _⟩ := commit_log s.fs hb
  rcases he with ⟨h3, _⟩ | ⟨o', f, h3, h4, h5, _⟩
  · have hl' : (o, false) ∈ s.committers := hl
    rw [h3] at hl'
    cases hl'
  · have hl' : (o, false) ∈ s.committers := hl
    rw [h3, List.mem_singleton] at hl'
    cases hl'
    have hres : reserve P s.active = 0 := by rw [h5]; rfl
    refine ⟨by show (commit s.fs).log.outstanding = _; rw [c2]; exact ha,
      by show 0 ≤ (commit s.fs).log.lh.n; omega, ?_, ?_, ?_⟩
    · show (commit s.fs).log.lh.n + reserve P s.active ≤ P.LOGSIZE
      omega
    · intro e hmem
      rw [h5] at hmem
      cases hmem
    · refine Or.inr ⟨o, true, ?_, by show (commit s.fs).log.committing = 1; rw [c3]; exact h4,
        h5, fun _ => c1⟩
      show s.committers.map (fun c => if c.1 = o then (o, true) else c) = _
      rw [h3]
      simp

/-- The second section of `end_op` by the committer keeps the invariant. -/
theorem step_inv_endExit (P : Param) (s s' : Sys) (o : Nat) (hinv : LogInv P s)
    (hl : legal P s (Ev.endExit o)) (hs : step P s (Ev.endExit o) = Res.ok s') :
    LogInv P s' := by
  obtain ⟨ha, hb, hc, hd, he⟩ := hinv
  have hstep : step P s (Ev.endExit o) = Res.ok
      { s with fs := { s.fs with log := end_op_exit s.fs.log },
               committers := s.committers.filter (fun c => decide (c.1 ≠ o)) } := rfl
  rw [hstep] at hs
  cases hs
  rcases he with ⟨h3, _⟩ | ⟨o', f, h3, _, _, _⟩
  · have hl' : (o, true) ∈ s.committers := hl
    rw [h3] at hl'
    cases hl'
  · have hl' : (o, true) ∈ s.committers := hl
    rw [h3, List.mem_singleton] at hl'
    cases hl'
    refine ⟨ha, hb, hc, hd, Or.inl ⟨?_, rfl⟩⟩
    show s.committers.filter (fun c => decide (c.1 ≠ o)) = []
    rw [h3]
    simp

/-- Every step that follows the discipline of callers keeps the invariant. -/
theorem step_inv (P : Param) (hM : 0 ≤ P.MAXOPBLOCKS) (s s' : Sys) (e : Ev)
    (hinv : LogInv P s) (hl : legal P s e) (hs : step P s e = Res.ok s') : LogInv P s' := by
  cases e with
  | beginTry o => exact step_inv_beginTry P hM s s' o hinv hs
  | write o b => exact step_inv_write P s s' o b hinv hl hs
  | endEnter o => exact step_inv_endEnter P s s' o hinv hl hs
  | doCommit o => exact step_inv_doCommit P s s' o hinv hl hs
  | endExit o => exact step_inv_endExit P s s' o hinv hl hs

/-- Every execution that follows the discipline of callers keeps the invariant. -/
theorem run_inv (P : Param) (hM : 0 ≤ P.MAXOPBLOCKS) (tr : List Ev) :
    ∀ s s', LogInv P s → Legal P s tr → run P s tr = Res.ok s' → LogInv P s' := by
  induction tr with
  | nil =>
    intro s s' hinv _ hr
    cases hr
    exact hinv
  | cons e tr ih =>
    intro s s' hinv hL hr
    obtain ⟨h1, h2⟩ := hL
    unfold run at hr
    cases hst : step P s e with
    | ok t =>
      rw [hst] at hr h2
      exact ih t s' (step_inv P hM s t e hinv h1 hst) h2 hr
    | panic p t =>
      rw [hst] at hr
      cases hr

theorem idle_inv (P : Param) (hL : 0 ≤ P.LOGSIZE) (start size : Int) (c : Bio) :
    LogInv P (idle start size c) := by
  refine ⟨rfl, le_refl _, ?_, ?_, Or.inl ⟨rfl, rfl⟩⟩
  · show (0 : Int) + 0 ≤ P.LOGSIZE
    omega
  · intro e he
    cases he

theorem log_write_tooBig_iff (P : Param) (s : FS) (b : Nat) :
    (log_write P s b).panicOf = some Panic.tooBig ↔
      (s.log.lh.n ≥ P.LOGSIZE ∨ s.log.lh.n ≥ s.log.size - 1) := by
  unfold log_write
  by_cases h1 : s.log.lh.n ≥ P.LOGSIZE ∨ s.log.lh.n ≥ s.log.size - 1
  · rw [if_pos h1]
    exact ⟨fun _ => h1, fun _ => rfl⟩
  · rw [if_neg h1]
    refine ⟨fun h => ?_, fun h => absurd h h1⟩
    exfalso
    split at h
    · cases h
    · dsimp only at h
      split at h <;> cases h

theorem log_write_n_mono (P : Param) (s s' : FS) (b : Nat)
    (h : log_write P s b = Res.ok s') : s.log.lh.n ≤ s'.log.lh.n := by
  unfold log_write at h
  split at h
  · cases h
  · split at h
    · cases h
    · dsimp only at h
      split at h
      · cases h
        show s.log.lh.n ≤ s.log.lh.n + 1
        omega
      · cases h
        exact le_refl _

theorem commit_size (s : FS) : (commit s).log.size = s.log.size := by
  unfold commit
  split <;> rfl

/-- No step changes `log.size`. -/
theorem step_size (P : Param) (s s' : Sys) (e : Ev) (hs : step P s e = Res.ok s') :
    s'.fs.log.size = s.fs.log.size := by
  cases e with
  | beginTry o =>
    rw [step_beginTry] at hs
    cases hs
    show (begin_op_iter P s.fs.log).1.size = _
    unfold begin_op_iter
    split
    · rfl
    · split <;> rfl
  | write o b =>
    have hstep : step P s (Ev.write o b) =
        match log_write P s.fs b with
        | .panic p fs => .panic p { s with fs := fs }
        | .ok fs => .ok { s with fs := fs, active := noteWrite o b s.active } := rfl
    rw [hstep] at hs
    cases hlw : log_write P s.fs b with
    | panic p fs => rw [hlw] at hs; cases hs
    | ok fs =>
      rw [hlw] at hs
      cases hs
      exact (log_write_ok_frame P s.fs fs b hlw).2.1
  | endEnter o =>
    have hstep : step P s (Ev.endEnter o) =
        match end_op_enter s.fs.log with
        | .panic p r => .panic p { s with fs := { s.fs with log := r.1 } }
        | .ok r =>
          .ok { fs := { s.fs with log := r.1 },
                active := eraseOp o s.active,
                committers := if r.2 then (o, false) :: s.committers else s.committers } := rfl
    rw [hstep] at hs
    cases hee : end_op_enter s.fs.log with
    | panic p r => rw [hee] at hs; cases hs
    | ok r =>
      rw [hee] at hs
      cases hs
      obtain ⟨_, hr⟩ := end_op_enter_ok s.fs.log r hee
      subst hr
      show (if s.fs.log.outstanding - 1 = 0 then _ else _ : Log × Bool).1.size = _
      split <;> rfl
  | doCommit o =>
    cases hs
    exact commit_size s.fs
  | endExit o =>
    cases hs
    rfl

theorem run_size (P : Param) (tr : List Ev) :
    ∀ s s', run P s tr = Res.ok s' → s'.fs.log.size = s.fs.log.size := by
  induction tr with
  | nil => intro s s' h; cases h; rfl
  | cons e tr ih =>
    intro s s' h
    unfold run at h
    cases hst : step P s e with
    | ok t =>
      rw [hst] at h
      rw [ih t s' h, step_size P s t e hst]
    | panic p t =>
      rw [hst] at h
      cases h

theorem reserve_ge_of_mem (P : Param) (A : List (Nat × List Nat))
    (h : ∀ e ∈ A, (e.2.length : Int) ≤ P.MAXOPBLOCKS) (e : Nat × List Nat) (he : e ∈ A) :
    P.MAXOPBLOCKS - (e.2.length : Int) ≤ reserve P A := by
  induction A with
  | nil => cases he
  | cons a A ih =>
    obtain ⟨o', W'⟩ := a
    have h1 := h (o', W') (List.mem_cons_self _ _)
    have h2 := reserve_nonneg P A (fun e he => h e (List.mem_cons_of_mem _ he))
    simp only at h1
    unfold reserve
    rcases List.mem_cons.mp he with h3 | h3
    · rw [h3]
      show P.MAXOPBLOCKS - (W'.length : Int) ≤ _
      omega
    · have := ih (fun e he => h e (List.mem_cons_of_mem _ he)) h3
      omega

/-- C6 (as stated, refuted): with the values of xv6 (`LOGSIZE` 30, `MAXOPBLOCKS` 10) and a log
region with room for `LOGSIZE` data blocks, three operations are admitted from the idle log and
write ten distinct blocks each; operation 1 then writes again block 100, which it has already
written. Every step follows the discipline of callers, and this last `log_write` halts with
"too big a transaction". -/
theorem C6_counterexample_repeated_write_on_full_header :
    xv6Param.LOGSIZE ≤ idle32.fs.log.size - 1 ∧
    Legal xv6Param idle32 (fillTrace ++ [Ev.write 1 100]) ∧
    (run xv6Param idle32 (fillTrace ++ [Ev.write 1 100])).panicOf = some Panic.tooBig := by
  decide

/-- C6 (amended): in every execution from the idle log that follows the discipline of callers
(every `log_write` by an admitted operation that has not called `end_op`, each operation
writing at most `MAXOPBLOCKS` distinct blocks), with room for `LOGSIZE` data blocks in the log
region, the logged count never exceeds `LOGSIZE`; `log_write` does not halt with "too big a
transaction" when called by an operation that has so far written fewer than `MAXOPBLOCKS`
distinct blocks; and a repeated write of a block halts with "too big a transaction" exactly
when the header is full (`n = LOGSIZE`). -/
theorem C6_backpressure (P : Param) (hM : 0 ≤ P.MAXOPBLOCKS) (hL : 0 ≤ P.LOGSIZE)
    (start size : Int) (c : Bio) (hsz : P.LOGSIZE ≤ size - 1)
    (tr : List Ev) (s : Sys) (hlegal : Legal P (idle start size c) tr)
    (hrun : run P (idle start size c) tr = Res.ok s) :
    s.fs.log.lh.n ≤ P.LOGSIZE ∧
    (∀ o b W, written s.active o = some W → (W.length : Int) < P.MAXOPBLOCKS →
      (log_write P s.fs b).panicOf ≠ some Panic.tooBig) ∧
    (∀ o b W, written s.active o = some W → b ∈ W →
      ((log_write P s.fs b).panicOf = some Panic.tooBig ↔ s.fs.log.lh.n = P.LOGSIZE)) := by
  obtain ⟨_, hb, hc, hd, _⟩ :=
    run_inv P hM tr _ s (idle_inv P hL start size c) hlegal hrun
  have hsize : s.fs.log.size = size := run_size P tr _ s hrun
  have hres := reserve_nonneg P s.active (fun e he => (hd e he).1)
  refine ⟨by omega, ?_, ?_⟩
  · intro o b W hW hlt
    have hmem := mem_of_written s.active o W hW
    have hge := reserve_ge_of_mem P s.active (fun e he => (hd e he).1) (o, W) hmem
    simp only at hge
    rw [Ne, log_write_tooBig_iff]
    omega
  · intro o b W _ _
    rw [log_write_tooBig_iff]
    omega

/-- C6 (amended), instance: with the values of xv6, after operation 1 is admitted from the idle
log and writes block 100, the logged count is at most `LOGSIZE`. -/
theorem C6_backpressure_witness :
    (run xv6Param idle32 [Ev.beginTry 1, Ev.write 1 100]).state.fs.log.lh.n
      ≤ xv6Param.LOGSIZE :=
  (C6_backpressure xv6Param (by decide) (by decide) 2 32
    { disk := fun _ _ => 0, cache := fun _ => none, refcnt := fun _ => 0 } (by decide)
    [Ev.beginTry 1, Ev.write 1 100]
    (run xv6Param idle32 [Ev.beginTry 1, Ev.write 1 100]).state (by decide)
    (Res.eq_ok_of_panicOf_none _ (by decide))).1

/-- A step that does not belong to an `end_op` does not make room in the log: if the admission
test of `begin_op` fails for lack of space before the step, it fails after it. -/
theorem step_keeps_full (P : Param) (s s' : Sys) (e : Ev) (he : e.isEndStep = false)
    (hfull : s.fs.log.lh.n + (s.fs.log.outstanding + 1) * P.MAXOPBLOCKS > P.LOGSIZE)
    (hs : step P s e = Res.ok s') :
    s'.fs.log.lh.n + (s'.fs.log.outstanding + 1) * P.MAXOPBLOCKS > P.LOGSIZE := by
  cases e with
  | beginTry o =>
    rw [step_beginTry, begin_op_iter_sleep P _ (Or.inr hfull)] at hs
    cases hs
    exact hfull
  | write o b =>
    have hstep : step P s (Ev.write o b) =
        match log_write P s.fs b with
        | .panic p fs => .panic p { s with fs := fs }
        | .ok fs => .ok { s with fs := fs, active := noteWrite o b s.active } := rfl
    rw [hstep] at hs
    cases hlw : log_write P s.fs b with
    | panic p fs => rw [hlw] at hs; cases hs
    | ok fs =>
      rw [hlw] at hs
      cases hs
      have h1 := log_write_n_mono P s.fs fs b hlw
      have h2 := (log_write_ok_frame P s.fs fs b hlw).2.2.1
      show fs.log.lh.n + (fs.log.outstanding + 1) * P.MAXOPBLOCKS > P.LOGSIZE
      rw [h2]
      omega
  | endEnter o => cases he
  | doCommit o => cases he
  | endExit o => cases he

theorem run_keeps_full (P : Param) (tr : List Ev) :
    ∀ s s', (∀ e ∈ tr, e.isEndStep = false) →
      s.fs.log.lh.n + (s.fs.log.outstanding + 1) * P.MAXOPBLOCKS > P.LOGSIZE →
      run P s tr = Res.ok s' →
      s'.fs.log.lh.n + (s'.fs.log.outstanding + 1) * P.MAXOPBLOCKS > P.LOGSIZE := by
  induction tr with
  | nil => intro s s' _ hf h; cases h; exact hf
  | cons e tr ih =>
    intro s s' he hf h
    unfold run at h
    cases hst : step P s e with
    | ok t =>
      rw [hst] at h
      exact ih t s' (fun e' he' => he e' (List.mem_cons_of_mem _ he'))
        (step_keeps_full P s t e (he e (List.mem_cons_self _ _)) hf hst) h
    | panic p t =>
      rw [hst] at h
      cases h

/-- C7 (as stated, refuted): with the values of xv6, operations 1, 2 and 3 are admitted from
the idle log and operation 1 writes block 100. A `begin_op` is then refused for lack of space
(no commit is in progress). After operations 1 and 2 call `end_op`, neither of which commits
since operation 3 is still outstanding, the `begin_op` is admitted, although no `commit` has
run and the logged count is still 1. Every step follows the discipline of callers. -/
theorem C7_counterexample_admitted_without_commit :
    Legal xv6Param idle32
      [Ev.beginTry 1, Ev.beginTry 2, Ev.beginTry 3, Ev.write 1 100, Ev.beginTry 4,
       Ev.endEnter 1, Ev.endEnter 2, Ev.beginTry 4] ∧
    (run xv6Param idle32
      [Ev.beginTry 1, Ev.beginTry 2, Ev.beginTry 3, Ev.write 1 100]).state.fs.log.committing
      = 0 ∧
    (begin_op_iter xv6Param (run xv6Param idle32
      [Ev.beginTry 1, Ev.beginTry 2, Ev.beginTry 3, Ev.write 1 100]).state.fs.log).2 = false ∧
    (run xv6Param idle32
      [Ev.beginTry 1, Ev.beginTry 2, Ev.beginTry 3, Ev.write 1 100, Ev.beginTry 4,
       Ev.endEnter 1, Ev.endEnter 2]).panicOf = none ∧
    (begin_op_iter xv6Param (run xv6Param idle32
      [Ev.beginTry 1, Ev.beginTry 2, Ev.beginTry 3, Ev.write 1 100, Ev.beginTry 4,
       Ev.endEnter 1, Ev.endEnter 2]).state.fs.log).2 = true ∧
    (run xv6Param idle32
      [Ev.beginTry 1, Ev.beginTry 2, Ev.beginTry 3, Ev.write 1 100, Ev.beginTry 4,
       Ev.endEnter 1, Ev.endEnter 2]).state.fs.log.lh.n = 1 ∧
    (run xv6Param idle32
      [Ev.beginTry 1, Ev.beginTry 2, Ev.beginTry 3, Ev.write 1 100, Ev.beginTry 4,
       Ev.endEnter 1, Ev.endEnter 2]).state.committers = [] := by
  decide

/-- C7 (amended): a `begin_op` whose admission test fails because
`log.lh.n + (log.outstanding+1)*MAXOPBLOCKS > LOGSIZE` does not return an error: its pass
through the loop leaves the log unchanged and does not admit it; and in every continuation of
the execution made of steps that do not belong to an `end_op` (passes of `begin_op`,
`log_write` calls), it is still not admitted: it can be admitted only after some `end_op` has
run, one that lowered `log.outstanding` or one that committed. -/
theorem C7_refused_begin_op_waits (P : Param) (s : Sys)
    (hfull : s.fs.log.lh.n + (s.fs.log.outstanding + 1) * P.MAXOPBLOCKS > P.LOGSIZE) :
    begin_op_iter P s.fs.log = (s.fs.log, false) ∧
    ∀ tr s', (∀ e ∈ tr, e.isEndStep = false) → run P s tr = Res.ok s' →
      begin_op_iter P s'.fs.log = (s'.fs.log, false) :=
  ⟨begin_op_iter_sleep P _ (Or.inr hfull),
    fun tr s' he hr => begin_op_iter_sleep P _ (Or.inr (run_keeps_full P tr s s' he hfull hr))⟩

/-- C7 (amended), instance: in `fullHeader` (30 blocks logged, three operations outstanding) a
pass of `begin_op` does not admit the caller. -/
theorem C7_refused_begin_op_waits_witness :
    (begin_op_iter xv6Param fullHeader.log).2 = false :=
  congrArg Prod.snd
    (C7_refused_begin_op_waits xv6Param { fs := fullHeader, active := [], committers := [] }
      (by decide)).1

/-! ## Out of memory -/

/-- C11: `kalloc` returns 0 if and only if the free list is empty (`kmem.freelist` is the null
pointer, the empty chain), and when it returns 0 the whole allocator state (every reference
count, the free list, every byte of memory) is unchanged. -/
theorem C11_kalloc_out_of_memory (L : Layout) (s : Kmem) :
    ((kalloc L s).2 = 0 ↔ s.freelist = 0) ∧
    (s.freelist = 0 ↔ FreeChain s.mem s.freelist []) ∧
    ((kalloc L s).2 = 0 → (kalloc L s).1 = s) := by
  by_cases h : s.freelist = 0
  · rw [kalloc_empty L s h]
    exact ⟨⟨fun _ => h, fun _ => rfl⟩, Iff.rfl, fun _ => rfl⟩
  · rw [kalloc_nonempty L s h]
    exact ⟨⟨fun h' => absurd h' h, fun h' => absurd h' h⟩, Iff.rfl, fun h' => absurd h' h⟩

/-- C11, instance: on `tinyLayout`, after `kinit` and two calls of `kalloc` the free list is
empty and a third `kalloc` returns 0. -/
theorem C11_kalloc_out_of_memory_witness :
    (kalloc tinyLayout (kalloc tinyLayout
      (kalloc tinyLayout (kinit tinyLayout (boot (fun _ => 0))).state).1).1).2 = 0 :=
  (C11_kalloc_out_of_memory tinyLayout (kalloc tinyLayout
    (kalloc tinyLayout (kinit tinyLayout (boot (fun _ => 0))).state).1).1).1.mpr (by decide)

/-! ## Idempotence of recovery -/

theorem recover_headno (s : FS) : headno (recover_from_log s).log = headno s.log := rfl

/-- After `recover_from_log`, from any state, the on-disk header count is 0 and the buffer of
the header block holds what the disk holds. -/
theorem recover_head_after (s : FS) :
    (recover_from_log s).bio.disk (headno s.log) 0 = 0 ∧
    (recover_from_log s).bio.view (headno s.log)
      = (recover_from_log s).bio.disk (headno s.log) := by
  have hrec : recover_from_log s = write_head (clear_n (install_trans 1 (read_head s))) := rfl
  have e : headno (clear_n (install_trans 1 (read_head s))).log = headno s.log := rfl
  rw [hrec, write_head_disk, write_head_view, e, upd_same, upd_same,
    hdr_image_empty _ _ rfl, upd_same]
  exact ⟨rfl, rfl⟩

/-- A run of `recover_from_log` in a state where the header block holds the count 0, on disk
and in its buffer, changes no block on disk. -/
theorem recover_noop (s : FS)
    (hv : s.bio.view (headno s.log) = s.bio.disk (headno s.log))
    (h0 : s.bio.disk (headno s.log) 0 = 0) :
    (recover_from_log s).bio.disk = s.bio.disk := by
  have hrec : recover_from_log s = write_head (clear_n (install_trans 1 (read_head s))) := rfl
  have hn : (read_head s).log.lh.n = 0 := by rw [read_head_n, hv]; exact h0
  have hi : install_trans 1 (read_head s) = read_head s := by
    unfold install_trans
    rw [hn]
    rfl
  have e : headno (clear_n (read_head s)).log = headno s.log := rfl
  rw [hrec, hi, write_head_disk, e, hdr_image_empty _ _ rfl]
  have hd : (clear_n (read_head s)).bio.disk = s.bio.disk := rfl
  have hw : (clear_n (read_head s)).bio.view (headno s.log) = s.bio.view (headno s.log) := by
    show (read_head s).bio.view (headno s.log) = _
    rw [read_head_view]
  rw [hd, hw, hv]
  funext b
  unfold upd
  split
  · rename_i hb
    subst hb
    funext w
    split
    · rename_i hw
      subst hw
      exact h0.symm
    · rfl
  · rfl

/-- C12: `recover_from_log` is idempotent on the disk: from every state, a second run right
after the first, or after a crash and reboot following the first, leaves the disk that the
first run left; and a run at boot against a header whose count is already 0 changes no block on
disk. -/
theorem C12_recover_idempotent (s : FS) :
    (recover_from_log (recover_from_log s)).bio.disk = (recover_from_log s).bio.disk ∧
    (recover_from_log (crash (recover_from_log s))).bio.disk = (recover_from_log s).bio.disk ∧
    (diskCount s = 0 → (recover_from_log (crash s)).bio.disk = s.bio.disk) := by
  obtain ⟨h0, hv⟩ := recover_head_after s
  refine ⟨?_, ?_, fun h => recover_of_count_zero s h⟩
  · exact recover_noop (recover_from_log s) (by rw [recover_headno]; exact hv)
      (by rw [recover_headno]; exact h0)
  · exact recover_of_count_zero (recover_from_log s) (by rw [recover_headno]; exact h0)

/-- C12, instance: on the disk left by a crash of `commit` on `oneBlockTrans` right after the
header write, a second recovery leaves block 10 as the first one did. -/
theorem C12_recover_idempotent_witness :
    (recover_from_log (recover_from_log (crash (commit_upto 2 oneBlockTrans)))).bio.disk 10 0
      = (recover_from_log (crash (commit_upto 2 oneBlockTrans))).bio.disk 10 0 :=
  congrFun (congrFun (C12_recover_idempotent (crash (commit_upto 2 oneBlockTrans))).1 10) 0

/-! ## Exclusion of commit and operations -/

theorem commit_keeps_counts (s : FS) :
    (commit s).log.outstanding = s.log.outstanding ∧
    (commit s).log.committing = s.log.committing := by
  unfold commit
  split <;> exact ⟨rfl, rfl⟩

theorem step_write_eq (P : Param) (s : Sys) (o b : Nat) :
    step P s (Ev.write o b) =
      match log_write P s.fs b with
      | .panic p fs => .panic p { s with fs := fs }
      | .ok fs => .ok { s with fs := fs, active := noteWrite o b s.active } := rfl

theorem step_endEnter_eq (P : Param) (s : Sys) (o : Nat) :
    step P s (Ev.endEnter o) =
      match end_op_enter s.fs.log with
      | .panic p r => .panic p { s with fs := { s.fs with log := r.1 } }
      | .ok r =>
        .ok { fs := { s.fs with log := r.1 },
              active := eraseOp o s.active,
              committers := if r.2 then (o, false) :: s.committers else s.committers } := rfl

/-- Every matched step keeps the invariant of matched executions. -/
theorem step_commitInv (P : Param) (s s' : Sys) (e : Ev) (hinv : CommitInv s)
    (hm : matched s e) (hs : step P s e = Res.ok s') : CommitInv s' := by
  obtain ⟨ha, he⟩ := hinv
  cases e with
  | beginTry o =>
    rw [step_beginTry] at hs
    by_cases h : s.fs.log.committing ≠ 0 ∨
        s.fs.log.lh.n + (s.fs.log.outstanding + 1) * P.MAXOPBLOCKS > P.LOGSIZE
    · rw [begin_op_iter_sleep P _ h] at hs
      cases hs
      exact ⟨ha, he⟩
    · have h1 : s.fs.log.committing = 0 := by
        by_contra hne
        exact h (Or.inl hne)
      rw [begin_op_iter_admits P _ h1 (fun hgt => h (Or.inr hgt))] at hs
      cases hs
      refine ⟨?_, ?_⟩
      · show s.fs.log.outstanding + 1 = (((o, ([] : List Nat)) :: s.active).length : Int)
        rw [List.length_cons, ha]
        push_cast
        rfl
      · rcases he with ⟨h3, h4⟩ | ⟨o', f, _, h4, _⟩
        · exact Or.inl ⟨h3, h4⟩
        · rw [h1] at h4
          exact absurd h4 (by decide)
  | write o b =>
    rw [step_write_eq] at hs
    cases hlw : log_write P s.fs b with
    | panic p fs => rw [hlw] at hs; cases hs
    | ok fs =>
      rw [hlw] at hs
      cases hs
      obtain ⟨_, _, f3, f4, _, _⟩ := log_write_ok_frame P s.fs fs b hlw
      refine ⟨?_, ?_⟩
      · show fs.log.outstanding = ((noteWrite o b s.active).length : Int)
        rw [noteWrite_length, f3, ha]
      · rcases he with ⟨h3, h4⟩ | ⟨o', f, h3, h4, h5⟩
        · exact Or.inl ⟨h3, by show fs.log.committing = 0; rw [f4]; exact h4⟩
        · refine Or.inr ⟨o', f, h3, by show fs.log.committing = 1; rw [f4]; exact h4, ?_⟩
          show noteWrite o b s.active = []
          rw [h5]
          rfl
  | endEnter o =>
    rw [step_endEnter_eq] at hs
    cases hee : end_op_enter s.fs.log with
    | panic p r => rw [hee] at hs; cases hs
    | ok r =>
      rw [hee] at hs
      cases hs
      obtain ⟨hc0, hr⟩ := end_op_enter_ok s.fs.log r hee
      have hcm : s.committers = [] := by
        rcases he with ⟨h3, _⟩ | ⟨_, _, _, h4, _⟩
        · exact h3
        · rw [hc0] at h4
          exact absurd h4 (by decide)
      have hlen := eraseOp_length o s.active hm
      by_cases h2 : s.fs.log.outstanding - 1 = 0
      · rw [if_pos h2] at hr
        subst hr
        have hnil : eraseOp o s.active = [] := by
          apply List.length_eq_zero.mp
          omega
        refine ⟨?_, Or.inr ⟨o, false, ?_, rfl, hnil⟩⟩
        · show s.fs.log.outstanding - 1 = ((eraseOp o s.active).length : Int)
          omega
        · show (if true = true then (o, false) :: s.committers else s.committers) = _
          rw [if_pos rfl, hcm]
      · rw [if_neg h2] at hr
        subst hr
        refine ⟨?_, Or.inl ⟨?_, hc0⟩⟩
        · show s.fs.log.outstanding - 1 = ((eraseOp o s.active).length : Int)
          omega
        · show (if false = true then (o, false) :: s.committers else s.committers) = _
          rw [if_neg (by decide), hcm]
  | doCommit o =>
    cases hs
    obtain ⟨c2, c3⟩ := commit_keeps_counts s.fs
    rcases he with ⟨h3, _⟩ | ⟨o', f, h3, h4, h5⟩
    · have hl' : (o, false) ∈ s.committers := hm
      rw [h3] at hl'
      cases hl'
    · have hl' : (o, false) ∈ s.committers := hm
      rw [h3, List.mem_singleton] at hl'
      cases hl'
      refine ⟨by show (commit s.fs).log.outstanding = _; rw [c2]; exact ha,
        Or.inr ⟨o, true, ?_, by show (commit s.fs).log.committing = 1; rw [c3]; exact h4, h5⟩⟩
      show s.committers.map (fun c => if c.1 = o then (o, true) else c) = _
      rw [h3]
      simp
  | endExit o =>
    cases hs
    rcases he with ⟨h3, _⟩ | ⟨o', f, h3, _, _⟩
    · have hl' : (o, true) ∈ s.committers := hm
      rw [h3] at hl'
      cases hl'
    · have hl' : (o, true) ∈ s.committers := hm
      rw [h3, List.mem_singleton] at hl'
      cases hl'
      refine ⟨ha, Or.inl ⟨?_, rfl⟩⟩
      show s.committers.filter (fun c => decide (c.1 ≠ o)) = []
      rw [h3]
      simp

theorem log_write_panic_kind (P : Param) (s : FS) (b : Nat) :
    (log_write P s b).panicOf ≠ some Panic.committing := by
  unfold log_write
  split
  · exact fun h => by cases h
  · split
    · exact fun h => by cases h
    · dsimp only
      split <;> exact fun h => by cases h

theorem end_op_enter_returns (l : Log) (h : l.committing = 0) :
    (end_op_enter l).panicOf = none := by
  unfold end_op_enter
  dsimp only
  rw [if_neg (by simp [h])]
  split <;> rfl

/-- A matched step from a state that satisfies the invariant does not halt with
"log.committing". -/
theorem step_no_committing_panic (P : Param) (s : Sys) (e : Ev) (hinv : CommitInv s)
    (hm : matched s e) : (step P s e).panicOf ≠ some Panic.committing := by
  obtain ⟨ha, he⟩ := hinv
  cases e with
  | beginTry o => rw [step_beginTry]; exact fun h => by cases h
  | write o b =>
    rw [step_write_eq]
    have := log_write_panic_kind P s.fs b
    cases hlw : log_write P s.fs b with
    | panic p fs =>
      rw [hlw] at this
      exact this
    | ok fs => exact fun h => by cases h
  | endEnter o =>
    rw [step_endEnter_eq]
    have hc0 : s.fs.log.committing = 0 := by
      rcases he with ⟨_, h4⟩ | ⟨_, _, _, _, h5⟩
      · exact h4
      · have hm' : written s.active o ≠ none := hm
        rw [h5] at hm'
        exact absurd rfl hm'
    have := end_op_enter_returns s.fs.log hc0
    cases hee : end_op_enter s.fs.log with
    | panic p r =>
      rw [hee] at this
      cases this
    | ok r => exact fun h => by cases h
  | doCommit o => exact fun h => by cases h
  | endExit o => exact fun h => by cases h

theorem run_commitInv (P : Param) (tr : List Ev) :
    ∀ s, CommitInv s → Matched P s tr →
      (run P s tr).panicOf ≠ some Panic.committing ∧
      ∀ s', run P s tr = Res.ok s' → CommitInv s' := by
  induction tr with
  | nil =>
    intro s hinv _
    refine ⟨fun h => ?_, fun s' h => ?_⟩
    · cases h
    · cases h
      exact hinv
  | cons e tr ih =>
    intro s hinv hM
    obtain ⟨h1, h2⟩ := hM
    have hnp := step_no_committing_panic P s e hinv h1
    unfold run
    cases hst : step P s e with
    | ok t =>
      rw [hst] at h2
      exact ih t (step_commitInv P s t e hinv h1 hst) h2
    | panic p t =>
      rw [hst] at hnp
      exact ⟨hnp, fun s' h => by cases h⟩

theorem idle_commitInv (start size : Int) (c : Bio) : CommitInv (idle start size c) :=
  ⟨rfl, Or.inl ⟨rfl, rfl⟩⟩

/-- C13: in every execution from the idle log made of passes of `begin_op`, `log_write` calls
and matched `end_op` calls, the panic "log.committing" is never raised, and in every state
reached: `log.committing` is 0 or 1; `committing = 1` implies `outstanding = 0`; while
`committing = 1` a pass of `begin_op` admits nobody and leaves the log unchanged; at most one
context is between the two sections of a committing `end_op` (inside `commit`), and while one
is, `committing = 1` and no operation is outstanding, so `commit` writes to disk only when no
operation is outstanding; and a matched `end_op` does not halt. -/
theorem C13_commit_exclusion (P : Param) (start size : Int) (c : Bio) (tr : List Ev)
    (hm : Matched P (idle start size c) tr) :
    (run P (idle start size c) tr).panicOf ≠ some Panic.committing ∧
    ∀ s, run P (idle start size c) tr = Res.ok s →
      (s.fs.log.committing = 0 ∨ s.fs.log.committing = 1) ∧
      (s.fs.log.committing = 1 → s.fs.log.outstanding = 0) ∧
      (s.fs.log.committing = 1 → begin_op_iter P s.fs.log = (s.fs.log, false)) ∧
      s.committers.length ≤ 1 ∧
      (s.committers ≠ [] →
        s.fs.log.committing = 1 ∧ s.fs.log.outstanding = 0 ∧ s.active = []) ∧
      (∀ o, matched s (Ev.doCommit o) → s.fs.log.outstanding = 0 ∧ s.active = []) ∧
      (∀ o, matched s (Ev.endEnter o) → (step P s (Ev.endEnter o)).panicOf = none) := by
  obtain ⟨hnp, hall⟩ := run_commitInv P tr _ (idle_commitInv start size c) hm
  refine ⟨hnp, fun s hs => ?_⟩
  obtain ⟨ha, he⟩ := hall s hs
  have hbusy : s.committers ≠ [] →
      s.fs.log.committing = 1 ∧ s.fs.log.outstanding = 0 ∧ s.active = [] := by
    intro hne
    rcases he with ⟨h3, _⟩ | ⟨_, _, _, h4, h5⟩
    · exact absurd h3 hne
    · refine ⟨h4, ?_, h5⟩
      rw [ha, h5]
      rfl
  refine ⟨?_, ?_, ?_, ?_, hbusy, ?_, ?_⟩
  · rcases he with ⟨_, h4⟩ | ⟨_, _, _, h4, _⟩
    · exact Or.inl h4
    · exact Or.inr h4
  · intro h1
    rcases he with ⟨_, h4⟩ | ⟨_, _, _, _, h5⟩
    · rw [h4] at h1
      exact absurd h1 (by decide)
    · rw [ha, h5]
      rfl
  · intro h1
    exact begin_op_iter_sleep P _ (Or.inl (by rw [h1]; decide))
  · rcases he with ⟨h3, _⟩ | ⟨_, _, h3, _, _⟩
    · rw [h3]
      exact Nat.zero_le 1
    · rw [h3]
      exact le_refl 1
  · intro o ho
    have hne : s.committers ≠ [] := by
      intro e
      have ho' : (o, false) ∈ s.committers := ho
      rw [e] at ho'
      cases ho'
    exact (hbusy hne).2
  · intro o ho
    have hc0 : s.fs.log.committing = 0 := by
      rcases he with ⟨_, h4⟩ | ⟨_, _, _, _, h5⟩
      · exact h4
      · have ho' : written s.active o ≠ none := ho
        rw [h5] at ho'
        exact absurd rfl ho'
    rw [step_endEnter_eq]
    have := end_op_enter_returns s.fs.log hc0
    cases hee : end_op_enter s.fs.log with
    | panic p r =>
      rw [hee] at this
      cases this
    | ok r => rfl

/-- C13, instance: with the values of xv6, after two operations are admitted, one writes a
block and both call `end_op`, the second being the committer, the execution has not halted with
"log.committing". -/
theorem C13_commit_exclusion_witness :
    (run xv6Param idle32
      [Ev.beginTry 1, Ev.beginTry 2, Ev.write 1 100, Ev.endEnter 1, Ev.endEnter 2,
       Ev.beginTry 3, Ev.doCommit 2, Ev.endExit 2]).panicOf ≠ some Panic.committing :=
  (C13_commit_exclusion xv6Param 2 32
    { disk := fun _ _ => 0, cache := fun _ => none, refcnt := fun _ => 0 }
    [Ev.beginTry 1, Ev.beginTry 2, Ev.write 1 100, Ev.endEnter 1, Ev.endEnter 2,
     Ev.beginTry 3, Ev.doCommit 2, Ev.endExit 2] (by decide)).1

/-! ## Concurrent releases of a shared page -/

theorem kfree_step_atDec (L : Layout) (pa : Nat) (s : KfreeRace) (c : Nat)
    (h : s.pc c = KfreePc.atDec) :
    kfree_step L pa s c = { s with k := cowdec L s.k pa, pc := upd s.pc c KfreePc.atRead } := by
  unfold kfree_step
  rw [h]

theorem kfree_step_atRead (L : Layout) (pa : Nat) (s : KfreeRace) (c : Nat)
    (h : s.pc c = KfreePc.atRead) :
    kfree_step L pa s c =
      { s with
        pc := upd s.pc c (if cowgetref L s.k pa = 0 then KfreePc.atScrub else KfreePc.done) } := by
  unfold kfree_step
  rw [h]

theorem kfree_step_atScrub (L : Layout) (pa : Nat) (s : KfreeRace) (c : Nat)
    (h : s.pc c = KfreePc.atScrub) :
    kfree_step L pa s c = { s with k := { s.k with mem := memset s.k.mem pa 1 PGSIZE },
                                   pc := upd s.pc c KfreePc.atPush } := by
  unfold kfree_step
  rw [h]

theorem kfree_step_atPush (L : Layout) (pa : Nat) (s : KfreeRace) (c : Nat)
    (h : s.pc c = KfreePc.atPush) :
    kfree_step L pa s c =
      { k := { s.k with mem := write64 s.k.mem pa s.k.freelist, freelist := pa },
        pc := upd s.pc c KfreePc.done,
        pushedBy := c :: s.pushedBy } := by
  unfold kfree_step
  rw [h]

theorem kfree_step_done (L : Layout) (pa : Nat) (s : KfreeRace) (c : Nat)
    (h : s.pc c = KfreePc.done) : kfree_step L pa s c = s := by
  unfold kfree_step
  rw [h]

/-- A context that takes its steps of `kfree(pa)` without interleaving does what `kfree`
does. -/
theorem kfree_alone (L : Layout) (k : Kmem) (pa c : Nat)
    (hchk : ¬ (pa % PGSIZE ≠ 0 ∨ pa < L.kend ∨ pa ≥ L.PHYSTOP)) :
    (kfree_schedule L pa (kfree_enter k) [c, c, c, c]).k = (kfree L k pa).state := by
  have hs : kfree_schedule L pa (kfree_enter k) [c, c, c, c]
      = kfree_step L pa (kfree_step L pa (kfree_step L pa
          (kfree_step L pa (kfree_enter k) c) c) c) c := rfl
  have e1 : kfree_step L pa (kfree_enter k) c
      = { k := cowdec L k pa, pc := upd (fun _ => KfreePc.atDec) c KfreePc.atRead,
          pushedBy := [] } := kfree_step_atDec L pa (kfree_enter k) c rfl
  rw [hs, e1]
  by_cases h1 : wrap_int (refcount L k pa - 1) = 0
  · have hz : cowgetref L (cowdec L k pa) pa = 0 := by
      show upd k.useRef (COWINDEX L pa) (wrap_int (k.useRef (COWINDEX L pa) - 1))
        (COWINDEX L pa) = 0
      rw [upd_same]
      exact h1
    have e2 : kfree_step L pa
        { k := cowdec L k pa, pc := upd (fun _ => KfreePc.atDec) c KfreePc.atRead,
          pushedBy := [] } c
        = { k := cowdec L k pa,
            pc := upd (upd (fun _ => KfreePc.atDec) c KfreePc.atRead) c KfreePc.atScrub,
            pushedBy := [] } := by
      rw [kfree_step_atRead L pa _ c (upd_same (fun _ => KfreePc.atDec) c KfreePc.atRead)]
      simp only [hz, if_true]
    have e3 : kfree_step L pa
        { k := cowdec L k pa,
          pc := upd (upd (fun _ => KfreePc.atDec) c KfreePc.atRead) c KfreePc.atScrub,
          pushedBy := [] } c
        = { k := { cowdec L k pa with mem := memset (cowdec L k pa).mem pa 1 PGSIZE },
            pc := upd (upd (upd (fun _ => KfreePc.atDec) c KfreePc.atRead) c KfreePc.atScrub)
              c KfreePc.atPush,
            pushedBy := [] } :=
      kfree_step_atScrub L pa _ c (upd_same _ _ _)
    rw [e2, e3, kfree_step_atPush L pa _ c (upd_same
      (upd (upd (fun _ => KfreePc.atDec) c KfreePc.atRead) c KfreePc.atScrub) c KfreePc.atPush),
      kfree_pushes L k pa hchk h1]
    rfl
  · have hz : ¬ cowgetref L (cowdec L k pa) pa = 0 := by
      show ¬ upd k.useRef (COWINDEX L pa) (wrap_int (k.useRef (COWINDEX L pa) - 1))
        (COWINDEX L pa) = 0
      rw [upd_same]
      exact h1
    have e2 : kfree_step L pa
        { k := cowdec L k pa, pc := upd (fun _ => KfreePc.atDec) c KfreePc.atRead,
          pushedBy := [] } c
        = { k := cowdec L k pa,
            pc := upd (upd (fun _ => KfreePc.atDec) c KfreePc.atRead) c KfreePc.done,
            pushedBy := [] } := by
      rw [kfree_step_atRead L pa _ c (upd_same (fun _ => KfreePc.atDec) c KfreePc.atRead)]
      simp only [hz, if_false]
    have e3 : kfree_step L pa
        { k := cowdec L k pa,
          pc := upd (upd (fun _ => KfreePc.atDec) c KfreePc.atRead) c KfreePc.done,
          pushedBy := [] } c
        = { k := cowdec L k pa,
            pc := upd (upd (fun _ => KfreePc.atDec) c KfreePc.atRead) c KfreePc.done,
            pushedBy := [] } :=
      kfree_step_done L pa _ c (upd_same _ _ _)
    rw [e2, e3, e3, kfree_nonzero L k pa hchk h1]
    rfl

/-- C14 (refuted by the code): on `tinyLayout`, page 12288 is shared with count 2 and two
contexts, 0 and 1, call `kfree(12288)`. When both decrement the count before either reads it
(schedule 0, 1, 0, 1, 0, 1, 0, 1), both read 0, both scrub the page and both push it: the page
is pushed twice, the second push makes the page its own successor on the free list, and two
calls of `kalloc` then return the same page 12288. Without interleaving (schedule 0, 0, 0, 0,
1, 1, 1, 1) the page is pushed once, by context 1. -/
theorem C14_double_push_under_interleaving :
    refcount tinyLayout sharedPage 12288 = 2 ∧
    (kfree_schedule tinyLayout 12288 (kfree_enter sharedPage) [0, 1, 0, 1, 0, 1, 0, 1]).pc 0
      = KfreePc.done ∧
    (kfree_schedule tinyLayout 12288 (kfree_enter sharedPage) [0, 1, 0, 1, 0, 1, 0, 1]).pc 1
      = KfreePc.done ∧
    (kfree_schedule tinyLayout 12288 (kfree_enter sharedPage) [0, 1, 0, 1, 0, 1, 0, 1]).pushedBy
      = [1, 0] ∧
    (kfree_schedule tinyLayout 12288 (kfree_enter sharedPage)
      [0, 1, 0, 1, 0, 1, 0, 1]).k.freelist = 12288 ∧
    read64 (kfree_schedule tinyLayout 12288 (kfree_enter sharedPage)
      [0, 1, 0, 1, 0, 1, 0, 1]).k.mem 12288 = 12288 ∧
    (kalloc tinyLayout (kfree_schedule tinyLayout 12288 (kfree_enter sharedPage)
      [0, 1, 0, 1, 0, 1, 0, 1]).k).2 = 12288 ∧
    (kalloc tinyLayout (kalloc tinyLayout (kfree_schedule tinyLayout 12288
      (kfree_enter sharedPage) [0, 1, 0, 1, 0, 1, 0, 1]).k).1).2 = 12288 ∧
    (kfree_schedule tinyLayout 12288 (kfree_enter sharedPage) [0, 0, 0, 0, 1, 1, 1, 1]).pushedBy
      = [1] := by
  decide

/-! ## The mask of `sys_pgaccess` -/

/-- With `nums <= 0` or `nums > 64`, `sys_pgaccess` returns -1, leaves every page-table entry
as it is and copies nothing out. -/
theorem sys_pgaccess_bad_nums (F : PteFlags) (walk : Nat → Option Nat) (ok : Bool)
    (pte : Nat → Nat) (va : Nat) (nums : Int) (h : nums ≤ 0 ∨ nums > 64) :
    (sys_pgaccess F walk ok pte va nums).ret = -1 ∧
    (sys_pgaccess F walk ok pte va nums).pte = pte ∧
    (sys_pgaccess F walk ok pte va nums).copied = none := by
  unfold sys_pgaccess
  rw [if_pos h]
  exact ⟨rfl, rfl, rfl⟩

set_option maxRecDepth 100000 in
/-- C15 (refuted by the code): with `nums = 32` and, among 32 valid pages from `va = 0`, only
page 31 accessed, `sys_pgaccess` returns 0 and copies out the mask 0xFFFFFFFF80000000: the
bits at positions 32 to 63, all `>= nums`, are 1. With `nums = 33` and only page 32 accessed
(its entry has both `PTE_V` and `PTE_A` set) it copies out the mask 1: bit 32 is 0 and bit 0 is
1, although the entry of page 0 is not accessed. -/
theorem C15_mask_wrong_from_bit_31 :
    (sys_pgaccess riscvFlags flatWalk true (onlyAccessed 31) 0 32).ret = 0 ∧
    (sys_pgaccess riscvFlags flatWalk true (onlyAccessed 31) 0 32).copied
      = some 18446744071562067968 ∧
    Nat.testBit 18446744071562067968 32 = true ∧
    Nat.testBit 18446744071562067968 63 = true ∧
    (onlyAccessed 32 32 &&& riscvFlags.PTE_V ≠ 0 ∧ onlyAccessed 32 32 &&& riscvFlags.PTE_A ≠ 0) ∧
    onlyAccessed 32 0 &&& riscvFlags.PTE_A = 0 ∧
    (sys_pgaccess riscvFlags flatWalk true (onlyAccessed 32) 0 33).ret = 0 ∧
    (sys_pgaccess riscvFlags flatWalk true (onlyAccessed 32) 0 33).copied = some 1 ∧
    Nat.testBit 1 32 = false ∧
    Nat.testBit 1 0 = true := by
  decide

theorem shl_int_one_small (i : Nat) (h : i < 31) : shl_int_one i = 2 ^ i := by
  unfold shl_int_one
  have hm : i % 32 = i := Nat.mod_eq_of_lt (by omega)
  have hlt : 2 ^ i < 2 ^ 31 := Nat.pow_lt_pow_right (by decide) h
  rw [hm, if_pos (by omega)]

/-- The loop of `sys_pgaccess` up to 31 pages: after `k` iterations the entries of the pages
not yet visited are unchanged, and the mask has bit `i` set, for `i < k`, exactly when page `i`
had a valid and accessed entry, and no bit set from position `k` on. -/
theorem pgaccess_loop_small (F : PteFlags) (walk : Nat → Option Nat) (pte : Nat → Nat)
    (va N : Nat) (hN : N ≤ 31)
    (hinj : ∀ i j a, i < N → j < N →
      walk ((va + i * PGSIZE) % 18446744073709551616) = some a →
      walk ((va + j * PGSIZE) % 18446744073709551616) = some a → i = j) :
    ∀ k, k ≤ N →
      (∀ j a, k ≤ j → j < N →
        walk ((va + j * PGSIZE) % 18446744073709551616) = some a →
        ((List.range k).foldl (pgaccess_body F walk va) (pte, 0)).1 a = pte a) ∧
      ((List.range k).foldl (pgaccess_body F walk va) (pte, 0)).2 < 2 ^ k ∧
      (∀ i, i < k →
        (((List.range k).foldl (pgaccess_body F walk va) (pte, 0)).2.testBit i = true ↔
          accessedPage F walk pte va i)) := by
  intro k
  induction k with
  | zero =>
    intro _
    exact ⟨fun _ _ _ _ _ => rfl, Nat.zero_lt_one, fun i hi => absurd hi (Nat.not_lt_zero i)⟩
  | succ k ih =>
    intro hk
    obtain ⟨ha, hb, hc⟩ := ih (by omega)
    rw [List.range_succ, List.foldl_append]
    simp only [List.foldl_cons, List.foldl_nil]
    generalize (List.range k).foldl (pgaccess_body F walk va) (pte, 0) = acc at ha hb hc
    have hpow : 2 ^ k < 2 ^ (k + 1) := Nat.pow_lt_pow_right (by decide) (Nat.lt_succ_self k)
    have hold : ∀ i, i < k → ((acc.2 ||| 2 ^ k).testBit i = true ↔ acc.2.testBit i = true) := by
      intro i hi
      rw [Nat.testBit_or, Nat.testBit_two_pow_of_ne (by omega), Bool.or_false]
    cases hw : walk ((va + k * PGSIZE) % 18446744073709551616) with
    | none =>
      have hno : ¬ accessedPage F walk pte va k := by
        rintro ⟨a, h1, _⟩
        rw [hw] at h1
        cases h1
      have hbody : pgaccess_body F walk va acc k = acc := by
        unfold pgaccess_body
        rw [hw]
      rw [hbody]
      refine ⟨fun j a hj1 hj2 hj => ha j a (by omega) hj2 hj, by omega, ?_⟩
      intro i hi
      rcases Nat.lt_succ_iff_lt_or_eq.mp hi with h | h
      · exact hc i h
      · rw [h, Nat.testBit_lt_two_pow hb]
        exact ⟨fun h' => Bool.noConfusion h', fun h' => absurd h' hno⟩
    | some a =>
      have hval : acc.1 a = pte a := ha k a (le_refl k) (by omega) hw
      by_cases hcond : pte a &&& F.PTE_V ≠ 0 ∧ pte a &&& F.PTE_A ≠ 0
      · have hyes : accessedPage F walk pte va k := ⟨a, hw, hcond⟩
        have hbody : pgaccess_body F walk va acc k
            = (upd acc.1 a (acc.1 a &&& (18446744073709551615 - F.PTE_A)),
               acc.2 ||| shl_int_one k) := by
          unfold pgaccess_body
          rw [hw]
          dsimp only
          rw [hval, if_pos hcond]
        rw [hbody, shl_int_one_small k (by omega)]
        refine ⟨?_, Nat.or_lt_two_pow (by omega) hpow, ?_⟩
        · intro j a' hj1 hj2 hj
          have hne : a' ≠ a := by
            intro e
            rw [e] at hj
            have := hinj j k a hj2 (by omega) hj hw
            omega
          show upd acc.1 a _ a' = pte a'
          rw [upd_other _ _ _ _ hne]
          exact ha j a' (by omega) hj2 hj
        · intro i hi
          show (acc.2 ||| 2 ^ k).testBit i = true ↔ _
          rcases Nat.lt_succ_iff_lt_or_eq.mp hi with h | h
          · rw [hold i h]
            exact hc i h
          · rw [h, Nat.testBit_or, Nat.testBit_two_pow_self, Bool.or_true]
            exact ⟨fun _ => hyes, fun _ => rfl⟩
      · have hno : ¬ accessedPage F walk pte va k := by
          rintro ⟨a', h1, h2⟩
          rw [hw] at h1
          cases h1
          exact hcond h2
        have hbody : pgaccess_body F walk va acc k = acc := by
          unfold pgaccess_body
          rw [hw]
          dsimp only
          rw [hval, if_neg hcond]
        rw [hbody]
        refine ⟨fun j a' hj1 hj2 hj => ha j a' (by omega) hj2 hj, by omega, ?_⟩
        intro i hi
        rcases Nat.lt_succ_iff_lt_or_eq.mp hi with h | h
        · exact hc i h
        · rw [h, Nat.testBit_lt_two_pow hb]
          exact ⟨fun h' => Bool.noConfusion h', fun h' => absurd h' hno⟩

/-- For `1 <= nums <= 31`, when `copyout` succeeds and distinct pages have distinct page-table
entries, `sys_pgaccess` returns 0 and copies out a mask whose bit `i`, for `i < nums`, is 1
exactly when page `i` had a page-table entry with `PTE_V` and `PTE_A` set before the call, and
whose bits at positions `>= nums` are 0. -/
theorem sys_pgaccess_mask_small (F : PteFlags) (walk : Nat → Option Nat) (pte : Nat → Nat)
    (va : Nat) (nums : Int) (h1 : 1 ≤ nums) (h31 : nums ≤ 31)
    (hinj : ∀ i j a, i < nums.toNat → j < nums.toNat →
      walk ((va + i * PGSIZE) % 18446744073709551616) = some a →
      walk ((va + j * PGSIZE) % 18446744073709551616) = some a → i = j) :
    (sys_pgaccess F walk true pte va nums).ret = 0 ∧
    ∃ m, (sys_pgaccess F walk true pte va nums).copied = some m ∧
      (∀ i, i < nums.toNat → (m.testBit i = true ↔ accessedPage F walk pte va i)) ∧
      (∀ i, nums.toNat ≤ i → m.testBit i = false) := by
  obtain ⟨_, hb, hc⟩ :=
    pgaccess_loop_small F walk pte va nums.toNat (by omega) hinj nums.toNat (le_refl _)
  have hs : sys_pgaccess F walk true pte va nums
      = { ret := 0,
          pte := ((List.range nums.toNat).foldl (pgaccess_body F walk va) (pte, 0)).1,
          copied := some ((List.range nums.toNat).foldl (pgaccess_body F walk va) (pte, 0)).2 }
      := by
    unfold sys_pgaccess
    rw [if_neg (by omega)]
    rfl
  rw [hs]
  refine ⟨rfl, _, rfl, hc, ?_⟩
  intro i hi
  apply Nat.testBit_lt_two_pow
  exact lt_of_lt_of_le hb (Nat.pow_le_pow_right (by decide) hi)

end Xv6
